import Mathlib

/-! Tile, distribute and fuse: a verification development.

A shallow embedding of the workgroup tiling code of
`compiler/src/iree/compiler/Codegen/Common/TileDispatchUsingInterface.cpp` and
`compiler/src/iree/compiler/Codegen/Common/TileAndDistributeToWorkgroupsPass.cpp`.

Index-typed SSA values and `OpFoldResult`s are embedded as symbolic expressions
(`Expr`) that are evaluated in a runtime environment; the builder calls of the
source become constructors of these expressions.
-/

set_option autoImplicit false

namespace Iree

/-! ## Index values -/

/-- An index-typed `Value` or `OpFoldResult`. `const` is a compile-time constant
(an `arith.constant` or an index attribute), `dyn` a value only known at run
time, `iv` the induction variable of a generated `scf.for`; the remaining
constructors are the affine operations the code builds. -/
inductive Expr where
  | const (c : Int)
  | dyn (id : Nat)
  | iv (loop : Nat)
  | add (a b : Expr)
  | mul (a b : Expr)
  | ceilDiv (a b : Expr)
  | min (a b : Expr)
  deriving DecidableEq, Repr

/-- The run-time values of the dynamic values and of the induction variables. -/
structure Env where
  dyn : Nat → Int
  iv : Nat → Int

/-- Ceiling division as `affine.apply` defines it: only for a positive divisor. -/
def ceilDivInt (a b : Int) : Option Int :=
  if 0 < b then some (-((-a) / b)) else none

/-- The run-time value of an index expression; `none` where the affine
semantics is undefined (ceiling division by a non-positive value). -/
def Expr.eval (env : Env) : Expr → Option Int
  | .const c => some c
  | .dyn i => some (env.dyn i)
  | .iv l => some (env.iv l)
  | .add a b => do
      let x ← a.eval env
      let y ← b.eval env
      pure (x + y)
  | .mul a b => do
      let x ← a.eval env
      let y ← b.eval env
      pure (x * y)
  | .ceilDiv a b => do
      let x ← a.eval env
      let y ← b.eval env
      ceilDivInt x y
  | .min a b => do
      let x ← a.eval env
      let y ← b.eval env
      pure (Min.min x y)

/-- Whether an expression is built from constants only. -/
def Expr.isClosed : Expr → Bool
  | .const _ => true
  | .dyn _ => false
  | .iv _ => false
  | .add a b => a.isClosed && b.isClosed
  | .mul a b => a.isClosed && b.isClosed
  | .ceilDiv a b => a.isClosed && b.isClosed
  | .min a b => a.isClosed && b.isClosed

/-- The environment used to fold closed expressions. -/
def Env.zero : Env := ⟨fun _ => 0, fun _ => 0⟩

/-- Folding of a freshly built affine operation: an operation whose operands
are all constants and whose value is defined becomes a constant. -/
def Expr.fold (e : Expr) : Expr :=
  if e.isClosed then
    match e.eval Env.zero with
    | some c => .const c
    | none => e
  else e

/-- `isConstantIntValue(ofr, c)`. -/
def isConstantIntValue (e : Expr) (c : Int) : Bool :=
  match e with
  | .const k => k == c
  | _ => false

/-- `isZero`: the value is the constant zero. -/
def isZero (val : Expr) : Bool := isConstantIntValue val 0

/-! ## Affine expressions and maps -/

/-- An `AffineExpr` over dimensions and symbols. -/
inductive AffineExpr where
  | dim (i : Nat)
  | sym (i : Nat)
  | cst (c : Int)
  | add (a b : AffineExpr)
  | mul (a b : AffineExpr)
  | ceilDiv (a b : AffineExpr)
  deriving DecidableEq, Repr

/-- `a - b` on affine expressions is `a + b * (-1)`. -/
def AffineExpr.sub (a b : AffineExpr) : AffineExpr := .add a (.mul b (.cst (-1)))

/-- An `AffineMap`: the number of dimensions, of symbols, and the results. -/
structure AffineMap where
  numDims : Nat
  numSymbols : Nat
  results : List AffineExpr
  deriving DecidableEq, Repr

/-- Composition of an affine expression with its operands: the dimensions come
first in the operand list, then the symbols. -/
def AffineExpr.compose (numDims : Nat) (operands : List Expr) : AffineExpr → Expr
  | .dim i => operands.getD i (.const 0)
  | .sym i => operands.getD (numDims + i) (.const 0)
  | .cst c => .const c
  | .add a b => .add (a.compose numDims operands) (b.compose numDims operands)
  | .mul a b => .mul (a.compose numDims operands) (b.compose numDims operands)
  | .ceilDiv a b => .ceilDiv (a.compose numDims operands) (b.compose numDims operands)

/-- `makeComposedAffineApply` for a single-result map (the first result). -/
def makeComposedAffineApply (map : AffineMap) (operands : List Expr) : Expr :=
  match map.results with
  | [] => .const 0
  | e :: _ => e.compose map.numDims operands

/-- `makeComposedFoldedAffineApply` for an expression over symbols only. -/
def makeComposedFoldedAffineApply (e : AffineExpr) (operands : List Expr) : Expr :=
  (e.compose 0 operands).fold

/-- The minimum of a non-empty list of expressions. -/
def minOfExprs : List Expr → Expr
  | [] => .const 0
  | [e] => e
  | e :: es => .min e (minOfExprs es)

/-- `makeComposedFoldedAffineMin`. -/
def makeComposedFoldedAffineMin (map : AffineMap) (operands : List Expr) : Expr :=
  (minOfExprs (map.results.map (AffineExpr.compose map.numDims operands))).fold

/-! ## Distribution arithmetic -/

/-- `getDistributeLBAndStep`: `lb + procId * step` and `step * nprocs`. -/
def getDistributeLBAndStep (lb step procId nprocs : Expr) : Expr × Expr :=
  let s0 := AffineExpr.sym 0
  let s1 := AffineExpr.sym 1
  let s2 := AffineExpr.sym 2
  let offsetMap : AffineMap := ⟨0, 3, [.add s0 (.mul s1 s2)]⟩
  let stepMap : AffineMap := ⟨0, 2, [.mul s0 s1]⟩
  let distributeLB := makeComposedAffineApply offsetMap [lb, procId, step]
  let distributeStep := makeComposedAffineApply stepMap [step, nprocs]
  (distributeLB, distributeStep)

/-! ## Permutations of the loop dimensions -/

/-- Failures of a rewrite. `matchFailure` is a failure the code signals;
`assertion` is a violated `assert`; `outOfBounds` is an access past the end of a
vector, which the code does not guard. -/
inductive Failure where
  | matchFailure (msg : String)
  | assertion (msg : String)
  | outOfBounds
  deriving DecidableEq, Repr

/-- `fillInterchangeVector`: extend a short interchange vector by the missing
trailing indices and cut a long one down to the size of the iteration domain. -/
def fillInterchangeVector (interchangeVector : List Nat) (iterationDomainSize : Nat) :
    List Nat :=
  let filledVector :=
    if interchangeVector.length < iterationDomainSize then
      interchangeVector ++
        List.range' interchangeVector.length (iterationDomainSize - interchangeVector.length)
    else interchangeVector
  if filledVector.length > iterationDomainSize then filledVector.take iterationDomainSize
  else filledVector

/-- The mapped range of `applyPermutationToVector`: `vector[val]` for each value. -/
def gatherAt {α : Type} (vector : List α) : List Nat → Except Failure (List α)
  | [] => .ok []
  | val :: rest =>
      match vector[val]? with
      | none => .error .outOfBounds
      | some x =>
        match gatherAt vector rest with
        | .error e => .error e
        | .ok xs => .ok (x :: xs)

/-- `applyPermutationToVector`: entry `i` of the result is `vector[interchange[i]]`. -/
def applyPermutationToVector {α : Type} (vector : List α) (interchange : List Nat) :
    Except Failure (List α) :=
  if interchange.length ≠ vector.length then
    .error (.assertion "interchange.size() == vector.size()")
  else gatherAt vector interchange

/-- The loop of `invertPermutationVector`: `inversion[value] = index`. -/
def invertPermutationLoop : List Nat → Nat → List Nat → Except Failure (List Nat)
  | [], _, inversion => .ok inversion
  | val :: rest, index, inversion =>
      if val < inversion.length then
        invertPermutationLoop rest (index + 1) (inversion.set val index)
      else .error .outOfBounds

/-- `invertPermutationVector`. -/
def invertPermutationVector (interchange : List Nat) : Except Failure (List Nat) :=
  invertPermutationLoop interchange 0 (List.replicate interchange.length 0)

/-- The loop of `isPermutation` over the values seen so far: `none` when a value
repeats, otherwise the final set of seen values. -/
def isPermutationLoop : List Nat → List Nat → Option (List Nat)
  | [], seenVals => some seenVals
  | val :: rest, seenVals =>
      if seenVals.contains val then none else isPermutationLoop rest (val :: seenVals)

/-- `isPermutation`: no value occurs twice in the interchange vector. -/
def isPermutation (interchange : List Nat) : Bool :=
  match isPermutationLoop interchange [] with
  | none => false
  | some seenVals => seenVals.length == interchange.length

/-! ## The tile loop nest -/

/-- `linalg::DistributionMethod`. -/
inductive DistributionMethod where
  | Cyclic
  | CyclicNumProcsGeNumIters
  | CyclicNumProcsEqNumIters
  | None
  deriving DecidableEq, Repr

/-- `linalg::ProcInfo`. -/
structure ProcInfo where
  procId : Expr
  nprocs : Expr
  distributionMethod : DistributionMethod
  deriving DecidableEq, Repr

/-- `Range`: one dimension of an iteration domain. -/
structure Range where
  offset : Expr
  size : Expr
  stride : Expr
  deriving DecidableEq, Repr

/-- `RangeVal`: the mirror of `Range` with `Value` fields. -/
structure RangeVal where
  offset : Expr
  size : Expr
  stride : Expr
  deriving DecidableEq, Repr

/-- An `scf.for`; its induction variable is `Expr.iv inductionVar`. -/
structure ForOp where
  lb : Expr
  ub : Expr
  step : Expr
  inductionVar : Nat
  deriving DecidableEq, Repr

/-- `ForOp::getInductionVar`. -/
def ForOp.getInductionVar (loop : ForOp) : Expr := .iv loop.inductionVar

/-- The map `(d0)[s0, s1] -> (s0, s1 - d0)` of `generateTileLoopNest`. -/
def minMap : AffineMap :=
  ⟨1, 2, [AffineExpr.sym 0, AffineExpr.sub (AffineExpr.sym 1) (AffineExpr.dim 0)]⟩

/-- `createBoundedTileSize`: the constant `1` for a unit tile size, otherwise the
minimum of `tileSize` and `size - iv`. -/
def createBoundedTileSize (iv tileSize size : Expr) : Expr :=
  if isConstantIntValue tileSize 1 then .const 1
  else makeComposedFoldedAffineMin minMap [iv, tileSize, size]

/-- What one iteration of the loop of `generateTileLoopNest` produces: the offset
and size of the dimension, the loop when one is created, and the next `procDim`. -/
structure DimTile where
  offset : Expr
  size : Expr
  loop : Option ForOp
  procDim : Nat
  deriving DecidableEq, Repr

/-- The body of the loop of `generateTileLoopNest` for the dimension `index`;
`numLoops` is the number of loops created so far, which names the next
induction variable. -/
def tileDimension (loopRange : RangeVal) (tileSizeVals : List Expr)
    (distributionMethod : List DistributionMethod) (procInfo : List ProcInfo)
    (index procDim numLoops : Nat) : Except Failure DimTile :=
  let lb := loopRange.offset
  let ub := loopRange.size
  match tileSizeVals[index]? with
  | none => .error .outOfBounds
  | some tileSize =>
    let step := tileSize
    if isZero tileSize then
      .ok ⟨lb, ub, none, procDim⟩
    else
      match distributionMethod[index]? with
      | none => .error .outOfBounds
      | some method =>
        let distributed : Except Failure (Expr × Expr × Nat) :=
          if method ≠ DistributionMethod.None then
            match procInfo[procDim]? with
            | none => .error .outOfBounds
            | some info =>
              let r := getDistributeLBAndStep lb step info.procId info.nprocs
              .ok (r.1, r.2, procDim + 1)
          else .ok (lb, step, procDim)
        match distributed with
        | .error e => .error e
        | .ok (lb, step, procDim) =>
          if method = DistributionMethod.CyclicNumProcsEqNumIters then
            .ok ⟨lb, createBoundedTileSize lb tileSize ub, none, procDim⟩
          else
            let loop : ForOp := ⟨lb, ub, step, numLoops⟩
            .ok ⟨loop.getInductionVar,
                 createBoundedTileSize loop.getInductionVar tileSize ub, some loop, procDim⟩

/-- The loops, offsets and sizes produced by `generateTileLoopNest`. -/
structure LoopNest where
  loops : List ForOp
  offsets : List Expr
  sizes : List Expr
  deriving DecidableEq, Repr

/-- The loop of `generateTileLoopNest` over the remaining loop ranges. -/
def generateTileLoopNestFrom (tileSizeVals : List Expr)
    (distributionMethod : List DistributionMethod) (procInfo : List ProcInfo) :
    List RangeVal → Nat → Nat → Nat → Except Failure LoopNest
  | [], _, _, _ => .ok ⟨[], [], []⟩
  | loopRange :: rest, index, procDim, numLoops =>
      match tileDimension loopRange tileSizeVals distributionMethod procInfo
          index procDim numLoops with
      | .error e => .error e
      | .ok t =>
        match generateTileLoopNestFrom tileSizeVals distributionMethod procInfo rest
            (index + 1) t.procDim (numLoops + t.loop.toList.length) with
        | .error e => .error e
        | .ok nest =>
          .ok ⟨t.loop.toList ++ nest.loops, t.offset :: nest.offsets, t.size :: nest.sizes⟩

/-- `generateTileLoopNest`. -/
def generateTileLoopNest (loopRanges : List RangeVal) (tileSizeVals : List Expr)
    (distributionMethod : List DistributionMethod) (procInfo : List ProcInfo) :
    Except Failure LoopNest :=
  if loopRanges.isEmpty then .error (.assertion "expected at least one loop range")
  else if loopRanges.length ≠ tileSizeVals.length then
    .error (.assertion "expected as many tile sizes as loop ranges")
  else if loopRanges.length ≠ distributionMethod.length then
    .error (.assertion "expected as many entries in distribution method list as number of loop ranges")
  else generateTileLoopNestFrom tileSizeVals distributionMethod procInfo loopRanges 0 0 0

/-! ## Lowering of the workgroup count -/

/-- `SmallVector::resize(n, fill)`: cut to `n` entries or extend with `fill`. -/
def resize {α : Type} (v : List α) (n : Nat) (fill : α) : List α :=
  v.take n ++ List.replicate (n - v.length) fill

/-- The pattern `LowerDispatchWorkgroupCountForDagRootOp` with its configuration. -/
structure LowerDispatchWorkgroupCountForDagRootOp where
  givenTileSizes : List Int
  givenStaticLoopRanges : List Int
  givenInterchange : List Int
  partitionedLoops : List Nat
  deriving DecidableEq, Repr

/-- The number of tiles of one axis: `1` for a zero tile size, otherwise
`ceilDiv(workload, tileSize)`, where the workload is the static loop range
unless that is `kDynamic`. -/
def numTilesOfAxis (kDynamic : Int) (workloadValue : Expr) (staticLoopRange : Int)
    (tileSize : Expr) : Expr :=
  if isConstantIntValue tileSize 0 then .const 1
  else
    let workload := if staticLoopRange = kDynamic then workloadValue else .const staticLoopRange
    makeComposedFoldedAffineApply (.ceilDiv (.sym 0) (.sym 1)) [workload, tileSize]

/-- The vector `numTiles` of `matchAndRewrite`, before the interchange. -/
def LowerDispatchWorkgroupCountForDagRootOp.numTiles
    (pattern : LowerDispatchWorkgroupCountForDagRootOp) (kDynamic : Int)
    (workloadValues : List Expr) : List Expr :=
  let tileSizes := resize (pattern.givenTileSizes.map Expr.const) workloadValues.length (.const 0)
  let staticLoopRanges := resize pattern.givenStaticLoopRanges workloadValues.length kDynamic
  (workloadValues.zip (staticLoopRanges.zip tileSizes)).map fun p =>
    numTilesOfAxis kDynamic p.1 p.2.1 p.2.2

/-- The interchange loop of `matchAndRewrite`:
`interchangedNumTiles[value] = numTiles[index]`. -/
def interchangeNumTilesLoop (numTiles : List Expr) :
    List Int → Nat → List Expr → Except Failure (List Expr)
  | [], _, interchangedNumTiles => .ok interchangedNumTiles
  | value :: rest, index, interchangedNumTiles =>
      match numTiles[index]? with
      | none => .error .outOfBounds
      | some n =>
        if 0 ≤ value ∧ value.toNat < interchangedNumTiles.length then
          interchangeNumTilesLoop numTiles rest (index + 1)
            (interchangedNumTiles.set value.toNat n)
        else .error .outOfBounds

/-- The tile counts after the interchange step of `matchAndRewrite`. -/
def interchangeNumTiles (givenInterchange : List Int) (numTiles : List Expr) :
    Except Failure (List Expr) :=
  if givenInterchange.isEmpty then .ok numTiles
  else interchangeNumTilesLoop numTiles givenInterchange 0 numTiles

/-- The partitioned loops in reverse, each giving `numTiles[partitionedLoop]`. -/
def pruneNumTiles (numTiles : List Expr) : List Nat → Except Failure (List Expr)
  | [] => .ok []
  | partitionedLoop :: rest =>
      match numTiles[partitionedLoop]? with
      | none => .error .outOfBounds
      | some n =>
        match pruneNumTiles numTiles rest with
        | .error e => .error e
        | .ok ns => .ok (n :: ns)

/-- `LowerDispatchWorkgroupCountForDagRootOp::matchAndRewrite`: the values that
replace the workgroup count operation. -/
def LowerDispatchWorkgroupCountForDagRootOp.matchAndRewrite
    (pattern : LowerDispatchWorkgroupCountForDagRootOp) (kDynamic : Int)
    (kNumMaxParallelDims : Nat) (workloadValues : List Expr) : Except Failure (List Expr) :=
  match interchangeNumTiles pattern.givenInterchange (pattern.numTiles kDynamic workloadValues) with
  | .error e => .error e
  | .ok numTiles =>
    match pruneNumTiles numTiles pattern.partitionedLoops.reverse with
    | .error e => .error e
    | .ok numWorkgroups => .ok (resize numWorkgroups kNumMaxParallelDims (.const 1))

/-! ## Operations, stores and the rewriter state -/

/-- `utils::IteratorType`. -/
inductive IteratorType where
  | parallel
  | reduction
  deriving DecidableEq, Repr

/-- Operations are identified by a number. -/
abbrev OpId := Nat

/-- An operation, as far as tiling looks at it. -/
structure Operation where
  id : OpId
  numResults : Nat
  deriving DecidableEq, Repr

/-- A result of an operation. -/
structure OpResult where
  owner : OpId
  resultNumber : Nat
  deriving DecidableEq, Repr

/-- A `flow.dispatch.tensor.store`. -/
structure DispatchTensorStoreOp where
  id : OpId
  value : OpResult
  target : Nat
  dynamicDims : List Expr
  offsets : List Expr
  sizes : List Expr
  strides : List Expr
  droppedDims : List Bool
  deriving DecidableEq, Repr

/-- The transformation marker of an operation. -/
inductive Marker where
  | notYetProcessed (name : String)
  | processed
  deriving DecidableEq, Repr

/-- The part of the operation graph the rewrite reads and changes: the markers,
the stores and the erased operations. Operations the rewrite only creates, such
as the `arith.constant` operations of the iteration domain and of the tile
sizes, are not recorded: equal states may differ in them. -/
structure IRState where
  markers : List (OpId × Marker)
  stores : List DispatchTensorStoreOp
  erased : List OpId
  nextId : OpId
  deriving DecidableEq, Repr

/-- The marker of an operation. -/
def IRState.markerOf (st : IRState) (op : OpId) : Option Marker := st.markers.lookup op

/-- Set the marker of an operation. -/
def IRState.setMarker (st : IRState) (op : OpId) (m : Marker) : IRState :=
  { st with markers := (op, m) :: st.markers.filter fun e => e.1 ≠ op }

/-- `rewriter.eraseOp`. -/
def IRState.eraseOp (st : IRState) (op : OpId) : IRState :=
  { st with erased := op :: st.erased, stores := st.stores.filter fun s => s.id ≠ op }

/-- An operation implementing `TilingInterface`. -/
structure TilingInterfaceOp where
  op : Operation
  getIterationDomain : List Range
  getLoopIteratorTypes : List IteratorType
  getTiledImplementation : List Expr → List Expr → List Operation
  getResultTilePosition : Nat → List Expr → List Expr → Option (List Expr × List Expr)

/-- `linalg::LinalgTilingOptions`, the part the pattern reads; `distribution` is
`options.distribution->procInfo`. -/
structure LinalgTilingOptions where
  tileSizeComputationFunction : Option (TilingInterfaceOp → List Expr)
  interchangeVector : List Nat
  distribution : Option (List Range → List ProcInfo)

/-- Modelled from the spec: `LinalgTransformationFilter`, which is not part of the
sources at hand. A filter is configured with a marker; an operation passes when
it carries that marker as not yet processed. -/
structure LinalgTransformationFilter where
  marker : String
  deriving DecidableEq, Repr

/-- Modelled from the spec: `LinalgTransformationFilter::checkAndNotify`. The
operation must carry a not-yet-processed marker matching the configured one. -/
def LinalgTransformationFilter.checkAndNotify (filter : LinalgTransformationFilter)
    (st : IRState) (op : OpId) : Bool :=
  st.markerOf op == some (.notYetProcessed filter.marker)

/-- Modelled from the spec:
`LinalgTransformationFilter::replaceLinalgTransformationFilter`. The operation
is marked as processed. -/
def LinalgTransformationFilter.replaceLinalgTransformationFilter
    (_filter : LinalgTransformationFilter) (st : IRState) (op : OpId) : IRState :=
  st.setMarker op .processed

/-- The type of `mergeOffsetsSizesAndStrides`, a library function taken as a
parameter: from the offsets, sizes and strides of the store, its dropped
dimensions, and the offsets, sizes and strides of the tile, the combined
offsets, sizes and strides, or a failure. -/
abbrev MergeFn :=
  List Expr → List Expr → List Expr → List Bool → List Expr → List Expr → List Expr →
    Option (List Expr × List Expr × List Expr)

/-- `replaceStoreWithTiledVersion`. -/
def replaceStoreWithTiledVersion (mergeOffsetsSizesAndStrides : MergeFn)
    (untiledValue tiledValue : OpResult) (tileOffsets tileSizes : List Expr)
    (st : IRState) : Except Failure Unit × IRState :=
  let storeOps := st.stores.filter fun storeOp => storeOp.value = untiledValue
  match storeOps with
  | [] => (.ok (), st)
  | [storeOp] =>
    let tileStrides : List Expr := List.replicate tileOffsets.length (.const 1)
    match mergeOffsetsSizesAndStrides storeOp.offsets storeOp.sizes storeOp.strides
        storeOp.droppedDims tileOffsets tileSizes tileStrides with
    | none =>
      (.error (.matchFailure "failed to create tiled flow.dispatch.tensor.store op"), st)
    | some (combinedOffsets, combinedSizes, combinedStrides) =>
      let created : DispatchTensorStoreOp :=
        ⟨st.nextId, tiledValue, storeOp.target, storeOp.dynamicDims, combinedOffsets,
          combinedSizes, combinedStrides, storeOp.droppedDims⟩
      let st1 : IRState := { st with stores := st.stores ++ [created], nextId := st.nextId + 1 }
      (.ok (), st1.eraseOp storeOp.id)
  | _ => (.error (.matchFailure "expected a single store for the op"), st)

/-- The loop of `replaceAllStoresWithTiledVersion` over the results
`index, index + 1, ...` of the untiled operation. -/
def replaceAllStoresLoop (mergeOffsetsSizesAndStrides : MergeFn) (untiledOp : TilingInterfaceOp)
    (offsets sizes : List Expr) (tiledOp : Operation) :
    Nat → Nat → IRState → Except Failure Unit × IRState
  | 0, _, st => (.ok (), st)
  | remaining + 1, index, st =>
    match untiledOp.getResultTilePosition index offsets sizes with
    | none => (.error (.matchFailure "failed to rewrite destructive update"), st)
    | some (resultOffsets, resultSizes) =>
      if tiledOp.numResults ≤ index then (.error .outOfBounds, st)
      else
        match replaceStoreWithTiledVersion mergeOffsetsSizesAndStrides
            ⟨untiledOp.op.id, index⟩ ⟨tiledOp.id, index⟩ resultOffsets resultSizes st with
        | (.error e, st1) => (.error e, st1)
        | (.ok _, st1) =>
          replaceAllStoresLoop mergeOffsetsSizesAndStrides untiledOp offsets sizes tiledOp
            remaining (index + 1) st1

/-- `replaceAllStoresWithTiledVersion`. -/
def replaceAllStoresWithTiledVersion (mergeOffsetsSizesAndStrides : MergeFn)
    (untiledOp : TilingInterfaceOp) (offsets sizes : List Expr) (tiledOp : Operation)
    (st : IRState) : Except Failure Unit × IRState :=
  replaceAllStoresLoop mergeOffsetsSizesAndStrides untiledOp offsets sizes tiledOp
    untiledOp.op.numResults 0 st

/-! ## The tiling pattern -/

/-- `TilingResult`. -/
structure TilingResult where
  tiledOp : Option Operation
  loops : List ForOp
  tiledLoops : List Bool
  tileOffsets : List Expr
  tileSizes : List Expr
  deriving DecidableEq, Repr

/-- The materialized tile sizes: the sizes the tile size function returns,
padded with zero and resized to the number of loops. -/
def materializeTileSizes (tileSizeVector : List Expr) (numLoops : Nat) : List Expr :=
  let padded :=
    if tileSizeVector.length < numLoops then
      tileSizeVector ++ List.replicate (numLoops - tileSizeVector.length) (.const 0)
    else tileSizeVector
  resize padded numLoops (.const 0)

/-- The interchange vector the pattern uses: empty when none is configured. -/
def filledInterchangeVector (options : LinalgTilingOptions) (numLoops : Nat) : List Nat :=
  if !options.interchangeVector.isEmpty then
    fillInterchangeVector options.interchangeVector numLoops
  else []

/-- The loop that collects the partitionable loops: the parallel loops with a
non-zero tile size, with the range read from the iteration domain. -/
def collectPartitionedLoops (tileSizeVector : List Expr) (iterationDomainOfr : List Range) :
    List IteratorType → Nat → Except Failure (List Range × List Nat)
  | [], _ => .ok ([], [])
  | iteratorType :: rest, index =>
    let selected : Except Failure Bool :=
      if iteratorType = IteratorType.parallel then
        match tileSizeVector[index]? with
        | none => .error .outOfBounds
        | some tileSize => .ok (!isZero tileSize)
      else .ok false
    match selected with
    | .error e => .error e
    | .ok false => collectPartitionedLoops tileSizeVector iterationDomainOfr rest (index + 1)
    | .ok true =>
      match iterationDomainOfr[index]? with
      | none => .error .outOfBounds
      | some range =>
        match collectPartitionedLoops tileSizeVector iterationDomainOfr rest (index + 1) with
        | .error e => .error e
        | .ok (parallelLoopRanges, partitionedLoopIds) =>
          .ok (range :: parallelLoopRanges, index :: partitionedLoopIds)

/-- The loop that assigns the distribution methods:
`distributionMethods[id] = procInfo[index].distributionMethod`. -/
def assignDistributionMethods (procInfo : List ProcInfo) :
    List Nat → Nat → List DistributionMethod → Except Failure (List DistributionMethod)
  | [], _, distributionMethods => .ok distributionMethods
  | id :: rest, index, distributionMethods =>
    match procInfo[index]? with
    | none => .error .outOfBounds
    | some info =>
      if id < distributionMethods.length then
        assignDistributionMethods procInfo rest (index + 1)
          (distributionMethods.set id info.distributionMethod)
      else .error .outOfBounds

/-- The distribution step of the pattern: the distribution methods and the
processor information, from the permuted tile sizes. -/
def distributeLoops (options : LinalgTilingOptions) (op : TilingInterfaceOp)
    (iterationDomainOfr : List Range) (tileSizeVector : List Expr) (numLoops : Nat) :
    Except Failure (List DistributionMethod × List ProcInfo) :=
  let distributionMethods := List.replicate numLoops DistributionMethod.None
  match options.distribution with
  | none => .ok (distributionMethods, [])
  | some distribution =>
    match collectPartitionedLoops tileSizeVector iterationDomainOfr op.getLoopIteratorTypes 0 with
    | .error e => .error e
    | .ok (parallelLoopRanges, partitionedLoopIds) =>
      let procInfo := distribution parallelLoopRanges
      match assignDistributionMethods procInfo partitionedLoopIds 0 distributionMethods with
      | .error e => .error e
      | .ok methods => .ok (methods, procInfo)

/-- What the block of the pattern that generates the loop nest yields: the
loops, the tile offsets and sizes in the original order of the dimensions, and
the tiled implementation. -/
structure TiledBlock where
  loops : List ForOp
  offsets : List Expr
  sizes : List Expr
  tiledImplementation : List Operation
  tiledOp : Operation
  deriving DecidableEq, Repr

/-- The block of `returningMatchAndRewrite` that permutes the iteration domain
and the tile sizes, distributes, generates the loop nest, permutes the offsets
and sizes back and asks for the tiled implementation. -/
def tileInsideLoopNest (options : LinalgTilingOptions) (op : TilingInterfaceOp)
    (iterationDomainOfr : List Range) (iterationDomain : List RangeVal)
    (tileSizeVector : List Expr) : Except Failure TiledBlock := do
  let interchangeVector := filledInterchangeVector options iterationDomain.length
  let (iterationDomain, tileSizeVector) ←
    if !interchangeVector.isEmpty then
      if !isPermutation interchangeVector then
        throw (.matchFailure
          "invalid intechange vector, not a permutation of the entire iteration space")
      else do
        let domain ← applyPermutationToVector iterationDomain interchangeVector
        let sizes ← applyPermutationToVector tileSizeVector interchangeVector
        pure (domain, sizes)
    else pure (iterationDomain, tileSizeVector)
  let (distributionMethods, procInfo) ←
    distributeLoops options op iterationDomainOfr tileSizeVector iterationDomain.length
  let nest ← generateTileLoopNest iterationDomain tileSizeVector distributionMethods procInfo
  let (offsets, sizes) ←
    if !interchangeVector.isEmpty then do
      let inversePermutation ← invertPermutationVector interchangeVector
      let offsets ← applyPermutationToVector nest.offsets inversePermutation
      let sizes ← applyPermutationToVector nest.sizes inversePermutation
      pure (offsets, sizes)
    else pure (nest.offsets, nest.sizes)
  let tiledImplementation := op.getTiledImplementation offsets sizes
  match tiledImplementation.getLast? with
  | none => throw .outOfBounds
  | some tiledOp => pure ⟨nest.loops, offsets, sizes, tiledImplementation, tiledOp⟩

/-- `TileDispatchUsingSCFForOp::returningMatchAndRewrite`: the result or the
failure, and the markers, stores and erased operations afterwards. The
constants the source creates for the iteration domain and the tile sizes, also
before a failure, are not part of the state. -/
def returningMatchAndRewrite (options : LinalgTilingOptions)
    (filter : LinalgTransformationFilter) (mergeOffsetsSizesAndStrides : MergeFn)
    (op : TilingInterfaceOp) (st : IRState) : Except Failure TilingResult × IRState :=
  if !filter.checkAndNotify st op.op.id then
    (.error (.matchFailure "filter"), st)
  else
    match options.tileSizeComputationFunction with
    | none => (.error (.matchFailure "missing tile size computation function"), st)
    | some tileSizeComputationFunction =>
      let iterationDomainOfr := op.getIterationDomain
      let numLoops := iterationDomainOfr.length
      if numLoops = 0 then
        (.error (.matchFailure "unable to tile op with no iteration domain"), st)
      else
        let iterationDomain : List RangeVal :=
          iterationDomainOfr.map fun r => ⟨r.offset, r.size, r.stride⟩
        let tileSizeVector := materializeTileSizes (tileSizeComputationFunction op) numLoops
        let tiledLoops := tileSizeVector.map fun tileSize => !isZero tileSize
        if !tiledLoops.any id then
          (.ok ⟨none, [], tiledLoops, [], []⟩,
            filter.replaceLinalgTransformationFilter st op.op.id)
        else
          match tileInsideLoopNest options op iterationDomainOfr iterationDomain
              tileSizeVector with
          | .error e => (.error e, st)
          | .ok block =>
            let tilingResult : TilingResult :=
              ⟨some block.tiledOp, block.loops, tiledLoops, block.offsets, block.sizes⟩
            let st1 := block.tiledImplementation.foldl
              (fun s tiledOp => filter.replaceLinalgTransformationFilter s tiledOp.id) st
            if op.op.numResults = 0 then
              (.ok tilingResult, st1.eraseOp op.op.id)
            else
              match replaceAllStoresWithTiledVersion mergeOffsetsSizesAndStrides op
                  tilingResult.tileOffsets tilingResult.tileSizes block.tiledOp st1 with
              | (.error e, st2) => (.error e, st2)
              | (.ok _, st2) => (.ok tilingResult, st2)

/-! ## Run-time behaviour of a generated loop -/

/-- The number of iterations of an `scf.for` with the given bounds and a
positive step. -/
def tripCount (lb ub step : Int) : Nat :=
  if 0 < step then ((ub - lb + step - 1) / step).toNat else 0

/-- The values the induction variable of an `scf.for` takes, in order. -/
def inductionValues (lb ub step : Int) : List Int :=
  (List.range (tripCount lb ub step)).map fun (k : Nat) => lb + (k : Int) * step

/-- The values the induction variable of a generated loop takes in an
environment. -/
def ForOp.inductionValues (loop : ForOp) (env : Env) : Option (List Int) := do
  let lb ← loop.lb.eval env
  let ub ← loop.ub.eval env
  let step ← loop.step.eval env
  pure (Iree.inductionValues lb ub step)

/-! ## A small dispatch used to evaluate the definitions -/

/-- An operation with a two-dimensional iteration domain, `100` by `50`, the
first dimension parallel and the second a reduction, with one result. -/
def sampleOp : TilingInterfaceOp where
  op := ⟨0, 1⟩
  getIterationDomain := [⟨.const 0, .const 100, .const 1⟩, ⟨.const 0, .const 50, .const 1⟩]
  getLoopIteratorTypes := [.parallel, .reduction]
  getTiledImplementation := fun _ _ => [⟨1, 1⟩]
  getResultTilePosition := fun _ offsets sizes => some (offsets, sizes)

/-- A state in which `sampleOp` carries the marker `tile` and is not processed. -/
def sampleState : IRState := ⟨[(0, .notYetProcessed "tile")], [], [], 2⟩

/-- The filter for the marker `tile`. -/
def sampleFilter : LinalgTransformationFilter := ⟨"tile"⟩

/-- A merge of offsets, sizes and strides that keeps those of the tile. -/
def sampleMerge : MergeFn := fun _ _ _ _ offsets sizes strides => some (offsets, sizes, strides)

/-- Tiling options with the tile sizes `10` and `4`, the given interchange
vector and distribution. -/
def sampleOptions (interchangeVector : List Nat)
    (distribution : Option (List Range → List ProcInfo)) : LinalgTilingOptions where
  tileSizeComputationFunction := some fun _ => [.const 10, .const 4]
  interchangeVector := interchangeVector
  distribution := distribution

/-- A distribution strategy that distributes every range it is given cyclically
and reports the size of the range as the number of processors, so that the
range forwarded for a dimension is visible in the result. -/
def sampleDistribution (parallelLoopRanges : List Range) : List ProcInfo :=
  parallelLoopRanges.map fun range => ⟨.dyn 0, range.size, DistributionMethod.Cyclic⟩

/-- A workgroup count pattern for three loops with the tile sizes `1`, `2`, `4`,
the static loop ranges `8`, `8`, `8` and the given interchange. -/
def samplePattern (givenInterchange : List Int) : LowerDispatchWorkgroupCountForDagRootOp :=
  ⟨[1, 2, 4], [8, 8, 8], givenInterchange, [0, 1, 2]⟩

/-! ## The dimensions that get a loop -/

/-- Whether dimension `i` is expected to get a loop: its tile size is not the
constant zero and its method is not `CyclicNumProcsEqNumIters`. -/
def expectsLoop (tileSizeVals : List Expr) (distributionMethod : List DistributionMethod)
    (i : Nat) : Bool :=
  match tileSizeVals[i]?, distributionMethod[i]? with
  | some tileSize, some method =>
    !isZero tileSize && decide (method ≠ DistributionMethod.CyclicNumProcsEqNumIters)
  | _, _ => false

/-- The dimensions expected to get a loop, in increasing order. -/
def loopDimensions (tileSizeVals : List Expr) (distributionMethod : List DistributionMethod)
    (numDims : Nat) : List Nat :=
  (List.range numDims).filter (expectsLoop tileSizeVals distributionMethod)

/-- An operation like `sampleOp` whose two dimensions are both parallel. -/
def sampleParallelOp : TilingInterfaceOp where
  op := ⟨0, 1⟩
  getIterationDomain := [⟨.const 0, .const 100, .const 1⟩, ⟨.const 0, .const 50, .const 1⟩]
  getLoopIteratorTypes := [.parallel, .parallel]
  getTiledImplementation := fun _ _ => [⟨1, 1⟩]
  getResultTilePosition := fun _ offsets sizes => some (offsets, sizes)

/-- A distribution strategy that always returns two entries: the first does not
distribute, the second distributes cyclically. -/
def sampleMixedDistribution (_parallelLoopRanges : List Range) : List ProcInfo :=
  [⟨.dyn 0, .dyn 1, DistributionMethod.None⟩, ⟨.dyn 2, .dyn 3, DistributionMethod.Cyclic⟩]

/-- A distribution strategy that always returns two cyclic entries, whatever
the number of ranges it is asked about. -/
def sampleSurplusDistribution (_parallelLoopRanges : List Range) : List ProcInfo :=
  [⟨.dyn 0, .dyn 1, DistributionMethod.Cyclic⟩, ⟨.dyn 2, .dyn 3, DistributionMethod.Cyclic⟩]

/-- A state with one store, of result `0` of operation `0` to target `7`. -/
def sampleStoreState : IRState :=
  ⟨[(0, .notYetProcessed "tile")],
   [⟨2, ⟨0, 0⟩, 7, [], [.const 0, .const 0], [.const 100, .const 50], [.const 1, .const 1],
     [false, false]⟩], [], 3⟩

/-- A merge of offsets, sizes and strides that always fails. -/
def sampleFailingMerge : MergeFn := fun _ _ _ _ _ _ _ => none

/-! ## The operand graph and the fusable producers -/

/-- The kind of an operation, as far as fusion distinguishes it. -/
inductive OpKind where
  | tilingInterface
  | extractSlice
  | other
  deriving DecidableEq, Repr

/-- An operation of the function with its operands; an operand is a result of
an operation, or `none` for a block argument. The source of a
`tensor.extract_slice` is its first operand. -/
structure OpNode where
  id : OpId
  kind : OpKind
  operands : List (Option OpResult)
  numResults : Nat
  deriving DecidableEq, Repr

/-- The operations of the function. -/
abbrev OpGraph := List OpNode

/-- The operation with the given identifier. -/
def OpGraph.node (g : OpGraph) (op : OpId) : Option OpNode :=
  g.find? fun node => node.id == op

/-- `op->getOpOperands()`. -/
def OpGraph.getOpOperands (g : OpGraph) (op : OpId) : List (Option OpResult) :=
  match g.node op with
  | some node => node.operands
  | none => []

/-- `operand.get().getDefiningOp<TilingInterface>()`. -/
def tilingInterfaceProducer (g : OpGraph) (operand : Option OpResult) : Option OpId :=
  match operand with
  | none => none
  | some result =>
    match g.node result.owner with
    | some node => if node.kind = OpKind.tilingInterface then some result.owner else none
    | none => none

/-- The loop of `getAllFusableProducers` over the operands of the current
operation: a producer that is not yet in the set is pushed on the worklist and
inserted in the set. -/
def visitOperands (g : OpGraph) :
    List (Option OpResult) → List OpId → List OpId → List OpId × List OpId
  | [], worklist, producers => (worklist, producers)
  | operand :: rest, worklist, producers =>
    match tilingInterfaceProducer g operand with
    | none => visitOperands g rest worklist producers
    | some producer =>
      if producers.contains producer then visitOperands g rest worklist producers
      else visitOperands g rest (worklist ++ [producer]) (producers ++ [producer])

/-- The loop `while (!worklist.empty())` of `getAllFusableProducers`, run for at
most the given number of iterations. -/
def fusableProducersLoop (g : OpGraph) : Nat → List OpId → List OpId → List OpId
  | 0, _, producers => producers
  | _ + 1, [], producers => producers
  | fuel + 1, currOp :: worklist, producers =>
    let next := visitOperands g (g.getOpOperands currOp) worklist producers
    fusableProducersLoop g fuel next.1 next.2

/-- `getAllFusableProducers`; `computeTopologicalSorting` is the library function
that sorts the producers. The worklist loop needs at most one iteration for the
consumer and one for every operation of the function. -/
def getAllFusableProducers (g : OpGraph) (computeTopologicalSorting : List OpId → List OpId)
    (op : OpId) : List OpId :=
  computeTopologicalSorting (fusableProducersLoop g (g.length + 1) [op] [])

/-- The operation `producer` defines an operand of `user` and implements
`TilingInterface`. -/
def FusableEdge (g : OpGraph) (user producer : OpId) : Prop :=
  producer ∈ (g.getOpOperands user).filterMap (tilingInterfaceProducer g)

/-- A list of operations is in topological order: a producer of an operand of an
operation of the list comes before that operation. -/
def TopologicallySorted (g : OpGraph) (ops : List OpId) : Prop :=
  ∀ (i j : Nat) (user producer : OpId), ops[i]? = some user → ops[j]? = some producer →
    FusableEdge g user producer → j < i

/-- The invariant of the worklist loop of `getAllFusableProducers`. -/
def ProducersInvariant (g : OpGraph) (op : OpId) (worklist producers : List OpId) : Prop :=
  producers.Nodup ∧
  (∀ x ∈ worklist, x = op ∨ x ∈ producers) ∧
  (∀ x ∈ producers, Relation.TransGen (FusableEdge g) op x) ∧
  (∀ a, (a = op ∨ a ∈ producers) → a ∉ worklist →
    ∀ b, FusableEdge g a b → b ∈ producers) ∧
  (∀ x ∈ producers, x ∈ (g.map fun node => node.id).dedup)

/-- A chain of three tileable operations `1`, `2` and `3`: operation `2` uses the
result of `1`, operation `3` uses the results of `2` and `1` and the result of
the operation `4`, which is not tileable. -/
def sampleChain : OpGraph :=
  [⟨1, .tilingInterface, [none], 1⟩,
   ⟨2, .tilingInterface, [some ⟨1, 0⟩], 1⟩,
   ⟨4, .other, [none], 1⟩,
   ⟨3, .tilingInterface, [some ⟨2, 0⟩, some ⟨4, 0⟩, some ⟨1, 0⟩], 1⟩]

/-- A sort by identifier; in `sampleChain` every producer has a smaller
identifier than its users. -/
def sampleSort (ops : List OpId) : List OpId := ops.insertionSort (· ≤ ·)

/-! ## Tile and fuse -/

/-- `TileAndFuseResult`. -/
structure TileAndFuseResult where
  tiledAndFusedOps : List Operation
  loops : List ForOp
  deriving DecidableEq, Repr

/-- The state of tile and fuse: the markers and stores, and the operations with
their current operands. The graph also holds the operations the tiled
implementations create, with the operands they are created with. -/
structure FusionState where
  ir : IRState
  graph : OpGraph
  deriving DecidableEq, Repr

/-- The library and interface functions tile and fuse calls:
`mergeOffsetsSizesAndStrides`, `mlir::computeTopologicalSorting`,
`cast<TilingInterface>` and `tensor::replaceExtractSliceWithTiledProducer`, which
returns the value of the tiled producer or fails. -/
structure FusionEnv where
  mergeOffsetsSizesAndStrides : MergeFn
  computeTopologicalSorting : List OpId → List OpId
  castTilingInterface : OpId → Option TilingInterfaceOp
  replaceExtractSliceWithTiledProducer : OpId → OpResult → Option OpResult

/-- The slice, if any, behind an operand of a tiled operation: the operand is
defined by a `tensor.extract_slice` whose source is defined by `untiledOp`. -/
def sliceOfProducer (g : OpGraph) (untiledOp : OpId) (operand : Option OpResult) :
    Option OpId :=
  match operand with
  | none => none
  | some result =>
    match g.node result.owner with
    | none => none
    | some node =>
      if node.kind = OpKind.extractSlice then
        match node.operands.head? with
        | some (some source) => if source.owner = untiledOp then some result.owner else none
        | _ => none
      else none

/-- `getAllFusableProducerUses`: the tiled operations in reverse, the operands
of each in reverse. -/
def getAllFusableProducerUses (g : OpGraph) (untiledOp : OpId) (tiledOps : List OpId) :
    List OpId :=
  tiledOps.reverse.flatMap fun tiledOp =>
    (g.getOpOperands tiledOp).reverse.filterMap (sliceOfProducer g untiledOp)

/-- `rewriter.replaceOp` on the graph: the operation is removed and every use of
its result becomes a use of the value. -/
def OpGraph.replaceOp (g : OpGraph) (op : OpId) (value : OpResult) : OpGraph :=
  (g.filter fun node => node.id ≠ op).map fun node =>
    { node with
      operands := node.operands.map fun operand =>
        match operand with
        | some result => if result.owner = op then some value else some result
        | none => none }

/-- The loop that replaces the collected slices by the results of the tiled
producer. -/
def replaceSlices (tiledProducer : Operation) :
    List OpId → FusionState → Except Failure Unit × FusionState
  | [], st => (.ok (), st)
  | sliceOp :: rest, st =>
    match st.graph.node sliceOp with
    | none => (.error (.assertion "use of an erased slice"), st)
    | some node =>
      match node.operands.head? with
      | some (some source) =>
        if tiledProducer.numResults ≤ source.resultNumber then (.error .outOfBounds, st)
        else
          replaceSlices tiledProducer rest
            { ir := st.ir.eraseOp sliceOp,
              graph := st.graph.replaceOp sliceOp ⟨tiledProducer.id, source.resultNumber⟩ }
      | _ => (.error (.assertion "cast<OpResult>"), st)

/-- The loop that computes the tile of a producer: for a dimension tiled in the
consumer the offset and size of the consumer, otherwise the range of the
producer. -/
def producerTile (tilingResult : TilingResult) :
    List Range → Nat → Except Failure (List Expr × List Expr)
  | [], _ => .ok ([], [])
  | range :: rest, index =>
    let own : Except Failure (Expr × Expr) :=
      if index < tilingResult.tiledLoops.length ∧ tilingResult.tiledLoops[index]? = some true
      then
        match tilingResult.tileOffsets[index]?, tilingResult.tileSizes[index]? with
        | some offset, some size => .ok (offset, size)
        | _, _ => .error .outOfBounds
      else .ok (range.offset, range.size)
    match own with
    | .error e => .error e
    | .ok (offset, size) =>
      match producerTile tilingResult rest (index + 1) with
      | .error e => .error e
      | .ok (offsets, sizes) => .ok (offset :: offsets, size :: sizes)

/-- The body of the loop of tile and fuse for a producer with at least one
slice: the tiled producer it creates, or the failure. -/
def fuseProducer (env : FusionEnv) (tilingResult : TilingResult)
    (fusableProducer : TilingInterfaceOp) (sliceOps : List OpId) (sliceOp : OpId)
    (st : FusionState) : Except Failure Operation × FusionState :=
  match (st.graph.node sliceOp).bind fun node => node.operands.head? with
  | some (some source) =>
    match env.replaceExtractSliceWithTiledProducer sliceOp source with
    | none => (.error (.matchFailure "fusion along slice op failed"), st)
    | some tiledProducerVal =>
      match (st.graph.node tiledProducerVal.owner).filter fun node =>
          node.kind = OpKind.tilingInterface with
      | none =>
        (.error (.matchFailure
          "expected tiled implementation to implement TilingInterface as well"), st)
      | some node =>
        let tiledProducer : Operation := ⟨node.id, node.numResults⟩
        if tiledProducer.numResults ≠ fusableProducer.op.numResults then
          (.error (.matchFailure
            "fused operation expected to produce an op with same number of results"), st)
        else
          match producerTile tilingResult fusableProducer.getIterationDomain 0 with
          | .error e => (.error e, st)
          | .ok (producerOffset, producerSizes) =>
            match replaceAllStoresWithTiledVersion env.mergeOffsetsSizesAndStrides
                fusableProducer producerOffset producerSizes tiledProducer st.ir with
            | (.error e, ir1) => (.error e, { st with ir := ir1 })
            | (.ok _, ir1) =>
              match replaceSlices tiledProducer sliceOps { st with ir := ir1 } with
              | (.error e, st1) => (.error e, st1)
              | (.ok _, st1) => (.ok tiledProducer, st1)
  | _ => (.error (.assertion "cast<OpResult>"), st)

/-- The loop of tile and fuse over the producers, in the order given: a
producer without a slice among the operations fused so far is skipped, the
tiled producer of any other is appended to the fused operations. -/
def fuseProducers (env : FusionEnv) (tilingResult : TilingResult) :
    List OpId → List Operation → FusionState → Except Failure (List Operation) × FusionState
  | [], tiledAndFusedOps, st => (.ok tiledAndFusedOps, st)
  | producer :: rest, tiledAndFusedOps, st =>
    match env.castTilingInterface producer with
    | none => (.error (.assertion "cast<TilingInterface>"), st)
    | some fusableProducer =>
      match getAllFusableProducerUses st.graph producer
          (tiledAndFusedOps.map fun tiledOp => tiledOp.id) with
      | [] => fuseProducers env tilingResult rest tiledAndFusedOps st
      | sliceOp :: sliceOps =>
        match fuseProducer env tilingResult fusableProducer (sliceOp :: sliceOps) sliceOp
            st with
        | (.error e, st1) => (.error e, st1)
        | (.ok tiledProducer, st1) =>
          fuseProducers env tilingResult rest (tiledAndFusedOps ++ [tiledProducer]) st1

/-- The pattern `TileAndFuseDispatchUsingSCFForOp`: its tiling pattern. -/
structure TileAndFuseDispatchUsingSCFForOp where
  options : LinalgTilingOptions
  filter : LinalgTransformationFilter

/-- `TileAndFuseDispatchUsingSCFForOp::returningMatchAndRewrite`. The producers
are taken from the back of the sorted list. -/
def TileAndFuseDispatchUsingSCFForOp.returningMatchAndRewrite
    (pattern : TileAndFuseDispatchUsingSCFForOp) (env : FusionEnv) (op : TilingInterfaceOp)
    (st : FusionState) : Except Failure TileAndFuseResult × FusionState :=
  let fusableProducers :=
    getAllFusableProducers st.graph env.computeTopologicalSorting op.op.id
  match Iree.returningMatchAndRewrite pattern.options pattern.filter
      env.mergeOffsetsSizesAndStrides op st.ir with
  | (.error e, ir1) => (.error e, { st with ir := ir1 })
  | (.ok tilingResult, ir1) =>
    if !tilingResult.tiledLoops.any id then (.ok ⟨[], []⟩, { st with ir := ir1 })
    else
      match tilingResult.tiledOp with
      | none => (.error (.assertion "tiledOp"), { st with ir := ir1 })
      | some tiledOp =>
        match fuseProducers env tilingResult fusableProducers.reverse [tiledOp]
            { st with ir := ir1 } with
        | (.error e, st1) => (.error e, st1)
        | (.ok tiledAndFusedOps, st1) => (.ok ⟨tiledAndFusedOps, tilingResult.loops⟩, st1)

/-- The fusion steps as the specification describes them: going through the
producers in order, a producer for which no slice is found among the operands
of the operations fused so far is skipped, and every other producer is fused and
its tiled producer is recorded. -/
inductive FusionSteps (env : FusionEnv) (tilingResult : TilingResult) :
    List OpId → List Operation → FusionState → List (OpId × Operation) → Prop where
  | done (fused : List Operation) (st : FusionState) :
      FusionSteps env tilingResult [] fused st []
  | skip (producer : OpId) (rest : List OpId) (fused : List Operation) (st : FusionState)
      (steps : List (OpId × Operation)) :
      getAllFusableProducerUses st.graph producer (fused.map fun tiledOp => tiledOp.id) = [] →
      FusionSteps env tilingResult rest fused st steps →
      FusionSteps env tilingResult (producer :: rest) fused st steps
  | fuse (producer : OpId) (fusableProducer : TilingInterfaceOp) (rest : List OpId)
      (fused : List Operation) (st st1 : FusionState)
      (sliceOp : OpId) (sliceOps : List OpId) (tiledProducer : Operation)
      (steps : List (OpId × Operation)) :
      env.castTilingInterface producer = some fusableProducer →
      getAllFusableProducerUses st.graph producer (fused.map fun tiledOp => tiledOp.id) =
        sliceOp :: sliceOps →
      fuseProducer env tilingResult fusableProducer (sliceOp :: sliceOps) sliceOp st =
        (.ok tiledProducer, st1) →
      FusionSteps env tilingResult rest (fused ++ [tiledProducer]) st1 steps →
      FusionSteps env tilingResult (producer :: rest) fused st
        ((producer, tiledProducer) :: steps)

/-- An executable check that a list of operations is in topological order. -/
def isTopologicallySorted (g : OpGraph) (ops : List OpId) : Bool :=
  (List.range ops.length).all fun i =>
    (List.range ops.length).all fun j =>
      match ops[i]?, ops[j]? with
      | some user, some producer =>
        !((g.getOpOperands user).filterMap (tilingInterfaceProducer g)).contains producer
          || decide (j < i)
      | _, _ => true

/-- The chain `1 -> 2 -> 3` with the operations tile and fuse creates: tiling the
consumer `3` creates the tiled consumer `13`, which reads the slice `22` of the
result of `2`; fusing `2` creates the tiled producer `12`, which reads the slice
`21` of the result of `1`; fusing `1` creates the tiled producer `11`. -/
def sampleFusionGraph : OpGraph :=
  [⟨1, .tilingInterface, [none], 1⟩,
   ⟨2, .tilingInterface, [some ⟨1, 0⟩], 1⟩,
   ⟨3, .tilingInterface, [some ⟨2, 0⟩], 1⟩,
   ⟨22, .extractSlice, [some ⟨2, 0⟩], 1⟩,
   ⟨13, .tilingInterface, [some ⟨22, 0⟩], 1⟩,
   ⟨21, .extractSlice, [some ⟨1, 0⟩], 1⟩,
   ⟨12, .tilingInterface, [some ⟨21, 0⟩], 1⟩,
   ⟨11, .tilingInterface, [none], 1⟩]

/-- A tileable operation with the iteration domain of `sampleOp`, the given
identifier and the given tiled implementation. -/
def sampleTileable (id tiled : OpId) : TilingInterfaceOp where
  op := ⟨id, 1⟩
  getIterationDomain := [⟨.const 0, .const 100, .const 1⟩, ⟨.const 0, .const 50, .const 1⟩]
  getLoopIteratorTypes := [.parallel, .reduction]
  getTiledImplementation := fun _ _ => [⟨tiled, 1⟩]
  getResultTilePosition := fun _ offsets sizes => some (offsets, sizes)

/-- The library and interface functions for `sampleFusionGraph`. -/
def sampleFusionEnv : FusionEnv where
  mergeOffsetsSizesAndStrides := sampleMerge
  computeTopologicalSorting := sampleSort
  castTilingInterface := fun op =>
    if op = 1 then some (sampleTileable 1 11)
    else if op = 2 then some (sampleTileable 2 12) else none
  replaceExtractSliceWithTiledProducer := fun sliceOp _ =>
    if sliceOp = 22 then some ⟨12, 0⟩ else if sliceOp = 21 then some ⟨11, 0⟩ else none

/-- The state before tile and fuse of the consumer `3` of `sampleFusionGraph`. -/
def sampleFusionState : FusionState :=
  ⟨⟨[(3, .notYetProcessed "tile")], [], [], 100⟩, sampleFusionGraph⟩

/-- The operations of `sampleFusionGraph`, except that the tiled producer `12`
of the producer `2` has two results, while `2` has one. -/
def sampleArityGraph : OpGraph :=
  [⟨1, .tilingInterface, [none], 1⟩,
   ⟨2, .tilingInterface, [some ⟨1, 0⟩], 1⟩,
   ⟨3, .tilingInterface, [some ⟨2, 0⟩], 1⟩,
   ⟨22, .extractSlice, [some ⟨2, 0⟩], 1⟩,
   ⟨13, .tilingInterface, [some ⟨22, 0⟩], 1⟩,
   ⟨21, .extractSlice, [some ⟨1, 0⟩], 1⟩,
   ⟨12, .tilingInterface, [some ⟨21, 0⟩], 2⟩,
   ⟨11, .tilingInterface, [none], 1⟩]

/-- The state before tile and fuse of the consumer `3` of `sampleArityGraph`,
with a store of the result of the producer `2`. -/
def sampleArityState : FusionState :=
  ⟨⟨[(3, .notYetProcessed "tile")],
    [⟨30, ⟨2, 0⟩, 7, [], [.const 0, .const 0], [.const 100, .const 50],
      [.const 1, .const 1], [false, false]⟩], [], 100⟩, sampleArityGraph⟩

/-! ## The configuration of tile and distribute -/

/-- `IREE::Codegen::LoweringConfigAttr`, as far as the pass reads it: the tile
sizes and the interchange of a tiling level. -/
structure LoweringConfigAttr where
  getTileSizeVals : Nat → List Int
  getTileInterchangeVals : Nat → List Int

/-- A compute operation of a dispatch with what `getTileAndDistributeConfig`
asks of it: `getPartitionableLoops` when it implements
`PartitionableLoopsInterface`, its lowering configuration when it has one, and
`getStaticLoopRanges` when it is a `linalg::LinalgOp`. -/
structure ComputeOp where
  id : OpId
  getPartitionableLoops : Option (Nat → List Nat)
  getLoweringConfig : Option LoweringConfigAttr
  getStaticLoopRanges : Option (List Int)

/-- The values `getTileAndDistributeConfig` passes back through its reference
arguments. -/
structure TileAndDistributeConfig where
  dispatchRootOp : Option ComputeOp
  tileSizes : List Int
  staticLoopRanges : List Int
  interchange : List Int
  partitionableLoops : List Nat

/-- The loop of `getTileAndDistributeConfig` that sets the tile sizes of the
loops that are not partitionable to zero. -/
def zeroNonPartitionedTileSizes (tileSizes : List Int) (partitionableLoops : List Nat) :
    List Int :=
  tileSizes.enum.map fun p => if partitionableLoops.contains p.1 then p.2 else 0

/-- `getTileAndDistributeConfig`. The library function
`getLoweringConfigCarryingOp` and the constants `kNumMaxParallelDims` and
`ShapedType::kDynamic` are parameters; `config` holds the reference arguments
as they are passed in; a failure carries the message of `emitOpError`. -/
def getTileAndDistributeConfig
    (getLoweringConfigCarryingOp : List ComputeOp → Option ComputeOp)
    (kNumMaxParallelDims : Nat) (kDynamic : Int) (computeOps : List ComputeOp)
    (config : TileAndDistributeConfig) : Except String TileAndDistributeConfig :=
  match getLoweringConfigCarryingOp computeOps with
  | none => .ok { config with dispatchRootOp := none }
  | some rootOp =>
    match rootOp.getPartitionableLoops with
    | none => .ok { config with dispatchRootOp := some rootOp }
    | some getPartitionableLoops =>
      let partitionableLoops := getPartitionableLoops kNumMaxParallelDims
      if partitionableLoops.length > kNumMaxParallelDims then
        .error "expected number of partitionable loops to be less than or equal to "
      else
        match rootOp.getLoweringConfig with
        | none =>
          .error "unable to find configuration of root op to define workgroup count region"
        | some rootOpConfig =>
          let tileSizes :=
            zeroNonPartitionedTileSizes (rootOpConfig.getTileSizeVals 0) partitionableLoops
          let staticLoopRanges :=
            match rootOp.getStaticLoopRanges with
            | some ranges => ranges
            | none => config.staticLoopRanges
          .ok ⟨some rootOp, tileSizes, resize staticLoopRanges tileSizes.length kDynamic,
            rootOpConfig.getTileInterchangeVals 0, partitionableLoops⟩

/-- The reference arguments as `runOnOperation` passes them in: no root
operation and empty vectors. -/
def emptyTileAndDistributeConfig : TileAndDistributeConfig := ⟨none, [], [], [], []⟩

/-- The workgroup count pattern `runOnOperation` builds from a configuration. -/
def TileAndDistributeConfig.workgroupCountPattern (config : TileAndDistributeConfig) :
    LowerDispatchWorkgroupCountForDagRootOp :=
  ⟨config.tileSizes, config.staticLoopRanges, config.interchange, config.partitionableLoops⟩

/-- A stand-in for `getLoweringConfigCarryingOp`: the first compute operation
that carries a lowering configuration. -/
def sampleGetLoweringConfigCarryingOp (computeOps : List ComputeOp) : Option ComputeOp :=
  computeOps.find? fun op => op.getLoweringConfig.isSome

/-- A compute operation with two partitionable loops and no lowering
configuration. -/
def sampleComputeOp : ComputeOp := ⟨0, some fun _ => [0, 1], none, some [100, 50]⟩

/-! ## Padding a matmul operand to a multiple of the tile shape

From `compiler/src/iree/compiler/Dialect/Flow/Transforms/ConvertLinalgMatmulToMmt4D.cpp`.
The shapes are vectors of `int64_t`: a sum or a difference wraps around modulo
`2^64`, and `%` is the remainder of the division that truncates towards zero. -/

/-- Failures of `pad`: a violated `assert`, an access past the end of the tile
shape, and a remainder that has no defined value. -/
inductive PadFailure where
  | assertion (msg : String)
  | outOfBounds
  | undefinedRemainder
  deriving DecidableEq, Repr

/-- The value of an `int64_t` sum or difference: the integer wrapped around
modulo `2^64` into `[-2^63, 2^63)`. -/
def wrapInt64 (x : Int) : Int := (x + 2 ^ 63) % 2 ^ 64 - 2 ^ 63

/-- The operator `%` on `int64_t`: the remainder of the division that truncates
towards zero. It has no defined value for a zero divisor and for the least
value divided by `-1`. -/
def remInt64 (a b : Int) : Except PadFailure Int :=
  if b = 0 ∨ (a = -2 ^ 63 ∧ b = -1) then .error .undefinedRemainder
  else .ok (Int.tmod a b)

/-- The loop of `needsPadding` over the dimensions `i, i + 1, ...`: it returns
at the first dimension that is dynamic or is not a multiple of the tile
dimension. -/
def needsPaddingFrom (kDynamic : Int) (tileShape : List Int) :
    List Int → Nat → Except PadFailure Bool
  | [], _ => .ok false
  | inputDim :: rest, i =>
    if inputDim = kDynamic then .ok true
    else
      match tileShape[i]? with
      | none => .error .outOfBounds
      | some tileDim =>
        match remInt64 inputDim tileDim with
        | .error e => .error e
        | .ok r =>
          if r ≠ 0 then .ok true else needsPaddingFrom kDynamic tileShape rest (i + 1)

/-- `needsPadding`: some dimension is dynamic or is not a multiple of the tile
dimension. -/
def needsPadding (kDynamic : Int) (inputShape tileShape : List Int) :
    Except PadFailure Bool :=
  if inputShape.length ≠ tileShape.length then
    .error (.assertion "inputShape.size() == tileShape.size()")
  else needsPaddingFrom kDynamic tileShape inputShape 0

/-- The function `distanceToNextMultipleOf` of `pad` for a static dimension. -/
def distanceToNextMultipleOf (a b : Int) : Except PadFailure Int :=
  let bMinusOne := wrapInt64 (b - 1)
  match remInt64 (wrapInt64 (a + bMinusOne)) b with
  | .error e => .error e
  | .ok r => .ok (wrapInt64 (bMinusOne - r))

/-- The padding of one dimension at the bottom or on the right: an index
attribute for a static dimension; for a dynamic dimension the value that the
operations `arith.subi`, `arith.remsi` and `arith.addi` created by `pad` compute
at run time from the size of dimension `dim` of the input and the tile
dimension. -/
inductive HighPadding where
  | static (padding : Int)
  | dynamic (dim : Nat) (tileDim : Int)
  deriving DecidableEq, Repr

/-- The `tensor.pad` operation `pad` creates: the shape of its result type, the
low padding and the high padding. -/
structure PadOp where
  resultTypeShape : List Int
  lowPadding : List Int
  highPadding : List HighPadding
  deriving DecidableEq, Repr

/-- What the body of the loop of `pad` pushes for the dimension `i`: the
dimension of the result type and the high padding. -/
def padDimension (kDynamic : Int) (inputDim tileDim : Int) (i : Nat) :
    Except PadFailure (Int × HighPadding) :=
  if inputDim = kDynamic then .ok (kDynamic, .dynamic i tileDim)
  else
    match distanceToNextMultipleOf inputDim tileDim with
    | .error e => .error e
    | .ok padding => .ok (wrapInt64 (inputDim + padding), .static padding)

/-- The loop of `pad` over the dimensions `i, i + 1, ...` of the input. -/
def padFrom (kDynamic : Int) (tileShape : List Int) :
    List Int → Nat → Except PadFailure PadOp
  | [], _ => .ok ⟨[], [], []⟩
  | inputDim :: rest, i =>
    match tileShape[i]? with
    | none => .error .outOfBounds
    | some tileDim =>
      match padDimension kDynamic inputDim tileDim i with
      | .error e => .error e
      | .ok current =>
        match padFrom kDynamic tileShape rest (i + 1) with
        | .error e => .error e
        | .ok r =>
          .ok ⟨current.1 :: r.resultTypeShape, 0 :: r.lowPadding, current.2 :: r.highPadding⟩

/-- `pad`: `none` when the input is returned as it is, otherwise the
`tensor.pad` created. -/
def pad (kDynamic : Int) (inputShape tileShape : List Int) :
    Except PadFailure (Option PadOp) :=
  match needsPadding kDynamic inputShape tileShape with
  | .error e => .error e
  | .ok false => .ok none
  | .ok true =>
    match padFrom kDynamic tileShape inputShape 0 with
    | .error e => .error e
    | .ok r => .ok (some r)

/-- A consumer `3` that uses the result of the producer `2` for both of its
operands; its tiled implementation `13` reads one slice `22` of the result of
`2` for both operands. The operation `12` is the tiled producer. -/
def sampleSharedSliceGraph : OpGraph :=
  [⟨2, .tilingInterface, [none], 1⟩,
   ⟨3, .tilingInterface, [some ⟨2, 0⟩, some ⟨2, 0⟩], 1⟩,
   ⟨22, .extractSlice, [some ⟨2, 0⟩], 1⟩,
   ⟨13, .tilingInterface, [some ⟨22, 0⟩, some ⟨22, 0⟩], 1⟩,
   ⟨12, .tilingInterface, [none], 1⟩]

/-! # Theorems -/

/-! ## Index values -/

theorem eval_of_isClosed (e : Expr) (h : e.isClosed = true) (env1 env2 : Env) :
    e.eval env1 = e.eval env2 := by
  induction e with
  | const c => rfl
  | dyn i => simp [Expr.isClosed] at h
  | iv l => simp [Expr.isClosed] at h
  | add a b iha ihb =>
    simp only [Expr.isClosed, Bool.and_eq_true] at h
    simp only [Expr.eval, iha h.1, ihb h.2]
  | mul a b iha ihb =>
    simp only [Expr.isClosed, Bool.and_eq_true] at h
    simp only [Expr.eval, iha h.1, ihb h.2]
  | ceilDiv a b iha ihb =>
    simp only [Expr.isClosed, Bool.and_eq_true] at h
    simp only [Expr.eval, iha h.1, ihb h.2]
  | min a b iha ihb =>
    simp only [Expr.isClosed, Bool.and_eq_true] at h
    simp only [Expr.eval, iha h.1, ihb h.2]

theorem eval_fold (e : Expr) (env : Env) : e.fold.eval env = e.eval env := by
  unfold Expr.fold
  by_cases hc : e.isClosed = true
  · rw [if_pos hc]
    cases hz : e.eval Env.zero with
    | none => rfl
    | some c =>
      simp only [Expr.eval]
      rw [eval_of_isClosed e hc env Env.zero, hz]
  · rw [if_neg hc]

theorem ceilDivInt_eq_ceil (a b : Int) (hb : 0 < b) :
    ceilDivInt a b = some ⌈(a : ℚ) / (b : ℚ)⌉ := by
  unfold ceilDivInt
  rw [if_pos hb]
  congr 1
  obtain ⟨n, rfl⟩ := Int.eq_ofNat_of_zero_le hb.le
  have h := Rat.floor_intCast_div_natCast (-a) n
  have h2 : ⌈(a : ℚ) / ((n : ℤ) : ℚ)⌉ = -⌊((-a : ℤ) : ℚ) / (n : ℚ)⌋ := by
    rw [← Int.ceil_neg]; congr 1; push_cast; ring
  rw [h2, h]

/-! ## The workgroup count of one axis -/

theorem numTilesOfAxis_zero (kDynamic : Int) (workloadValue : Expr) (staticLoopRange : Int) :
    numTilesOfAxis kDynamic workloadValue staticLoopRange (.const 0) = .const 1 := by
  simp [numTilesOfAxis, isConstantIntValue]

theorem numTilesOfAxis_pos (kDynamic : Int) (workloadValue : Expr) (staticLoopRange : Int)
    (env : Env) (w t : Int) (ht : 0 < t)
    (hw : (if staticLoopRange = kDynamic then workloadValue else Expr.const staticLoopRange).eval
      env = some w) :
    (numTilesOfAxis kDynamic workloadValue staticLoopRange (.const t)).eval env =
      some ⌈(w : ℚ) / (t : ℚ)⌉ := by
  have h0 : isConstantIntValue (.const t) 0 = false := by
    simp [isConstantIntValue]; omega
  simp only [numTilesOfAxis, h0, makeComposedFoldedAffineApply, AffineExpr.compose,
    Nat.zero_add, List.getD_cons_zero, List.getD_cons_succ, Bool.false_eq_true, if_false]
  rw [eval_fold]
  simp only [Expr.eval]
  rw [hw]
  simpa using ceilDivInt_eq_ceil w t ht

theorem getElem?_resize {α : Type} (v : List α) (n : Nat) (fill : α) (i : Nat) (hi : i < n) :
    (resize v n fill)[i]? = some (v.getD i fill) := by
  unfold resize
  by_cases h : i < v.length
  · rw [List.getElem?_append_left (by simp; omega)]
    simp [List.getElem?_take, hi, List.getD_eq_getElem?_getD, h]
  · rw [List.getElem?_append_right (by simp; omega)]
    simp [List.getD_eq_getElem?_getD, List.getElem?_replicate]
    have : v[i]? = none := by simp; omega
    simp [this]; omega

theorem length_resize {α : Type} (v : List α) (n : Nat) (fill : α) :
    (resize v n fill).length = n := by
  simp [resize]; omega

/-- The entry of `numTiles` for an axis is the count of that axis. -/
theorem getElem?_numTiles (pattern : LowerDispatchWorkgroupCountForDagRootOp) (kDynamic : Int)
    (workloadValues : List Expr) (i : Nat) (hi : i < workloadValues.length) :
    (pattern.numTiles kDynamic workloadValues)[i]? =
      some (numTilesOfAxis kDynamic (workloadValues.getD i (.const 0))
        (pattern.givenStaticLoopRanges.getD i kDynamic)
        (.const (pattern.givenTileSizes.getD i 0))) := by
  unfold LowerDispatchWorkgroupCountForDagRootOp.numTiles
  simp only [List.getElem?_map]
  have h1 := getElem?_resize (pattern.givenTileSizes.map Expr.const) workloadValues.length
    (.const 0) i hi
  have h2 := getElem?_resize pattern.givenStaticLoopRanges workloadValues.length kDynamic i hi
  have h3 : workloadValues[i]? = some (workloadValues.getD i (.const 0)) := by
    simp [List.getD_eq_getElem?_getD, List.getElem?_eq_getElem hi]
  have h4 : ((pattern.givenTileSizes.map Expr.const).getD i (.const 0)) =
      .const (pattern.givenTileSizes.getD i 0) := by
    simp only [List.getD_eq_getElem?_getD, List.getElem?_map]
    cases pattern.givenTileSizes[i]? <;> rfl
  rw [h4] at h1
  have hz : (workloadValues.zip ((resize pattern.givenStaticLoopRanges workloadValues.length
      kDynamic).zip (resize (pattern.givenTileSizes.map Expr.const) workloadValues.length
      (.const 0))))[i]? = some (workloadValues.getD i (.const 0),
        pattern.givenStaticLoopRanges.getD i kDynamic,
        .const (pattern.givenTileSizes.getD i 0)) := by
    rw [List.getElem?_zip_eq_some]
    refine ⟨h3, ?_⟩
    rw [List.getElem?_zip_eq_some]
    exact ⟨h2, h1⟩
  rw [hz]
  rfl

/-- C1. For every axis `i` of the workload, with tile size `t` and workload `w`
(the static loop range, or the run-time workload value when the range is
dynamic), the tile count that `LowerDispatchWorkgroupCountForDagRootOp`
computes for the axis is the constant `1` when `t = 0`, whatever the workload
is, and evaluates to `ceil(w / t)` when `t > 0`. -/
theorem workgroupCount_per_axis (pattern : LowerDispatchWorkgroupCountForDagRootOp)
    (kDynamic : Int) (workloadValues : List Expr) (env : Env) (i : Nat) (w : Int)
    (hi : i < workloadValues.length)
    (hw : (if pattern.givenStaticLoopRanges.getD i kDynamic = kDynamic
            then workloadValues.getD i (.const 0)
            else Expr.const (pattern.givenStaticLoopRanges.getD i kDynamic)).eval env = some w) :
    (pattern.givenTileSizes.getD i 0 = 0 →
        (pattern.numTiles kDynamic workloadValues)[i]? = some (.const 1)) ∧
    (0 < pattern.givenTileSizes.getD i 0 →
        ((pattern.numTiles kDynamic workloadValues)[i]?).bind (Expr.eval env) =
          some ⌈(w : ℚ) / (pattern.givenTileSizes.getD i 0 : ℚ)⌉) := by
  rw [getElem?_numTiles pattern kDynamic workloadValues i hi]
  constructor
  · intro h0
    rw [h0, numTilesOfAxis_zero]
  · intro hpos
    simp only [Option.some_bind]
    exact numTilesOfAxis_pos kDynamic _ _ env w _ hpos hw

/-- Witness of C1: workload `37` with tile size `8` gives `5` tiles, and a zero
tile size gives `1`. -/
theorem workgroupCount_per_axis_witness :
    ((⟨[8, 0], [37, 37], [], [0, 1]⟩ : LowerDispatchWorkgroupCountForDagRootOp).numTiles (-1)
        [.dyn 0, .dyn 1])[1]? = some (.const 1) ∧
    (((⟨[8, 0], [37, 37], [], [0, 1]⟩ : LowerDispatchWorkgroupCountForDagRootOp).numTiles (-1)
        [.dyn 0, .dyn 1])[0]?).bind (Expr.eval ⟨fun _ => 0, fun _ => 0⟩) =
          some ⌈((37 : Int) : ℚ) / ((8 : Int) : ℚ)⌉ ∧
    ⌈((37 : Int) : ℚ) / ((8 : Int) : ℚ)⌉ = 5 :=
  ⟨(workgroupCount_per_axis ⟨[8, 0], [37, 37], [], [0, 1]⟩ (-1) [.dyn 0, .dyn 1]
      ⟨fun _ => 0, fun _ => 0⟩ 1 37 (by decide) (by decide)).1 (by decide),
   (workgroupCount_per_axis ⟨[8, 0], [37, 37], [], [0, 1]⟩ (-1) [.dyn 0, .dyn 1]
      ⟨fun _ => 0, fun _ => 0⟩ 0 37 (by decide) (by decide)).2 (by decide),
   by rw [Int.ceil_eq_iff]; norm_num⟩

/-! ## Distribution arithmetic -/

/-- C2. For every `lb`, `step`, `procId` and `nprocs`, `getDistributeLBAndStep`
returns the pair `(lb + procId * step, step * nprocs)`. -/
theorem getDistributeLBAndStep_eval (lb step procId nprocs : Expr) (env : Env)
    (l s p n : Int) (hl : lb.eval env = some l) (hs : step.eval env = some s)
    (hp : procId.eval env = some p) (hn : nprocs.eval env = some n) :
    (getDistributeLBAndStep lb step procId nprocs).1.eval env = some (l + p * s) ∧
    (getDistributeLBAndStep lb step procId nprocs).2.eval env = some (s * n) := by
  simp [getDistributeLBAndStep, makeComposedAffineApply, AffineExpr.compose, Expr.eval,
    hl, hs, hp, hn]

/-- Witness of C2: `lb = 0`, `step = 4`, `procId = 2`, `nprocs = 3` gives the
lower bound `8` and the step `12`. -/
theorem getDistributeLBAndStep_eval_witness :
    (getDistributeLBAndStep (.const 0) (.const 4) (.const 2) (.const 3)).1.eval Env.zero =
      some 8 ∧
    (getDistributeLBAndStep (.const 0) (.const 4) (.const 2) (.const 3)).2.eval Env.zero =
      some 12 :=
  getDistributeLBAndStep_eval (.const 0) (.const 4) (.const 2) (.const 3) Env.zero 0 4 2 3
    rfl rfl rfl rfl

/-! ## The bounded tile size -/

theorem mem_inductionValues (lb ub step iv : Int) :
    iv ∈ inductionValues lb ub step ↔
      0 < step ∧ ∃ k : Nat, iv = lb + (k : Int) * step ∧ iv < ub := by
  unfold inductionValues tripCount
  by_cases hs : 0 < step
  · rw [if_pos hs, List.mem_map]
    constructor
    · rintro ⟨k, hk, rfl⟩
      refine ⟨hs, k, rfl, ?_⟩
      rw [List.mem_range, Int.lt_toNat] at hk
      have h1 : ((k : Int) + 1) ≤ (ub - lb + step - 1) / step := by omega
      rw [Int.le_ediv_iff_mul_le hs] at h1
      nlinarith
    · rintro ⟨-, k, rfl, hlt⟩
      refine ⟨k, ?_, rfl⟩
      rw [List.mem_range, Int.lt_toNat]
      have h1 : ((k : Int) + 1) ≤ (ub - lb + step - 1) / step := by
        rw [Int.le_ediv_iff_mul_le hs]
        nlinarith
      omega
  · simp [hs]

theorem createBoundedTileSize_eval (iv tileSize size : Expr) (env : Env) (i t u : Int)
    (hi : iv.eval env = some i) (ht : tileSize.eval env = some t)
    (hu : size.eval env = some u) (hlt : i < u) :
    (createBoundedTileSize iv tileSize size).eval env = some (min t (u - i)) := by
  unfold createBoundedTileSize
  by_cases h1 : isConstantIntValue tileSize 1 = true
  · rw [if_pos h1]
    have ht1 : t = 1 := by
      cases tileSize <;> simp [isConstantIntValue] at h1
      subst h1
      simpa [Expr.eval] using ht.symm
    subst ht1
    simp only [Expr.eval]
    congr 1
    omega
  · rw [if_neg h1, makeComposedFoldedAffineMin, eval_fold]
    simp only [minMap, AffineExpr.sub, List.map, AffineExpr.compose, minOfExprs,
      List.getD_cons_zero, List.getD_cons_succ, Expr.eval, hi, ht, hu]
    simp only [Option.bind_eq_bind, Option.some_bind, Option.pure_def]
    congr 2
    ring

/-- The body of the loop of `generateTileLoopNest` for a dimension with a
non-zero tile size whose method is not `CyclicNumProcsEqNumIters` creates a
loop up to the size of the range, and records the induction variable and the
bounded tile size. -/
theorem tileDimension_loop (loopRange : RangeVal) (tileSizeVals : List Expr)
    (distributionMethod : List DistributionMethod) (procInfo : List ProcInfo)
    (index procDim numLoops : Nat) (d : DimTile) (tileSize : Expr)
    (method : DistributionMethod)
    (hd : tileDimension loopRange tileSizeVals distributionMethod procInfo index procDim
      numLoops = .ok d)
    (ht : tileSizeVals[index]? = some tileSize) (hz : isZero tileSize = false)
    (hm : distributionMethod[index]? = some method)
    (hne : method ≠ DistributionMethod.CyclicNumProcsEqNumIters) :
    ∃ loop : ForOp, d.loop = some loop ∧ d.offset = loop.getInductionVar ∧
      loop.ub = loopRange.size ∧ loop.inductionVar = numLoops ∧
      d.size = createBoundedTileSize loop.getInductionVar tileSize loopRange.size := by
  unfold tileDimension at hd
  simp only [ht, hz, hm, Bool.false_eq_true, if_false] at hd
  by_cases hnone : method = DistributionMethod.None
  · subst hnone
    simp only [ne_eq, not_true_eq_false, if_false, if_neg hne] at hd
    injection hd with hd
    subst hd
    exact ⟨_, rfl, rfl, rfl, rfl, rfl⟩
  · simp only [ne_eq, hnone, not_false_eq_true, if_true] at hd
    cases hp : procInfo[procDim]? with
    | none => simp [hp] at hd
    | some info =>
      simp only [hp, if_neg hne] at hd
      injection hd with hd
      subst hd
      exact ⟨_, rfl, rfl, rfl, rfl, rfl⟩

/-- The body of the loop of `generateTileLoopNest` for a dimension with a zero
tile size. -/
theorem tileDimension_zero (loopRange : RangeVal) (tileSizeVals : List Expr)
    (distributionMethod : List DistributionMethod) (procInfo : List ProcInfo)
    (index procDim numLoops : Nat) (tileSize : Expr)
    (ht : tileSizeVals[index]? = some tileSize) (hz : isZero tileSize = true) :
    tileDimension loopRange tileSizeVals distributionMethod procInfo index procDim numLoops =
      .ok ⟨loopRange.offset, loopRange.size, none, procDim⟩ := by
  unfold tileDimension
  simp only [ht, hz, if_true]

/-- Every entry of the offsets and sizes of a loop nest comes from the body of
the loop for that dimension, and the loop it creates is among the loops. -/
theorem generateTileLoopNestFrom_get (tileSizeVals : List Expr)
    (distributionMethod : List DistributionMethod) (procInfo : List ProcInfo) :
    ∀ (loopRanges : List RangeVal) (index procDim numLoops : Nat) (nest : LoopNest),
      generateTileLoopNestFrom tileSizeVals distributionMethod procInfo loopRanges index
        procDim numLoops = .ok nest →
      ∀ (j : Nat) (loopRange : RangeVal), loopRanges[j]? = some loopRange →
        ∃ (pd nl : Nat) (d : DimTile),
          tileDimension loopRange tileSizeVals distributionMethod procInfo (index + j) pd nl =
            .ok d ∧
          nest.offsets[j]? = some d.offset ∧ nest.sizes[j]? = some d.size ∧
          ∀ loop, d.loop = some loop → loop ∈ nest.loops := by
  intro loopRanges
  induction loopRanges with
  | nil => intro _ _ _ _ _ j r hr; simp at hr
  | cons r rest ih =>
    intro index procDim numLoops nest h j loopRange hj
    unfold generateTileLoopNestFrom at h
    cases hd : tileDimension r tileSizeVals distributionMethod procInfo index procDim
        numLoops with
    | error e => simp [hd] at h
    | ok t =>
      simp only [hd] at h
      cases hrest : generateTileLoopNestFrom tileSizeVals distributionMethod procInfo rest
          (index + 1) t.procDim (numLoops + t.loop.toList.length) with
      | error e => simp [hrest] at h
      | ok nest1 =>
        simp only [hrest] at h
        injection h with h
        subst h
        cases j with
        | zero =>
          simp only [List.getElem?_cons_zero, Option.some.injEq] at hj
          subst hj
          refine ⟨procDim, numLoops, t, by simpa using hd, by simp, by simp, ?_⟩
          intro loop hl
          simp [hl]
        | succ j =>
          simp only [List.getElem?_cons_succ] at hj
          obtain ⟨pd, nl, d, h1, h2, h3, h4⟩ := ih (index + 1) t.procDim _ nest1 hrest j
            loopRange hj
          refine ⟨pd, nl, d, ?_, by simpa using h2, by simpa using h3, ?_⟩
          · rw [← h1]; congr 1; omega
          · intro loop hl
            exact List.mem_append_right _ (h4 loop hl)

/-- The entries of a loop nest in terms of `generateTileLoopNest`. -/
theorem generateTileLoopNest_get (loopRanges : List RangeVal) (tileSizeVals : List Expr)
    (distributionMethod : List DistributionMethod) (procInfo : List ProcInfo)
    (nest : LoopNest)
    (h : generateTileLoopNest loopRanges tileSizeVals distributionMethod procInfo = .ok nest)
    (j : Nat) (loopRange : RangeVal) (hj : loopRanges[j]? = some loopRange) :
    ∃ (pd nl : Nat) (d : DimTile),
      tileDimension loopRange tileSizeVals distributionMethod procInfo j pd nl = .ok d ∧
      nest.offsets[j]? = some d.offset ∧ nest.sizes[j]? = some d.size ∧
      ∀ loop, d.loop = some loop → loop ∈ nest.loops := by
  unfold generateTileLoopNest at h
  split at h
  · simp at h
  · split at h
    · simp at h
    · split at h
      · simp at h
      · have := generateTileLoopNestFrom_get tileSizeVals distributionMethod procInfo
          loopRanges 0 0 0 nest h j loopRange hj
        simpa using this

/-- The loop of a tiled dimension and the value of the size recorded in it. -/
theorem tiled_dimension_loop_size (loopRanges : List RangeVal) (tileSizeVals : List Expr)
    (distributionMethod : List DistributionMethod) (procInfo : List ProcInfo)
    (nest : LoopNest)
    (h : generateTileLoopNest loopRanges tileSizeVals distributionMethod procInfo = .ok nest)
    (i : Nat) (loopRange : RangeVal) (tileSize : Expr) (method : DistributionMethod)
    (hr : loopRanges[i]? = some loopRange) (ht : tileSizeVals[i]? = some tileSize)
    (hz : isZero tileSize = false) (hm : distributionMethod[i]? = some method)
    (hne : method ≠ DistributionMethod.CyclicNumProcsEqNumIters) :
    ∃ loop ∈ nest.loops, nest.offsets[i]? = some loop.getInductionVar ∧
      loop.ub = loopRange.size ∧
      ∀ (env : Env) (t ub : Int) (ivs : List Int), tileSize.eval env = some t →
        loopRange.size.eval env = some ub → loop.inductionValues env = some ivs →
        env.iv loop.inductionVar ∈ ivs →
        (nest.sizes[i]?).bind (Expr.eval env) =
          some (min t (ub - env.iv loop.inductionVar)) ∧ env.iv loop.inductionVar < ub := by
  obtain ⟨pd, nl, d, hd, hoff, hsize, hloop⟩ :=
    generateTileLoopNest_get loopRanges tileSizeVals distributionMethod procInfo nest h i
      loopRange hr
  obtain ⟨loop, hl, hdo, hub, -, hds⟩ :=
    tileDimension_loop loopRange tileSizeVals distributionMethod procInfo i pd nl d tileSize
      method hd ht hz hm hne
  refine ⟨loop, hloop loop hl, by rw [hoff, hdo], hub, ?_⟩
  intro env t ub ivs htv hubv hivs hmem
  have hlt : env.iv loop.inductionVar < ub := by
    unfold ForOp.inductionValues at hivs
    rw [hub, hubv] at hivs
    cases hlb : loop.lb.eval env with
    | none => simp [hlb] at hivs
    | some lb =>
      cases hst : loop.step.eval env with
      | none => simp [hlb, hst] at hivs
      | some step =>
        simp only [hlb, hst, Option.bind_eq_bind, Option.some_bind, Option.pure_def,
          Option.some.injEq] at hivs
        subst hivs
        exact ((mem_inductionValues _ _ _ _).1 hmem).2.choose_spec.2
  refine ⟨?_, hlt⟩
  rw [hsize, Option.some_bind, hds]
  exact createBoundedTileSize_eval _ _ _ env _ t ub rfl htv hubv hlt

/-- C3. For every tiled dimension (tile size not the constant zero, a loop being
generated for it) with tile size `t` and upper bound `ub`, the size recorded
inside the generated loop for the induction value `iv` is `min(t, ub - iv)`. -/
theorem boundedTileSize_in_loop (loopRanges : List RangeVal) (tileSizeVals : List Expr)
    (distributionMethod : List DistributionMethod) (procInfo : List ProcInfo)
    (nest : LoopNest)
    (h : generateTileLoopNest loopRanges tileSizeVals distributionMethod procInfo = .ok nest)
    (i : Nat) (loopRange : RangeVal) (tileSize : Expr) (method : DistributionMethod)
    (hr : loopRanges[i]? = some loopRange) (ht : tileSizeVals[i]? = some tileSize)
    (hz : isZero tileSize = false) (hm : distributionMethod[i]? = some method)
    (hne : method ≠ DistributionMethod.CyclicNumProcsEqNumIters) :
    ∃ loop ∈ nest.loops, nest.offsets[i]? = some loop.getInductionVar ∧
      loop.ub = loopRange.size ∧
      ∀ (env : Env) (t ub : Int) (ivs : List Int), tileSize.eval env = some t →
        loop.ub.eval env = some ub → loop.inductionValues env = some ivs →
        env.iv loop.inductionVar ∈ ivs →
        (nest.sizes[i]?).bind (Expr.eval env) =
          some (min t (ub - env.iv loop.inductionVar)) := by
  obtain ⟨loop, hmem, hoff, hub, hall⟩ :=
    tiled_dimension_loop_size loopRanges tileSizeVals distributionMethod procInfo nest h i
      loopRange tileSize method hr ht hz hm hne
  refine ⟨loop, hmem, hoff, hub, ?_⟩
  intro env t ub ivs htv hubv hivs hin
  exact (hall env t ub ivs htv (hub ▸ hubv) hivs hin).1

/-- Witness of C3: for the range `(0, 10, 1)` tiled by `4`, the size recorded at
the induction value `8` is `2`. -/
theorem boundedTileSize_in_loop_witness :
    (⟨[⟨.const 0, .const 10, .const 4, 0⟩], [.iv 0],
        [createBoundedTileSize (.iv 0) (.const 4) (.const 10)]⟩ : LoopNest).sizes[0]?.bind
      (Expr.eval ⟨fun _ => 0, fun _ => 8⟩) = some 2 := by
  obtain ⟨loop, hmem, -, -, hall⟩ :=
    boundedTileSize_in_loop [⟨.const 0, .const 10, .const 1⟩] [.const 4]
      [DistributionMethod.None] []
      ⟨[⟨.const 0, .const 10, .const 4, 0⟩], [.iv 0],
        [createBoundedTileSize (.iv 0) (.const 4) (.const 10)]⟩ rfl 0
      ⟨.const 0, .const 10, .const 1⟩ (.const 4) DistributionMethod.None rfl rfl rfl rfl
      (by decide)
  rw [List.mem_singleton] at hmem
  subst hmem
  exact hall ⟨fun _ => 0, fun _ => 8⟩ 4 10 [0, 4, 8] rfl rfl (by decide) (by decide)

/-- C4. For every tiled dimension with tile size `t >= 1` and every induction
value `iv` visited by the generated loop, the bounded tile size `s` satisfies
`1 <= s <= t` and `iv + s <= ub`: no tile reaches past the upper bound. -/
theorem boundedTileSize_safe (loopRanges : List RangeVal) (tileSizeVals : List Expr)
    (distributionMethod : List DistributionMethod) (procInfo : List ProcInfo)
    (nest : LoopNest)
    (h : generateTileLoopNest loopRanges tileSizeVals distributionMethod procInfo = .ok nest)
    (i : Nat) (loopRange : RangeVal) (tileSize : Expr) (method : DistributionMethod)
    (hr : loopRanges[i]? = some loopRange) (ht : tileSizeVals[i]? = some tileSize)
    (hz : isZero tileSize = false) (hm : distributionMethod[i]? = some method)
    (hne : method ≠ DistributionMethod.CyclicNumProcsEqNumIters) :
    ∃ loop ∈ nest.loops, nest.offsets[i]? = some loop.getInductionVar ∧
      ∀ (env : Env) (t ub : Int) (ivs : List Int), tileSize.eval env = some t → 1 ≤ t →
        loop.ub.eval env = some ub → loop.inductionValues env = some ivs →
        env.iv loop.inductionVar ∈ ivs →
        ∃ s : Int, (nest.sizes[i]?).bind (Expr.eval env) = some s ∧ 1 ≤ s ∧ s ≤ t ∧
          env.iv loop.inductionVar + s ≤ ub := by
  obtain ⟨loop, hmem, hoff, hub, hall⟩ :=
    tiled_dimension_loop_size loopRanges tileSizeVals distributionMethod procInfo nest h i
      loopRange tileSize method hr ht hz hm hne
  refine ⟨loop, hmem, hoff, ?_⟩
  intro env t ub ivs htv ht1 hubv hivs hin
  obtain ⟨hs, hlt⟩ := hall env t ub ivs htv (hub ▸ hubv) hivs hin
  refine ⟨_, hs, ?_, ?_, ?_⟩
  · exact le_min ht1 (by omega)
  · exact min_le_left _ _
  · have := min_le_right t (ub - env.iv loop.inductionVar)
    omega

/-- Witness of C4: for the range `(0, 10, 1)` tiled by `4`, the last tile, at
the induction value `8`, has a size between `1` and `4` and ends at most at `10`. -/
theorem boundedTileSize_safe_witness :
    ∃ s : Int, (⟨[⟨.const 0, .const 10, .const 4, 0⟩], [.iv 0],
        [createBoundedTileSize (.iv 0) (.const 4) (.const 10)]⟩ : LoopNest).sizes[0]?.bind
      (Expr.eval ⟨fun _ => 0, fun _ => 8⟩) = some s ∧ 1 ≤ s ∧ s ≤ 4 ∧ 8 + s ≤ 10 := by
  obtain ⟨loop, hmem, -, hall⟩ :=
    boundedTileSize_safe [⟨.const 0, .const 10, .const 1⟩] [.const 4]
      [DistributionMethod.None] []
      ⟨[⟨.const 0, .const 10, .const 4, 0⟩], [.iv 0],
        [createBoundedTileSize (.iv 0) (.const 4) (.const 10)]⟩ rfl 0
      ⟨.const 0, .const 10, .const 1⟩ (.const 4) DistributionMethod.None rfl rfl rfl rfl
      (by decide)
  rw [List.mem_singleton] at hmem
  subst hmem
  exact hall ⟨fun _ => 0, fun _ => 8⟩ 4 10 [0, 4, 8] rfl (by decide) rfl (by decide)
    (by decide)

/-! ## The interchange vector -/

theorem isPermutationLoop_eq (interchange seenVals : List Nat) :
    isPermutationLoop interchange seenVals =
      if interchange.Nodup ∧ ∀ x ∈ interchange, x ∉ seenVals then
        some (interchange.reverse ++ seenVals)
      else none := by
  induction interchange generalizing seenVals with
  | nil => simp [isPermutationLoop]
  | cons val rest ih =>
    unfold isPermutationLoop
    by_cases hmem : val ∈ seenVals
    · have : ¬ ((val :: rest).Nodup ∧ ∀ x ∈ val :: rest, x ∉ seenVals) := by
        rintro ⟨-, h⟩
        exact h val (List.mem_cons_self _ _) hmem
      simp [hmem, this]
    · rw [if_neg (by simpa using hmem), ih]
      by_cases hc : rest.Nodup ∧ ∀ x ∈ rest, x ∉ val :: seenVals
      · have hc2 : (val :: rest).Nodup ∧ ∀ x ∈ val :: rest, x ∉ seenVals := by
          obtain ⟨hn, hx⟩ := hc
          refine ⟨List.nodup_cons.2 ⟨?_, hn⟩, ?_⟩
          · intro hv
            exact hx val hv (List.mem_cons_self _ _)
          · intro x hxm
            rcases List.mem_cons.1 hxm with rfl | hxr
            · exact hmem
            · exact fun hs => hx x hxr (List.mem_cons_of_mem _ hs)
        rw [if_pos hc, if_pos hc2]
        simp
      · have hc2 : ¬ ((val :: rest).Nodup ∧ ∀ x ∈ val :: rest, x ∉ seenVals) := by
          rintro ⟨hn, hx⟩
          apply hc
          obtain ⟨hv, hn⟩ := List.nodup_cons.1 hn
          refine ⟨hn, ?_⟩
          intro x hxr hs
          rcases List.mem_cons.1 hs with rfl | hs
          · exact hv hxr
          · exact hx x (List.mem_cons_of_mem _ hxr) hs
        rw [if_neg hc, if_neg hc2]

/-- `isPermutation` holds exactly when no value occurs twice. -/
theorem isPermutation_iff_nodup (interchange : List Nat) :
    isPermutation interchange = true ↔ interchange.Nodup := by
  unfold isPermutation
  rw [isPermutationLoop_eq]
  by_cases h : interchange.Nodup
  · simp [h]
  · simp [h]

theorem length_fillInterchangeVector (interchangeVector : List Nat) (n : Nat) :
    (fillInterchangeVector interchangeVector n).length = n := by
  unfold fillInterchangeVector
  by_cases h : interchangeVector.length < n
  · have h3 : ¬ (interchangeVector ++ List.range' interchangeVector.length
        (n - interchangeVector.length)).length > n := by
      simp; omega
    simp only [h, if_true, if_neg h3]
    simp; omega
  · simp only [h, if_false]
    by_cases h2 : interchangeVector.length > n
    · simp [h2]; omega
    · simp [h2]; omega

/-- A vector of length `n` with entries below `n` is a bijection over `[0..n)`
exactly when no value occurs twice. -/
theorem perm_range_iff_nodup (v : List Nat) (n : Nat) (hlen : v.length = n)
    (hlt : ∀ x ∈ v, x < n) : v.Perm (List.range n) ↔ v.Nodup := by
  constructor
  · intro hp
    exact hp.nodup_iff.2 (List.nodup_range n)
  · intro hn
    apply (List.subperm_of_subset hn ?_).perm_of_length_le
    · simp [hlen]
    · intro x hx
      exact List.mem_range.2 (hlt x hx)

/-- The loop nest block fails when the filled interchange vector does not pass
`isPermutation`. -/
theorem tileInsideLoopNest_not_permutation (options : LinalgTilingOptions)
    (op : TilingInterfaceOp) (iterationDomainOfr : List Range)
    (iterationDomain : List RangeVal) (tileSizeVector : List Expr)
    (hv : options.interchangeVector ≠ []) (hr : 1 ≤ iterationDomain.length)
    (hnp : isPermutation
      (fillInterchangeVector options.interchangeVector iterationDomain.length) = false) :
    tileInsideLoopNest options op iterationDomainOfr iterationDomain tileSizeVector =
      .error (.matchFailure
        "invalid intechange vector, not a permutation of the entire iteration space") := by
  have hne : options.interchangeVector.isEmpty = false := by
    cases hi : options.interchangeVector with
    | nil => exact absurd hi hv
    | cons a l => rfl
  have hfill : filledInterchangeVector options iterationDomain.length =
      fillInterchangeVector options.interchangeVector iterationDomain.length := by
    simp [filledInterchangeVector, hne]
  have hne2 : (fillInterchangeVector options.interchangeVector
      iterationDomain.length).isEmpty = false := by
    have hl := length_fillInterchangeVector options.interchangeVector iterationDomain.length
    cases hi : fillInterchangeVector options.interchangeVector iterationDomain.length with
    | nil => rw [hi] at hl; simp at hl; omega
    | cons a l => rfl
  unfold tileInsideLoopNest
  simp only [hfill, hne2, hnp, Bool.not_false, if_true]
  rfl

/-- C5 (amended). For every non-empty configured interchange vector and every
iteration-domain rank `r >= 1` (with some non-zero tile size), let `f` be the
vector `fillInterchangeVector` returns: the configured vector cut to its first
`r` entries, or extended by the indices it lacks. When every entry of `f` is
below `r`, the check `isPermutation f` passes if and only if `f` is a bijection
over `[0..r)`; and when the check does not pass, the rewrite fails. -/
theorem interchange_check (options : LinalgTilingOptions)
    (filter : LinalgTransformationFilter) (mergeOffsetsSizesAndStrides : MergeFn)
    (op : TilingInterfaceOp) (st : IRState) (f : TilingInterfaceOp → List Expr)
    (hfilter : filter.checkAndNotify st op.op.id = true)
    (hf : options.tileSizeComputationFunction = some f)
    (hv : options.interchangeVector ≠ [])
    (hr : 1 ≤ op.getIterationDomain.length)
    (hnz : ((materializeTileSizes (f op) op.getIterationDomain.length).map
      fun tileSize => !isZero tileSize).any id = true)
    (hrange : ∀ x ∈ fillInterchangeVector options.interchangeVector
      op.getIterationDomain.length, x < op.getIterationDomain.length) :
    (isPermutation (fillInterchangeVector options.interchangeVector
        op.getIterationDomain.length) = true ↔
      (fillInterchangeVector options.interchangeVector op.getIterationDomain.length).Perm
        (List.range op.getIterationDomain.length)) ∧
    (isPermutation (fillInterchangeVector options.interchangeVector
        op.getIterationDomain.length) = false →
      (returningMatchAndRewrite options filter mergeOffsetsSizesAndStrides op st).1 =
        .error (.matchFailure
          "invalid intechange vector, not a permutation of the entire iteration space")) := by
  constructor
  · rw [isPermutation_iff_nodup]
    exact (perm_range_iff_nodup _ _ (length_fillInterchangeVector _ _) hrange).symm
  · intro hnp
    have hn0 : ¬ op.getIterationDomain.length = 0 := by omega
    have hblock := tileInsideLoopNest_not_permutation options op op.getIterationDomain
      (op.getIterationDomain.map fun r => ⟨r.offset, r.size, r.stride⟩)
      (materializeTileSizes (f op) op.getIterationDomain.length) hv
      (by simpa using hr) (by simpa using hnp)
    unfold returningMatchAndRewrite
    simp only [hfilter, Bool.not_true, Bool.false_eq_true, if_false, hf, hn0, hnz, hblock]

/-- Witness of C5 (amended): the interchange vector `[0, 0]` on a domain of rank
`2` does not pass the check, and the rewrite fails. -/
theorem interchange_check_witness :
    (isPermutation (fillInterchangeVector [0, 0] 2) = true ↔
      (fillInterchangeVector [0, 0] 2).Perm (List.range 2)) ∧
    (returningMatchAndRewrite (sampleOptions [0, 0] none) sampleFilter sampleMerge sampleOp
        sampleState).1 =
      .error (.matchFailure
        "invalid intechange vector, not a permutation of the entire iteration space") :=
  have h := interchange_check (sampleOptions [0, 0] none) sampleFilter sampleMerge sampleOp
    sampleState (fun _ => [.const 10, .const 4]) (by decide) rfl (by decide) (by decide)
    (by decide) (by decide)
  ⟨h.1, h.2 (by decide)⟩

/-- Counterexample to C5 as stated: on a domain of rank `3` the interchange
vector `[0, 1, 2, 0]` is cut to `[0, 1, 2]` and passes the check, although it
repeats a value and is not a bijection over `[0..3)`. -/
theorem interchange_check_counterexample :
    ¬ (isPermutation (fillInterchangeVector [0, 1, 2, 0] 3) = true ↔
        List.Perm [0, 1, 2, 0] (List.range 3)) := by
  intro h
  have hp := h.1 (by decide)
  have := hp.length_eq
  simp at this

/-! ## Applying and inverting a permutation -/

theorem gatherAt_ok {α : Type} (vector : List α) :
    ∀ (interchange : List Nat) (w : List α), gatherAt vector interchange = .ok w →
      ∀ i : Nat, w[i]? = interchange[i]?.bind fun val : Nat => vector[val]? := by
  intro interchange
  induction interchange with
  | nil =>
    intro w h i
    simp only [gatherAt, Except.ok.injEq] at h
    subst h
    simp
  | cons val rest ih =>
    intro w h i
    unfold gatherAt at h
    cases hv : vector[val]? with
    | none => simp [hv] at h
    | some x =>
      simp only [hv] at h
      cases hrest : gatherAt vector rest with
      | error e => simp [hrest] at h
      | ok xs =>
        simp only [hrest, Except.ok.injEq] at h
        subst h
        cases i with
        | zero => simp [hv]
        | succ i => simpa using ih xs hrest i

theorem gatherAt_success {α : Type} (vector : List α) :
    ∀ (interchange : List Nat), (∀ x ∈ interchange, x < vector.length) →
      ∃ w, gatherAt vector interchange = .ok w := by
  intro interchange
  induction interchange with
  | nil => intro _; exact ⟨[], rfl⟩
  | cons val rest ih =>
    intro h
    obtain ⟨xs, hxs⟩ := ih fun x hx => h x (List.mem_cons_of_mem _ hx)
    have hv : val < vector.length := h val (List.mem_cons_self _ _)
    refine ⟨vector[val] :: xs, ?_⟩
    unfold gatherAt
    simp [List.getElem?_eq_getElem hv, hxs]

theorem applyPermutationToVector_ok {α : Type} (vector : List α) (interchange : List Nat)
    (w : List α) (h : applyPermutationToVector vector interchange = .ok w) :
    interchange.length = vector.length ∧
      ∀ i : Nat, w[i]? = interchange[i]?.bind fun val : Nat => vector[val]? := by
  unfold applyPermutationToVector at h
  by_cases hl : interchange.length ≠ vector.length
  · simp [hl] at h
  · rw [if_neg hl] at h
    exact ⟨not_not.1 hl, gatherAt_ok vector interchange w h⟩

theorem applyPermutationToVector_success {α : Type} (vector : List α)
    (interchange : List Nat) (hl : interchange.length = vector.length)
    (h : ∀ x ∈ interchange, x < vector.length) :
    ∃ w, applyPermutationToVector vector interchange = .ok w := by
  unfold applyPermutationToVector
  rw [if_neg (by simpa using hl)]
  exact gatherAt_success vector interchange h

theorem length_of_getElem?_eq {α β : Type} (w : List α) (l : List β) (f : β → Option α)
    (hf : ∀ (i : Nat) (x : β), l[i]? = some x → (f x).isSome)
    (h : ∀ i : Nat, w[i]? = l[i]?.bind f) : w.length = l.length := by
  apply le_antisymm
  · by_contra hlt
    have h1 := h l.length
    have hlen : l.length < w.length := by omega
    rw [List.getElem?_eq_getElem hlen] at h1
    simp at h1
  · by_contra hlt
    have hlen : w.length < l.length := by omega
    have h1 := h w.length
    have h2 := hf w.length _ (List.getElem?_eq_getElem hlen)
    rw [List.getElem?_eq_getElem hlen] at h1
    simp only [Option.some_bind] at h1
    rw [← h1] at h2
    simp at h2

theorem invertPermutationLoop_spec :
    ∀ (interchange : List Nat) (index : Nat) (inversion : List Nat),
      (∀ x ∈ interchange, x < inversion.length) → interchange.Nodup →
      ∃ inv, invertPermutationLoop interchange index inversion = .ok inv ∧
        inv.length = inversion.length ∧
        (∀ k val : Nat, interchange[k]? = some val → inv[val]? = some (index + k)) ∧
        (∀ x : Nat, x ∉ interchange → inv[x]? = inversion[x]?) := by
  intro interchange
  induction interchange with
  | nil =>
    intro index inversion _ _
    exact ⟨inversion, rfl, rfl, by simp, fun _ _ => rfl⟩
  | cons val rest ih =>
    intro index inversion hlt hnd
    obtain ⟨hvr, hnd⟩ := List.nodup_cons.1 hnd
    have hv : val < inversion.length := hlt val (List.mem_cons_self _ _)
    obtain ⟨inv, h1, h2, h3, h4⟩ := ih (index + 1) (inversion.set val index)
      (fun x hx => by simpa using hlt x (List.mem_cons_of_mem _ hx)) hnd
    refine ⟨inv, ?_, by simpa using h2, ?_, ?_⟩
    · unfold invertPermutationLoop
      rw [if_pos hv]; exact h1
    · intro k x hk
      cases k with
      | zero =>
        simp only [List.getElem?_cons_zero, Option.some.injEq] at hk
        subst hk
        rw [h4 _ hvr]
        simp [List.getElem?_set_self hv]
      | succ k =>
        simp only [List.getElem?_cons_succ] at hk
        rw [h3 k x hk]
        congr 1; omega
    · intro x hx
      have hxv : val ≠ x := fun h => hx (h ▸ List.mem_cons_self _ _)
      rw [h4 x fun hm => hx (List.mem_cons_of_mem _ hm)]
      exact List.getElem?_set_ne hxv

/-- The inverse of a permutation of `[0..n)`: it has length `n`, maps `p[k]` to
`k`, and `p` maps `inv[d]` back to `d`. -/
theorem invertPermutationVector_spec (p : List Nat) (n : Nat)
    (hp : p.Perm (List.range n)) :
    ∃ inv, invertPermutationVector p = .ok inv ∧ inv.length = n ∧
      (∀ k val : Nat, p[k]? = some val → inv[val]? = some k) ∧
      (∀ d : Nat, d < n → ∃ k : Nat, inv[d]? = some k ∧ p[k]? = some d) := by
  have hlen : p.length = n := by simpa using hp.length_eq
  have hlt : ∀ x ∈ p, x < (List.replicate p.length 0).length := by
    intro x hx
    have := List.mem_range.1 (hp.subset hx)
    simp; omega
  obtain ⟨inv, h1, h2, h3, -⟩ := invertPermutationLoop_spec p 0 (List.replicate p.length 0)
    hlt (hp.nodup_iff.2 (List.nodup_range n))
  refine ⟨inv, h1, by simpa [hlen] using h2, ?_, ?_⟩
  · intro k val hk
    simpa using h3 k val hk
  · intro d hd
    have hmem : d ∈ p := hp.symm.subset (List.mem_range.2 hd)
    obtain ⟨k, hk, hkd⟩ := List.getElem_of_mem hmem
    have hk2 : p[k]? = some d := by rw [List.getElem?_eq_getElem hk, hkd]
    exact ⟨k, by simpa using h3 k d hk2, hk2⟩

theorem length_gatherAt {α : Type} (vector : List α) :
    ∀ (interchange : List Nat) (w : List α), gatherAt vector interchange = .ok w →
      w.length = interchange.length := by
  intro interchange
  induction interchange with
  | nil =>
    intro w h
    simp only [gatherAt, Except.ok.injEq] at h
    subst h
    rfl
  | cons val rest ih =>
    intro w h
    unfold gatherAt at h
    cases hv : vector[val]? with
    | none => simp [hv] at h
    | some x =>
      simp only [hv] at h
      cases hrest : gatherAt vector rest with
      | error e => simp [hrest] at h
      | ok xs =>
        simp only [hrest, Except.ok.injEq] at h
        subst h
        simp [ih xs hrest]

theorem length_applyPermutationToVector {α : Type} (vector : List α)
    (interchange : List Nat) (w : List α)
    (h : applyPermutationToVector vector interchange = .ok w) :
    w.length = interchange.length := by
  unfold applyPermutationToVector at h
  by_cases hl : interchange.length ≠ vector.length
  · simp [hl] at h
  · rw [if_neg hl] at h
    exact length_gatherAt vector interchange w h

/-- Applying a permutation of `[0..n)` and then its inverse gives the vector back. -/
theorem applyPermutation_invert {α : Type} (p : List Nat) (n : Nat) (v : List α)
    (hp : p.Perm (List.range n)) (hv : v.length = n) :
    ∃ w inv, applyPermutationToVector v p = .ok w ∧ invertPermutationVector p = .ok inv ∧
      applyPermutationToVector w inv = .ok v := by
  have hlen : p.length = n := by simpa using hp.length_eq
  have hlt : ∀ x ∈ p, x < v.length := by
    intro x hx
    rw [hv]
    exact List.mem_range.1 (hp.subset hx)
  obtain ⟨w, hw⟩ := applyPermutationToVector_success v p (by omega) hlt
  obtain ⟨inv, hinv, hil, -, hinv2⟩ := invertPermutationVector_spec p n hp
  have hwl : w.length = n := by
    rw [length_applyPermutationToVector v p w hw, hlen]
  have hwget := (applyPermutationToVector_ok v p w hw).2
  have hinvlt : ∀ x ∈ inv, x < w.length := by
    intro x hx
    obtain ⟨d, hd, hdx⟩ := List.getElem_of_mem hx
    obtain ⟨k, hk1, hk2⟩ := hinv2 d (by omega)
    rw [List.getElem?_eq_getElem hd, hdx, Option.some.injEq] at hk1
    subst hk1
    have : x < p.length := by
      by_contra hc
      rw [List.getElem?_eq_none (by omega)] at hk2
      simp at hk2
    omega
  obtain ⟨r, hr⟩ := applyPermutationToVector_success w inv (by omega) hinvlt
  refine ⟨w, inv, hw, hinv, ?_⟩
  rw [hr]
  congr 1
  apply List.ext_getElem?
  intro i
  rw [(applyPermutationToVector_ok w inv r hr).2 i]
  by_cases hi : i < n
  · obtain ⟨k, hk1, hk2⟩ := hinv2 i hi
    rw [hk1, Option.some_bind, hwget k, hk2, Option.some_bind]
  · rw [List.getElem?_eq_none (by omega), List.getElem?_eq_none (by omega)]
    rfl

theorem except_bind_eq_ok {ε α β : Type} (x : Except ε α) (f : α → Except ε β) (b : β) :
    (x >>= f) = .ok b ↔ ∃ a, x = .ok a ∧ f a = .ok b := by
  cases x with
  | error e => simp [bind, Except.bind]
  | ok a => simp [bind, Except.bind]

theorem filledInterchangeVector_eq (options : LinalgTilingOptions) (n : Nat)
    (hv : options.interchangeVector ≠ []) :
    filledInterchangeVector options n = fillInterchangeVector options.interchangeVector n := by
  have hne : options.interchangeVector.isEmpty = false := by
    cases hi : options.interchangeVector with
    | nil => exact absurd hi hv
    | cons a l => rfl
  simp [filledInterchangeVector, hne]

/-- What a successful run of the loop nest block did when an interchange vector
is configured. -/
theorem tileInsideLoopNest_ok_interchange (options : LinalgTilingOptions)
    (op : TilingInterfaceOp) (iterationDomainOfr : List Range)
    (iterationDomain : List RangeVal) (tileSizeVector : List Expr) (block : TiledBlock)
    (hv : options.interchangeVector ≠ []) (hr : 1 ≤ iterationDomain.length)
    (h : tileInsideLoopNest options op iterationDomainOfr iterationDomain tileSizeVector =
      .ok block) :
    ∃ (domP : List RangeVal) (tilesP : List Expr) (methods : List DistributionMethod)
      (procInfo : List ProcInfo) (nest : LoopNest) (inv : List Nat),
      isPermutation (fillInterchangeVector options.interchangeVector
        iterationDomain.length) = true ∧
      applyPermutationToVector iterationDomain
        (fillInterchangeVector options.interchangeVector iterationDomain.length) = .ok domP ∧
      applyPermutationToVector tileSizeVector
        (fillInterchangeVector options.interchangeVector iterationDomain.length) = .ok tilesP ∧
      distributeLoops options op iterationDomainOfr tilesP domP.length =
        .ok (methods, procInfo) ∧
      generateTileLoopNest domP tilesP methods procInfo = .ok nest ∧
      invertPermutationVector
        (fillInterchangeVector options.interchangeVector iterationDomain.length) = .ok inv ∧
      applyPermutationToVector nest.offsets inv = .ok block.offsets ∧
      applyPermutationToVector nest.sizes inv = .ok block.sizes ∧
      block.loops = nest.loops := by
  have hne2 : (fillInterchangeVector options.interchangeVector
      iterationDomain.length).isEmpty = false := by
    have hl := length_fillInterchangeVector options.interchangeVector iterationDomain.length
    cases hi : fillInterchangeVector options.interchangeVector iterationDomain.length with
    | nil => rw [hi] at hl; simp at hl; omega
    | cons a l => rfl
  unfold tileInsideLoopNest at h
  simp only [filledInterchangeVector_eq options _ hv, hne2, Bool.not_false, if_true] at h
  cases hperm : isPermutation (fillInterchangeVector options.interchangeVector
      iterationDomain.length) with
  | false =>
    simp only [hperm, Bool.not_false, if_true] at h
    cases h
  | true =>
    simp only [hperm, Bool.not_true, Bool.false_eq_true, if_false] at h
    rw [except_bind_eq_ok] at h
    obtain ⟨domP, hdom, h⟩ := h
    rw [except_bind_eq_ok] at h
    obtain ⟨tilesP, htiles, h⟩ := h
    rw [pure_bind, except_bind_eq_ok] at h
    obtain ⟨⟨methods, procInfo⟩, hdist, h⟩ := h
    rw [except_bind_eq_ok] at h
    obtain ⟨nest, hnest, h⟩ := h
    rw [except_bind_eq_ok] at h
    obtain ⟨inv, hinv, h⟩ := h
    rw [except_bind_eq_ok] at h
    obtain ⟨offsets, hoff, h⟩ := h
    rw [except_bind_eq_ok] at h
    obtain ⟨sizes, hsz, h⟩ := h
    rw [pure_bind] at h
    refine ⟨domP, tilesP, methods, procInfo, nest, inv, rfl, hdom, htiles, hdist, hnest,
      hinv, ?_⟩
    cases hlast : (op.getTiledImplementation offsets sizes).getLast? with
    | none =>
      simp only [hlast] at h
      cases h
    | some tiledOp =>
      simp only [hlast] at h
      cases h
      exact ⟨hoff, hsz, rfl⟩

/-- C6. For every permutation `p` of `[0..n)` and every vector `v` of length `n`,
applying `p` to `v` and then the inverse of `p` gives `v` back. Hence, when
tiling succeeds under a valid interchange, entry `d` of the tile offsets and
sizes it returns describes the original dimension `d`: it was produced by the
loop body of `generateTileLoopNest` from the range `domain[d]` and the tile size
`tileSize[d]`. -/
theorem unInterchange_roundtrip :
    (∀ (α : Type) (p : List Nat) (n : Nat) (v : List α), p.Perm (List.range n) →
      v.length = n →
      ∃ w inv, applyPermutationToVector v p = .ok w ∧ invertPermutationVector p = .ok inv ∧
        applyPermutationToVector w inv = .ok v) ∧
    (∀ (options : LinalgTilingOptions) (op : TilingInterfaceOp)
      (iterationDomainOfr : List Range) (iterationDomain : List RangeVal)
      (tileSizeVector : List Expr) (block : TiledBlock),
      options.interchangeVector ≠ [] →
      (fillInterchangeVector options.interchangeVector iterationDomain.length).Perm
        (List.range iterationDomain.length) →
      tileInsideLoopNest options op iterationDomainOfr iterationDomain tileSizeVector =
        .ok block →
      ∀ (d : Nat) (range : RangeVal), iterationDomain[d]? = some range →
        ∃ (tilesP : List Expr) (methods : List DistributionMethod)
          (procInfo : List ProcInfo) (j pd nl : Nat) (dt : DimTile),
          tilesP[j]? = tileSizeVector[d]? ∧
          tileDimension range tilesP methods procInfo j pd nl = .ok dt ∧
          block.offsets[d]? = some dt.offset ∧ block.sizes[d]? = some dt.size) := by
  refine ⟨fun α p n v hp hv => applyPermutation_invert p n v hp hv, ?_⟩
  intro options op iterationDomainOfr iterationDomain tileSizeVector block hv hp h d range hd
  have hdlt : d < iterationDomain.length := by
    by_contra hc
    rw [List.getElem?_eq_none (by omega)] at hd
    cases hd
  obtain ⟨domP, tilesP, methods, procInfo, nest, inv, -, hdom, htiles, -, hnest, hinv, hoff,
    hsz, -⟩ := tileInsideLoopNest_ok_interchange options op iterationDomainOfr
      iterationDomain tileSizeVector block hv (by omega) h
  obtain ⟨inv2, hinv2, -, -, hback⟩ := invertPermutationVector_spec _ _ hp
  rw [hinv] at hinv2
  cases hinv2
  obtain ⟨j, hj1, hj2⟩ := hback d hdlt
  have hdomj : domP[j]? = some range := by
    rw [(applyPermutationToVector_ok _ _ _ hdom).2 j, hj2, Option.some_bind, hd]
  have htilej : tilesP[j]? = tileSizeVector[d]? := by
    rw [(applyPermutationToVector_ok _ _ _ htiles).2 j, hj2, Option.some_bind]
  obtain ⟨pd, nl, dt, hdt, hoj, hsj, -⟩ :=
    generateTileLoopNest_get domP tilesP methods procInfo nest hnest j range hdomj
  refine ⟨tilesP, methods, procInfo, j, pd, nl, dt, htilej, hdt, ?_, ?_⟩
  · rw [(applyPermutationToVector_ok _ _ _ hoff).2 d, hj1, Option.some_bind, hoj]
  · rw [(applyPermutationToVector_ok _ _ _ hsz).2 d, hj1, Option.some_bind, hsj]

/-- Witness of C6: the cyclic permutation `[1, 2, 0]` applied to a vector of three
entries and then inverted gives the vector back. -/
theorem unInterchange_roundtrip_witness :
    ∃ w inv, applyPermutationToVector [10, 20, 30] [1, 2, 0] = .ok w ∧
      invertPermutationVector [1, 2, 0] = .ok inv ∧
      applyPermutationToVector w inv = .ok [10, 20, 30] :=
  unInterchange_roundtrip.1 Nat [1, 2, 0] 3 [10, 20, 30] (by decide) rfl

/-! ## Selection of the distributed dimensions -/

/-- C7, the code at the failing input. `sampleOp` has a parallel dimension `0`
with range `(0, 100, 1)` and a reduction dimension `1` with range `(0, 50, 1)`;
the tile sizes are `10` and `4` and the interchange is `[1, 0]`. After the
interchange, position `0` holds dimension `1`, a reduction, and position `1`
holds dimension `0`. The code reads the iterator types and the forwarded ranges
at the position, not at the dimension the position holds: it hands position `0`
to the strategy with the range of dimension `0`, and the generated loop nest
distributes the loop over the reduction dimension (upper bound `50`) and leaves
the loop over the parallel dimension undistributed. -/
theorem distribution_reads_unpermuted_iterator_types :
    applyPermutationToVector [Expr.const 10, Expr.const 4] [1, 0] =
      .ok [Expr.const 4, Expr.const 10] ∧
    sampleOp.getLoopIteratorTypes[1]? = some IteratorType.reduction ∧
    collectPartitionedLoops [.const 4, .const 10] sampleOp.getIterationDomain
      sampleOp.getLoopIteratorTypes 0 = .ok ([⟨.const 0, .const 100, .const 1⟩], [0]) ∧
    distributeLoops (sampleOptions [1, 0] (some sampleDistribution)) sampleOp
      sampleOp.getIterationDomain [.const 4, .const 10] 2 =
      .ok ([DistributionMethod.Cyclic, DistributionMethod.None],
        [⟨.dyn 0, .const 100, DistributionMethod.Cyclic⟩]) ∧
    (tileInsideLoopNest (sampleOptions [1, 0] (some sampleDistribution)) sampleOp
      sampleOp.getIterationDomain
      (sampleOp.getIterationDomain.map fun r => ⟨r.offset, r.size, r.stride⟩)
      [.const 10, .const 4]).map (fun block => block.loops) =
      .ok [⟨.add (.const 0) (.mul (.dyn 0) (.const 4)), .const 50,
            .mul (.const 4) (.const 100), 0⟩,
          ⟨.const 0, .const 100, .const 10, 1⟩] := by
  refine ⟨rfl, rfl, rfl, rfl, rfl⟩

/-! ## The workgroup count under an interchange -/

/-- C8, the code at the failing input. With the interchange `[1, 2, 0]` and the
per-axis tile counts `[8, 4, 2]`, tiling places dimension `p[i]` at position
`i`, which orders the counts as `[4, 2, 8]`; the interchange step of the
workgroup count lowering stores the count of dimension `i` at position `p[i]`
and yields `[2, 8, 4]`. At position `0` tiling iterates the four tiles of
dimension `1`, while the count obtained for that position is `2`. -/
theorem workgroupCount_interchange_is_inverse :
    (samplePattern [1, 2, 0]).numTiles (-1) [.dyn 0, .dyn 1, .dyn 2] =
      [.const 8, .const 4, .const 2] ∧
    applyPermutationToVector [Expr.const 8, Expr.const 4, Expr.const 2] [1, 2, 0] =
      .ok [.const 4, .const 2, .const 8] ∧
    interchangeNumTiles [1, 2, 0] [.const 8, .const 4, .const 2] =
      .ok [.const 2, .const 8, .const 4] ∧
    (inductionValues 0 8 2).length = 4 ∧
    (samplePattern [1, 2, 0]).matchAndRewrite (-1) 3 [.dyn 0, .dyn 1, .dyn 2] =
      .ok [.const 4, .const 8, .const 2] := by
  refine ⟨rfl, rfl, rfl, rfl, rfl⟩

/-! ## The shape of the workgroup grid -/

theorem pruneNumTiles_eq_gatherAt (numTiles : List Expr) (loops : List Nat) :
    pruneNumTiles numTiles loops = gatherAt numTiles loops := by
  induction loops with
  | nil => rfl
  | cons l rest ih =>
    unfold pruneNumTiles gatherAt
    rw [ih]
    cases numTiles[l]? with
    | none => rfl
    | some n => cases gatherAt numTiles rest <;> rfl

/-- C9. For every list `P` of partitioned loop indices with `|P|` at most the
maximum grid rank `K`, the lowered workgroup count has exactly `K` entries;
entry `k` for `k < |P|` is the interchanged tile count of loop `P[|P| - 1 - k]`,
and every entry `k >= |P|` is `1`. -/
theorem workgroupCount_shape (pattern : LowerDispatchWorkgroupCountForDagRootOp)
    (kDynamic : Int) (kNumMaxParallelDims : Nat) (workloadValues numTiles : List Expr)
    (hint : interchangeNumTiles pattern.givenInterchange
      (pattern.numTiles kDynamic workloadValues) = .ok numTiles)
    (hP : pattern.partitionedLoops.length ≤ kNumMaxParallelDims)
    (hrange : ∀ l ∈ pattern.partitionedLoops, l < numTiles.length) :
    ∃ numWorkgroups,
      pattern.matchAndRewrite kDynamic kNumMaxParallelDims workloadValues =
        .ok numWorkgroups ∧
      numWorkgroups.length = kNumMaxParallelDims ∧
      (∀ k : Nat, k < pattern.partitionedLoops.length →
        ∃ (l : Nat) (count : Expr),
          pattern.partitionedLoops[pattern.partitionedLoops.length - 1 - k]? = some l ∧
          numTiles[l]? = some count ∧ numWorkgroups[k]? = some count) ∧
      (∀ k : Nat, pattern.partitionedLoops.length ≤ k → k < kNumMaxParallelDims →
        numWorkgroups[k]? = some (.const 1)) := by
  have hrev : ∀ l ∈ pattern.partitionedLoops.reverse, l < numTiles.length := by
    intro l hl
    exact hrange l (List.mem_reverse.1 hl)
  obtain ⟨ns, hns⟩ := gatherAt_success numTiles pattern.partitionedLoops.reverse hrev
  have hlen : ns.length = pattern.partitionedLoops.length := by
    rw [length_gatherAt _ _ _ hns, List.length_reverse]
  have hget := gatherAt_ok numTiles _ ns hns
  refine ⟨resize ns kNumMaxParallelDims (.const 1), ?_, length_resize _ _ _, ?_, ?_⟩
  · unfold LowerDispatchWorkgroupCountForDagRootOp.matchAndRewrite
    simp only [hint, pruneNumTiles_eq_gatherAt, hns]
  · intro k hk
    have hk2 : pattern.partitionedLoops.length - 1 - k < pattern.partitionedLoops.length := by
      omega
    have hl : pattern.partitionedLoops[pattern.partitionedLoops.length - 1 - k]? =
        some (pattern.partitionedLoops[pattern.partitionedLoops.length - 1 - k]) :=
      List.getElem?_eq_getElem hk2
    have hlt := hrange _ (List.getElem_mem hk2)
    refine ⟨_, _, hl, List.getElem?_eq_getElem hlt, ?_⟩
    rw [getElem?_resize _ _ _ _ (by omega), List.getD_eq_getElem?_getD, hget k,
      List.getElem?_reverse (by omega), hl, Option.some_bind, List.getElem?_eq_getElem hlt]
    rfl
  · intro k hk1 hk2
    rw [getElem?_resize _ _ _ _ hk2, List.getD_eq_getElem?_getD,
      List.getElem?_eq_none (by omega)]
    rfl

/-- Witness of C9: with two partitioned loops and grid rank `3`, the lowered
count has three entries, the counts of loops `1` and `0` followed by `1`. -/
theorem workgroupCount_shape_witness :
    ∃ numWorkgroups,
      (⟨[4, 8], [16, 16], [], [0, 1]⟩ :
        LowerDispatchWorkgroupCountForDagRootOp).matchAndRewrite (-1) 3 [.dyn 0, .dyn 1] =
        .ok numWorkgroups ∧
      numWorkgroups.length = 3 ∧
      (∀ k : Nat, k < 2 →
        ∃ (l : Nat) (count : Expr), [0, 1][2 - 1 - k]? = some l ∧
          [Expr.const 4, Expr.const 2][l]? = some count ∧ numWorkgroups[k]? = some count) ∧
      (∀ k : Nat, 2 ≤ k → k < 3 → numWorkgroups[k]? = some (.const 1)) :=
  workgroupCount_shape ⟨[4, 8], [16, 16], [], [0, 1]⟩ (-1) 3 [.dyn 0, .dyn 1]
    [.const 4, .const 2] rfl (by decide) (by decide)

/-! ## Untiled dimensions -/

/-- The body of the loop of `generateTileLoopNest` reads only the tile size and
the distribution method of its own dimension. -/
theorem tileDimension_congr (loopRange : RangeVal) (tiles1 tiles2 : List Expr)
    (methods1 methods2 : List DistributionMethod) (procInfo : List ProcInfo)
    (index1 index2 procDim numLoops : Nat) (ht : tiles1[index1]? = tiles2[index2]?)
    (hm : methods1[index1]? = methods2[index2]?) :
    tileDimension loopRange tiles1 methods1 procInfo index1 procDim numLoops =
      tileDimension loopRange tiles2 methods2 procInfo index2 procDim numLoops := by
  unfold tileDimension
  rw [ht, hm]

theorem generateTileLoopNestFrom_congr (tiles1 tiles2 : List Expr)
    (methods1 methods2 : List DistributionMethod) (procInfo : List ProcInfo) :
    ∀ (loopRanges : List RangeVal) (index1 index2 procDim numLoops : Nat),
      (∀ k : Nat, k < loopRanges.length → tiles1[index1 + k]? = tiles2[index2 + k]?) →
      (∀ k : Nat, k < loopRanges.length → methods1[index1 + k]? = methods2[index2 + k]?) →
      generateTileLoopNestFrom tiles1 methods1 procInfo loopRanges index1 procDim numLoops =
        generateTileLoopNestFrom tiles2 methods2 procInfo loopRanges index2 procDim
          numLoops := by
  intro loopRanges
  induction loopRanges with
  | nil => intro _ _ _ _ _ _; rfl
  | cons r rest ih =>
    intro index1 index2 procDim numLoops ht hm
    unfold generateTileLoopNestFrom
    rw [tileDimension_congr r tiles1 tiles2 methods1 methods2 procInfo index1 index2 procDim
      numLoops (by simpa using ht 0 (by simp)) (by simpa using hm 0 (by simp))]
    cases tileDimension r tiles2 methods2 procInfo index2 procDim numLoops with
    | error e => rfl
    | ok t =>
      simp only
      rw [ih (index1 + 1) (index2 + 1) t.procDim (numLoops + t.loop.toList.length)
        (fun k hk => by
          have := ht (k + 1) (by simp; omega)
          rw [show index1 + (k + 1) = index1 + 1 + k by omega,
            show index2 + (k + 1) = index2 + 1 + k by omega] at this
          exact this)
        (fun k hk => by
          have := hm (k + 1) (by simp; omega)
          rw [show index1 + (k + 1) = index1 + 1 + k by omega,
            show index2 + (k + 1) = index2 + 1 + k by omega] at this
          exact this)]

/-- Removing a dimension with a zero tile size leaves the loops, and the offsets
and sizes of the other dimensions, as they are. -/
theorem generateTileLoopNestFrom_eraseIdx (tiles : List Expr)
    (methods : List DistributionMethod) (procInfo : List ProcInfo) :
    ∀ (loopRanges : List RangeVal) (index procDim numLoops : Nat) (nest : LoopNest)
      (i : Nat),
      generateTileLoopNestFrom tiles methods procInfo loopRanges index procDim numLoops =
        .ok nest →
      tiles[index + i]? = some (.const 0) → i < loopRanges.length →
      generateTileLoopNestFrom (tiles.eraseIdx (index + i)) (methods.eraseIdx (index + i))
        procInfo (loopRanges.eraseIdx i) index procDim numLoops =
        .ok ⟨nest.loops, nest.offsets.eraseIdx i, nest.sizes.eraseIdx i⟩ := by
  intro loopRanges
  induction loopRanges with
  | nil => intro _ _ _ _ i _ _ hi; simp at hi
  | cons r rest ih =>
    intro index procDim numLoops nest i h ht hi
    unfold generateTileLoopNestFrom at h
    cases hd : tileDimension r tiles methods procInfo index procDim numLoops with
    | error e => simp [hd] at h
    | ok t =>
      simp only [hd] at h
      cases hrest : generateTileLoopNestFrom tiles methods procInfo rest (index + 1)
          t.procDim (numLoops + t.loop.toList.length) with
      | error e => simp [hrest] at h
      | ok nest1 =>
        simp only [hrest] at h
        injection h with h
        subst h
        cases i with
        | zero =>
          have hz := tileDimension_zero r tiles methods procInfo index procDim numLoops
            (.const 0) (by simpa using ht) rfl
          rw [hz] at hd
          injection hd with hd
          subst hd
          simp only [Nat.add_zero, List.eraseIdx_cons_zero, Option.toList, List.nil_append,
            List.length_nil] at hrest ⊢
          rw [← hrest]
          apply generateTileLoopNestFrom_congr
          · intro k _
            rw [List.getElem?_eraseIdx_of_ge _ _ _ (by omega)]
            congr 1; omega
          · intro k _
            rw [List.getElem?_eraseIdx_of_ge _ _ _ (by omega)]
            congr 1; omega
        | succ i =>
          have hih := ih (index + 1) t.procDim (numLoops + t.loop.toList.length) nest1 i
            hrest (by rw [← ht]; congr 1; omega) (by simpa using hi)
          rw [show index + 1 + i = index + (i + 1) by omega] at hih
          simp only [List.eraseIdx_cons_succ]
          unfold generateTileLoopNestFrom
          rw [tileDimension_congr r _ tiles _ methods procInfo index index procDim numLoops
            (List.getElem?_eraseIdx_of_lt _ _ _ (by omega))
            (List.getElem?_eraseIdx_of_lt _ _ _ (by omega)), hd]
          simp only [hih]

/-- C10. For every dimension `i` whose tile size is the constant `0`,
`generateTileLoopNest` creates no loop for it, so that the loops are those of
the nest without the dimension, and returns `offset[i] = domain[i].offset` and
`size[i] = domain[i].size`, whatever distribution method is assigned to `i`. -/
theorem untiled_dimension_passthrough (loopRanges : List RangeVal)
    (tileSizeVals : List Expr) (distributionMethod : List DistributionMethod)
    (procInfo : List ProcInfo) (nest : LoopNest) (i : Nat) (loopRange : RangeVal)
    (h : generateTileLoopNest loopRanges tileSizeVals distributionMethod procInfo = .ok nest)
    (hr : loopRanges[i]? = some loopRange) (ht : tileSizeVals[i]? = some (.const 0)) :
    nest.offsets[i]? = some loopRange.offset ∧ nest.sizes[i]? = some loopRange.size ∧
    (∀ procDim numLoops,
      tileDimension loopRange tileSizeVals distributionMethod procInfo i procDim numLoops =
        .ok ⟨loopRange.offset, loopRange.size, none, procDim⟩) ∧
    generateTileLoopNestFrom (tileSizeVals.eraseIdx i) (distributionMethod.eraseIdx i)
      procInfo (loopRanges.eraseIdx i) 0 0 0 =
      .ok ⟨nest.loops, nest.offsets.eraseIdx i, nest.sizes.eraseIdx i⟩ := by
  have hbody : ∀ procDim numLoops,
      tileDimension loopRange tileSizeVals distributionMethod procInfo i procDim numLoops =
        .ok ⟨loopRange.offset, loopRange.size, none, procDim⟩ :=
    fun procDim numLoops =>
      tileDimension_zero loopRange tileSizeVals distributionMethod procInfo i procDim
        numLoops (.const 0) ht rfl
  obtain ⟨pd, nl, d, hd, hoff, hsize, -⟩ :=
    generateTileLoopNest_get loopRanges tileSizeVals distributionMethod procInfo nest h i
      loopRange hr
  rw [hbody pd nl] at hd
  injection hd with hd
  subst hd
  have hi : i < loopRanges.length := by
    by_contra hc
    rw [List.getElem?_eq_none (by omega)] at hr
    cases hr
  refine ⟨hoff, hsize, hbody, ?_⟩
  unfold generateTileLoopNest at h
  split at h
  · simp at h
  · split at h
    · simp at h
    · split at h
      · simp at h
      · have := generateTileLoopNestFrom_eraseIdx tileSizeVals distributionMethod procInfo
          loopRanges 0 0 0 nest i h (by simpa using ht) hi
        simpa using this

/-- Witness of C10: for the ranges `(0, 100, 1)` and `(0, 50, 1)` with the tile
sizes `10` and `0`, dimension `1` keeps the offset `0` and the size `50`, and the
only loop is the loop of dimension `0`. -/
theorem untiled_dimension_passthrough_witness :
    (⟨[⟨.const 0, .const 100, .const 10, 0⟩], [.iv 0, .const 0],
        [createBoundedTileSize (.iv 0) (.const 10) (.const 100), .const 50]⟩ :
      LoopNest).offsets[1]? = some (.const 0) ∧
    (⟨[⟨.const 0, .const 100, .const 10, 0⟩], [.iv 0, .const 0],
        [createBoundedTileSize (.iv 0) (.const 10) (.const 100), .const 50]⟩ :
      LoopNest).sizes[1]? = some (.const 50) ∧
    generateTileLoopNestFrom [.const 10] [DistributionMethod.None] []
      [⟨.const 0, .const 100, .const 1⟩] 0 0 0 =
      .ok ⟨[⟨.const 0, .const 100, .const 10, 0⟩], [.iv 0],
        [createBoundedTileSize (.iv 0) (.const 10) (.const 100)]⟩ :=
  have h := untiled_dimension_passthrough
    [⟨.const 0, .const 100, .const 1⟩, ⟨.const 0, .const 50, .const 1⟩]
    [.const 10, .const 0] [DistributionMethod.None, DistributionMethod.Cyclic] []
    ⟨[⟨.const 0, .const 100, .const 10, 0⟩], [.iv 0, .const 0],
      [createBoundedTileSize (.iv 0) (.const 10) (.const 100), .const 50]⟩ 1
    ⟨.const 0, .const 50, .const 1⟩ rfl rfl rfl
  ⟨h.1, h.2.1, h.2.2.2⟩

/-! ## The number and the order of the loops -/

/-- Whether the body of the loop of `generateTileLoopNest` creates a loop. -/
theorem tileDimension_loop_iff (loopRange : RangeVal) (tileSizeVals : List Expr)
    (distributionMethod : List DistributionMethod) (procInfo : List ProcInfo)
    (index procDim numLoops : Nat) (d : DimTile)
    (hd : tileDimension loopRange tileSizeVals distributionMethod procInfo index procDim
      numLoops = .ok d) :
    (expectsLoop tileSizeVals distributionMethod index = false → d.loop = none) ∧
    (expectsLoop tileSizeVals distributionMethod index = true →
      ∃ loop : ForOp, d.loop = some loop ∧ d.offset = loop.getInductionVar ∧
        loop.ub = loopRange.size ∧ loop.inductionVar = numLoops) := by
  cases ht : tileSizeVals[index]? with
  | none => simp [tileDimension, ht] at hd
  | some tileSize =>
    cases hz : isZero tileSize with
    | true =>
      rw [tileDimension_zero loopRange tileSizeVals distributionMethod procInfo index procDim
        numLoops tileSize ht hz] at hd
      injection hd with hd
      subst hd
      constructor
      · intro _; rfl
      · intro h
        exfalso
        unfold expectsLoop at h
        rw [ht] at h
        cases hm : distributionMethod[index]? with
        | none => simp [hm] at h
        | some m => simp [hm, hz] at h
    | false =>
      cases hm : distributionMethod[index]? with
      | none => simp [tileDimension, ht, hz, hm] at hd
      | some method =>
        by_cases hne : method = DistributionMethod.CyclicNumProcsEqNumIters
        · subst hne
          constructor
          · intro _
            unfold tileDimension at hd
            simp only [ht, hz, hm, Bool.false_eq_true, if_false, ne_eq, reduceCtorEq,
              not_false_eq_true, if_true] at hd
            cases hp : procInfo[procDim]? with
            | none => simp [hp] at hd
            | some info =>
              simp only [hp] at hd
              injection hd with hd
              subst hd
              rfl
          · intro h
            simp [expectsLoop, ht, hz, hm] at h
        · constructor
          · intro h
            simp [expectsLoop, ht, hz, hm, hne] at h
          · intro _
            obtain ⟨loop, h1, h2, h3, h4, -⟩ := tileDimension_loop loopRange tileSizeVals
              distributionMethod procInfo index procDim numLoops d tileSize method hd ht hz
              hm hne
            exact ⟨loop, h1, h2, h3, h4⟩

theorem generateTileLoopNestFrom_loops (tileSizeVals : List Expr)
    (distributionMethod : List DistributionMethod) (procInfo : List ProcInfo) :
    ∀ (loopRanges : List RangeVal) (index procDim numLoops : Nat) (nest : LoopNest),
      generateTileLoopNestFrom tileSizeVals distributionMethod procInfo loopRanges index
        procDim numLoops = .ok nest →
      nest.loops.length =
        ((List.range' index loopRanges.length).filter
          (expectsLoop tileSizeVals distributionMethod)).length ∧
      ∀ (k i : Nat),
        ((List.range' index loopRanges.length).filter
          (expectsLoop tileSizeVals distributionMethod))[k]? = some i →
        ∃ (j : Nat) (loop : ForOp) (loopRange : RangeVal), i = index + j ∧
          nest.loops[k]? = some loop ∧ loop.inductionVar = numLoops + k ∧
          loopRanges[j]? = some loopRange ∧ loop.ub = loopRange.size ∧
          nest.offsets[j]? = some loop.getInductionVar := by
  intro loopRanges
  induction loopRanges with
  | nil =>
    intro index procDim numLoops nest h
    simp only [generateTileLoopNestFrom, Except.ok.injEq] at h
    subst h
    simp
  | cons r rest ih =>
    intro index procDim numLoops nest h
    unfold generateTileLoopNestFrom at h
    cases hd : tileDimension r tileSizeVals distributionMethod procInfo index procDim
        numLoops with
    | error e => simp [hd] at h
    | ok t =>
      simp only [hd] at h
      cases hrest : generateTileLoopNestFrom tileSizeVals distributionMethod procInfo rest
          (index + 1) t.procDim (numLoops + t.loop.toList.length) with
      | error e => simp [hrest] at h
      | ok nest1 =>
        simp only [hrest] at h
        injection h with h
        subst h
        obtain ⟨ihlen, ihget⟩ := ih (index + 1) t.procDim _ nest1 hrest
        obtain ⟨hno, hyes⟩ := tileDimension_loop_iff r tileSizeVals distributionMethod
          procInfo index procDim numLoops t hd
        simp only [List.length_cons, List.range'_succ, List.filter_cons]
        cases he : expectsLoop tileSizeVals distributionMethod index with
        | false =>
          have hl := hno he
          simp only [hl, Option.toList, List.nil_append, List.length_nil, Nat.add_zero,
            Bool.false_eq_true, if_false] at ihlen ihget ⊢
          refine ⟨ihlen, ?_⟩
          intro k i hk
          obtain ⟨j, loop, loopRange, h1, h2, h3, h4, h5, h6⟩ := ihget k i hk
          exact ⟨j + 1, loop, loopRange, by omega, h2, h3, by simpa using h4, h5,
            by simpa using h6⟩
        | true =>
          obtain ⟨loop, hl, hoff, hub, hiv⟩ := hyes he
          simp only [hl, Option.toList, List.singleton_append, List.length_cons,
            List.length_nil, if_true] at ihlen ihget ⊢
          refine ⟨by omega, ?_⟩
          intro k i hk
          cases k with
          | zero =>
            simp only [List.getElem?_cons_zero, Option.some.injEq] at hk
            subst hk
            exact ⟨0, loop, r, rfl, by simp, by simpa using hiv, by simp, hub,
              by simp [hoff]⟩
          | succ k =>
            simp only [List.getElem?_cons_succ] at hk
            obtain ⟨j, loop1, loopRange, h1, h2, h3, h4, h5, h6⟩ := ihget k i hk
            exact ⟨j + 1, loop1, loopRange, by omega, by simpa using h2, by omega,
              by simpa using h4, h5, by simpa using h6⟩

/-- C11. The loops `generateTileLoopNest` returns are exactly one per dimension
whose tile size is not zero and whose method is not `CyclicNumProcsEqNumIters`:
there are as many loops as such dimensions, the `k`-th loop (outermost first)
belongs to the `k`-th such dimension in increasing order, and the offset of that
dimension is the induction variable of its loop. -/
theorem loops_one_per_tiled_dimension (loopRanges : List RangeVal)
    (tileSizeVals : List Expr) (distributionMethod : List DistributionMethod)
    (procInfo : List ProcInfo) (nest : LoopNest)
    (h : generateTileLoopNest loopRanges tileSizeVals distributionMethod procInfo =
      .ok nest) :
    nest.loops.length =
      (loopDimensions tileSizeVals distributionMethod loopRanges.length).length ∧
    ∀ (k i : Nat),
      (loopDimensions tileSizeVals distributionMethod loopRanges.length)[k]? = some i →
      ∃ (loop : ForOp) (loopRange : RangeVal),
        nest.loops[k]? = some loop ∧ loop.inductionVar = k ∧
        loopRanges[i]? = some loopRange ∧ loop.ub = loopRange.size ∧
        nest.offsets[i]? = some loop.getInductionVar := by
  unfold generateTileLoopNest at h
  split at h
  · simp at h
  · split at h
    · simp at h
    · split at h
      · simp at h
      · obtain ⟨hlen, hget⟩ := generateTileLoopNestFrom_loops tileSizeVals
          distributionMethod procInfo loopRanges 0 0 0 nest h
        unfold loopDimensions
        rw [List.range_eq_range']
        refine ⟨hlen, ?_⟩
        intro k i hk
        obtain ⟨j, loop, loopRange, h1, h2, h3, h4, h5, h6⟩ := hget k i hk
        have hij : i = j := by omega
        subst hij
        exact ⟨loop, loopRange, h2, by omega, h4, h5, h6⟩

/-- Witness of C11: the ranges `(0, 100, 1)` and `(0, 50, 1)` with the tile sizes
`10` and `0`, without distribution, give exactly one loop, from `0` to `100` by
`10`, and dimension `1` keeps the offset `0` and the size `50`. -/
theorem loops_one_per_tiled_dimension_witness :
    generateTileLoopNest [⟨.const 0, .const 100, .const 1⟩, ⟨.const 0, .const 50, .const 1⟩]
      [.const 10, .const 0] [DistributionMethod.None, DistributionMethod.None] [] =
      .ok ⟨[⟨.const 0, .const 100, .const 10, 0⟩], [.iv 0, .const 0],
        [createBoundedTileSize (.iv 0) (.const 10) (.const 100), .const 50]⟩ ∧
    (⟨[⟨.const 0, .const 100, .const 10, 0⟩], [.iv 0, .const 0],
        [createBoundedTileSize (.iv 0) (.const 10) (.const 100), .const 50]⟩ :
      LoopNest).loops.length =
      (loopDimensions [.const 10, .const 0]
        [DistributionMethod.None, DistributionMethod.None] 2).length ∧
    loopDimensions [.const 10, .const 0]
      [DistributionMethod.None, DistributionMethod.None] 2 = [0] :=
  ⟨rfl,
   (loops_one_per_tiled_dimension
      [⟨.const 0, .const 100, .const 1⟩, ⟨.const 0, .const 50, .const 1⟩]
      [.const 10, .const 0] [DistributionMethod.None, DistributionMethod.None] []
      ⟨[⟨.const 0, .const 100, .const 10, 0⟩], [.iv 0, .const 0],
        [createBoundedTileSize (.iv 0) (.const 10) (.const 100), .const 50]⟩ rfl).1,
   by decide⟩

/-! ## The bounds of the loop of a tiled dimension -/

/-- The bounds of the loop the body of `generateTileLoopNest` creates. -/
theorem tileDimension_loop_bounds (loopRange : RangeVal) (tileSizeVals : List Expr)
    (distributionMethod : List DistributionMethod) (procInfo : List ProcInfo)
    (index procDim numLoops : Nat) (d : DimTile) (tileSize : Expr)
    (method : DistributionMethod)
    (hd : tileDimension loopRange tileSizeVals distributionMethod procInfo index procDim
      numLoops = .ok d)
    (ht : tileSizeVals[index]? = some tileSize) (hz : isZero tileSize = false)
    (hm : distributionMethod[index]? = some method)
    (hne : method ≠ DistributionMethod.CyclicNumProcsEqNumIters) :
    ∃ loop : ForOp, d.loop = some loop ∧
      (method = DistributionMethod.None →
        loop.lb = loopRange.offset ∧ loop.step = tileSize ∧ d.procDim = procDim) ∧
      (method ≠ DistributionMethod.None →
        ∃ info, procInfo[procDim]? = some info ∧ d.procDim = procDim + 1 ∧
          loop.lb = (getDistributeLBAndStep loopRange.offset tileSize info.procId
            info.nprocs).1 ∧
          loop.step = (getDistributeLBAndStep loopRange.offset tileSize info.procId
            info.nprocs).2) := by
  unfold tileDimension at hd
  simp only [ht, hz, hm, Bool.false_eq_true, if_false] at hd
  by_cases hnone : method = DistributionMethod.None
  · subst hnone
    simp only [ne_eq, not_true_eq_false, if_false, if_neg hne] at hd
    injection hd with hd
    subst hd
    exact ⟨_, rfl, fun _ => ⟨rfl, rfl, rfl⟩, fun h => absurd rfl h⟩
  · simp only [ne_eq, hnone, not_false_eq_true, if_true] at hd
    cases hp : procInfo[procDim]? with
    | none => simp [hp] at hd
    | some info =>
      simp only [hp, if_neg hne] at hd
      injection hd with hd
      subst hd
      exact ⟨_, rfl, fun h => absurd h hnone, fun _ => ⟨info, rfl, rfl, rfl, rfl⟩⟩

/-- For every tiled dimension `i` (tile size not zero) with range
`(offset, size, stride)` for which a loop is generated, the upper bound of its
loop and of its bounded tile size is `domain[i].size`: the size of the range is
read as the upper bound. When the dimension is not distributed the loop runs
from `lb = domain[i].offset` with `step = tileSize[i]`; when it is distributed
the lower bound and the step are those `getDistributeLBAndStep` computes from
`domain[i].offset` and `tileSize[i]`. -/
theorem loop_bounds_of_tiled_dimension (loopRanges : List RangeVal)
    (tileSizeVals : List Expr) (distributionMethod : List DistributionMethod)
    (procInfo : List ProcInfo) (nest : LoopNest)
    (h : generateTileLoopNest loopRanges tileSizeVals distributionMethod procInfo = .ok nest)
    (i : Nat) (loopRange : RangeVal) (tileSize : Expr) (method : DistributionMethod)
    (hr : loopRanges[i]? = some loopRange) (ht : tileSizeVals[i]? = some tileSize)
    (hz : isZero tileSize = false) (hm : distributionMethod[i]? = some method)
    (hne : method ≠ DistributionMethod.CyclicNumProcsEqNumIters) :
    ∃ loop ∈ nest.loops, nest.offsets[i]? = some loop.getInductionVar ∧
      loop.ub = loopRange.size ∧
      nest.sizes[i]? = some (createBoundedTileSize loop.getInductionVar tileSize
        loopRange.size) ∧
      (method = DistributionMethod.None →
        loop.lb = loopRange.offset ∧ loop.step = tileSize) ∧
      (method ≠ DistributionMethod.None →
        ∃ info ∈ procInfo,
          loop.lb = (getDistributeLBAndStep loopRange.offset tileSize info.procId
            info.nprocs).1 ∧
          loop.step = (getDistributeLBAndStep loopRange.offset tileSize info.procId
            info.nprocs).2) := by
  obtain ⟨pd, nl, d, hd, hoff, hsize, hloop⟩ :=
    generateTileLoopNest_get loopRanges tileSizeVals distributionMethod procInfo nest h i
      loopRange hr
  obtain ⟨loop, hl, hdo, hub, -, hds⟩ :=
    tileDimension_loop loopRange tileSizeVals distributionMethod procInfo i pd nl d tileSize
      method hd ht hz hm hne
  obtain ⟨loop2, hl2, hnone, hdist⟩ :=
    tileDimension_loop_bounds loopRange tileSizeVals distributionMethod procInfo i pd nl d
      tileSize method hd ht hz hm hne
  rw [hl] at hl2
  injection hl2 with hl2
  subst hl2
  refine ⟨loop, hloop loop hl, by rw [hoff, hdo], hub, by rw [hsize, hds], ?_, ?_⟩
  · intro hmn
    exact ⟨(hnone hmn).1, (hnone hmn).2.1⟩
  · intro hmn
    obtain ⟨info, hinfo, -, h1, h2⟩ := hdist hmn
    exact ⟨info, List.getElem?_mem hinfo, h1, h2⟩

/-- C12, the code at the failing input. For the range with offset `5` and size
`10`, tiled by `4`, the loop runs from `5` to the upper bound `10`, the size of
the range, and not to `5 + 10 = 15`: it visits `5` and `9`, the size recorded at
`9` is `min(4, 10 - 9) = 1` and not `min(4, 15 - 9)`, so that the tiles cover
`[5, 10)`. The sibling path for a dimension that is not tiled returns the same
range as the offset `5` and the size `10`, the tile `[5, 15)`, and so does the
loop that computes the tile of a fused producer. -/
theorem loop_upper_bound_is_range_size :
    generateTileLoopNest [⟨.const 5, .const 10, .const 1⟩] [.const 4]
      [DistributionMethod.None] [] =
      .ok ⟨[⟨.const 5, .const 10, .const 4, 0⟩], [.iv 0],
        [createBoundedTileSize (.iv 0) (.const 4) (.const 10)]⟩ ∧
    (⟨.const 5, .const 10, .const 4, 0⟩ : ForOp).inductionValues Env.zero = some [5, 9] ∧
    (Expr.const 10).eval Env.zero ≠ some (5 + 10) ∧
    (createBoundedTileSize (.iv 0) (.const 4) (.const 10)).eval ⟨fun _ => 0, fun _ => 9⟩ =
      some 1 ∧
    min (4 : Int) (5 + 10 - 9) ≠ 1 ∧
    generateTileLoopNest [⟨.const 5, .const 10, .const 1⟩] [.const 0]
      [DistributionMethod.None] [] = .ok ⟨[], [.const 5], [.const 10]⟩ ∧
    producerTile ⟨none, [], [false], [], []⟩ [⟨.const 5, .const 10, .const 1⟩] 0 =
      .ok ([.const 5], [.const 10]) := by
  refine ⟨rfl, by decide, by decide, by decide, by decide, rfl, rfl⟩

/-- The values of the lower bound and the step `getDistributeLBAndStep` returns. -/
theorem getDistributeLBAndStep_eval_aux (lb step procId nprocs : Expr) (env : Env)
    (l s p n : Int) (hl : lb.eval env = some l) (hs : step.eval env = some s)
    (hp : procId.eval env = some p) (hn : nprocs.eval env = some n) :
    (getDistributeLBAndStep lb step procId nprocs).1.eval env = some (l + p * s) ∧
    (getDistributeLBAndStep lb step procId nprocs).2.eval env = some (s * n) := by
  simp [getDistributeLBAndStep, makeComposedAffineApply, AffineExpr.compose, Expr.eval,
    hl, hs, hp, hn]

/-! ## One tile per worker -/

/-- The value of the bounded tile size; the offset has to be below the bound
only for the unit tile size. -/
theorem createBoundedTileSize_eval_of (iv tileSize size : Expr) (env : Env) (i t u : Int)
    (hi : iv.eval env = some i) (ht : tileSize.eval env = some t)
    (hu : size.eval env = some u) (hlt : isConstantIntValue tileSize 1 = true → i < u) :
    (createBoundedTileSize iv tileSize size).eval env = some (min t (u - i)) := by
  by_cases h1 : isConstantIntValue tileSize 1 = true
  · exact createBoundedTileSize_eval iv tileSize size env i t u hi ht hu (hlt h1)
  · unfold createBoundedTileSize
    rw [if_neg h1, makeComposedFoldedAffineMin, eval_fold]
    simp only [minMap, AffineExpr.sub, List.map, AffineExpr.compose, minOfExprs,
      List.getD_cons_zero, List.getD_cons_succ, Expr.eval, hi, ht, hu]
    simp only [Option.bind_eq_bind, Option.some_bind, Option.pure_def]
    congr 2
    ring

/-- The body of the loop of `generateTileLoopNest` for a dimension with a
non-zero tile size and the method `CyclicNumProcsEqNumIters`. -/
theorem tileDimension_eqNumIters (loopRange : RangeVal) (tileSizeVals : List Expr)
    (distributionMethod : List DistributionMethod) (procInfo : List ProcInfo)
    (index procDim numLoops : Nat) (d : DimTile) (tileSize : Expr)
    (hd : tileDimension loopRange tileSizeVals distributionMethod procInfo index procDim
      numLoops = .ok d)
    (ht : tileSizeVals[index]? = some tileSize) (hz : isZero tileSize = false)
    (hm : distributionMethod[index]? = some DistributionMethod.CyclicNumProcsEqNumIters) :
    ∃ info, procInfo[procDim]? = some info ∧
      d = ⟨(getDistributeLBAndStep loopRange.offset tileSize info.procId info.nprocs).1,
        createBoundedTileSize
          (getDistributeLBAndStep loopRange.offset tileSize info.procId info.nprocs).1
          tileSize loopRange.size, none, procDim + 1⟩ := by
  unfold tileDimension at hd
  simp only [ht, hz, hm, Bool.false_eq_true, if_false, ne_eq, reduceCtorEq,
    not_false_eq_true, if_true] at hd
  cases hp : procInfo[procDim]? with
  | none => simp [hp] at hd
  | some info =>
    simp only [hp] at hd
    injection hd with hd
    exact ⟨info, rfl, hd.symm⟩

/-- C13 (amended). For every dimension with a non-zero tile size `t` whose method
is `CyclicNumProcsEqNumIters`, `generateTileLoopNest` creates no loop for it and
returns the offset `lb' = lb + procId * t`; the size it returns is
`min(t, ub - lb')`, provided `lb' < ub` when the tile size is the constant `1`
(for which the size is the constant `1` without a minimum). -/
theorem one_tile_per_worker (loopRanges : List RangeVal) (tileSizeVals : List Expr)
    (distributionMethod : List DistributionMethod) (procInfo : List ProcInfo)
    (nest : LoopNest)
    (h : generateTileLoopNest loopRanges tileSizeVals distributionMethod procInfo = .ok nest)
    (i : Nat) (loopRange : RangeVal) (tileSize : Expr)
    (hr : loopRanges[i]? = some loopRange) (ht : tileSizeVals[i]? = some tileSize)
    (hz : isZero tileSize = false)
    (hm : distributionMethod[i]? = some DistributionMethod.CyclicNumProcsEqNumIters) :
    i ∉ loopDimensions tileSizeVals distributionMethod loopRanges.length ∧
    ∃ (info : ProcInfo) (procDim numLoops : Nat), procInfo[procDim]? = some info ∧
      (∃ d, tileDimension loopRange tileSizeVals distributionMethod procInfo i procDim
        numLoops = .ok d ∧ d.loop = none) ∧
      ∀ (env : Env) (lb ub t p n : Int), loopRange.offset.eval env = some lb →
        loopRange.size.eval env = some ub → tileSize.eval env = some t →
        info.procId.eval env = some p → info.nprocs.eval env = some n →
        (isConstantIntValue tileSize 1 = true → lb + p * t < ub) →
        (nest.offsets[i]?).bind (Expr.eval env) = some (lb + p * t) ∧
        (nest.sizes[i]?).bind (Expr.eval env) = some (min t (ub - (lb + p * t))) := by
  constructor
  · unfold loopDimensions
    rw [List.mem_filter]
    rintro ⟨-, he⟩
    simp [expectsLoop, ht, hm] at he
  · obtain ⟨pd, nl, d, hd, hoff, hsize, -⟩ :=
      generateTileLoopNest_get loopRanges tileSizeVals distributionMethod procInfo nest h i
        loopRange hr
    obtain ⟨info, hinfo, hdeq⟩ := tileDimension_eqNumIters loopRange tileSizeVals
      distributionMethod procInfo i pd nl d tileSize hd ht hz hm
    refine ⟨info, pd, nl, hinfo, ⟨d, hd, by rw [hdeq]⟩, ?_⟩
    intro env lb ub t p n hlb hub htv hp hn hone
    have hlbv := (getDistributeLBAndStep_eval_aux loopRange.offset tileSize info.procId
      info.nprocs env lb t p n hlb htv hp hn).1
    rw [hoff, hsize, hdeq]
    simp only [Option.some_bind]
    refine ⟨hlbv, ?_⟩
    exact createBoundedTileSize_eval_of _ _ _ env _ t ub hlbv htv hub hone

/-- Witness of C13 (amended): for the range `(0, 10, 1)` tiled by `4`, the worker
`procId = 2` gets the offset `8` and the size `2`. -/
theorem one_tile_per_worker_witness :
    ((⟨[], [(getDistributeLBAndStep (.const 0) (.const 4) (.const 2) (.const 3)).1],
        [createBoundedTileSize
          (getDistributeLBAndStep (.const 0) (.const 4) (.const 2) (.const 3)).1 (.const 4)
          (.const 10)]⟩ : LoopNest).offsets[0]?).bind (Expr.eval Env.zero) = some 8 ∧
    ((⟨[], [(getDistributeLBAndStep (.const 0) (.const 4) (.const 2) (.const 3)).1],
        [createBoundedTileSize
          (getDistributeLBAndStep (.const 0) (.const 4) (.const 2) (.const 3)).1 (.const 4)
          (.const 10)]⟩ : LoopNest).sizes[0]?).bind (Expr.eval Env.zero) = some 2 := by
  obtain ⟨-, info, pd, nl, hinfo, -, hall⟩ :=
    one_tile_per_worker [⟨.const 0, .const 10, .const 1⟩] [.const 4]
      [DistributionMethod.CyclicNumProcsEqNumIters]
      [⟨.const 2, .const 3, DistributionMethod.CyclicNumProcsEqNumIters⟩]
      ⟨[], [(getDistributeLBAndStep (.const 0) (.const 4) (.const 2) (.const 3)).1],
        [createBoundedTileSize
          (getDistributeLBAndStep (.const 0) (.const 4) (.const 2) (.const 3)).1 (.const 4)
          (.const 10)]⟩ rfl 0 ⟨.const 0, .const 10, .const 1⟩ (.const 4) rfl rfl rfl rfl
  have hmem := List.getElem?_mem hinfo
  rw [List.mem_singleton] at hmem
  subst hmem
  exact hall Env.zero 0 10 4 2 3 rfl rfl rfl rfl rfl (by decide)

/-- Counterexample to C13 as stated: for the range `(0, 4, 1)` with the constant
tile size `1` and `procId = 7`, the offset is `lb' = 7` and the size returned is
the constant `1`, while `min(1, 4 - 7) = -3`. -/
theorem one_tile_per_worker_counterexample :
    generateTileLoopNest [⟨.const 0, .const 4, .const 1⟩] [.const 1]
      [DistributionMethod.CyclicNumProcsEqNumIters]
      [⟨.const 7, .const 4, DistributionMethod.CyclicNumProcsEqNumIters⟩] =
      .ok ⟨[], [.add (.const 0) (.mul (.const 7) (.const 1))], [.const 1]⟩ ∧
    (Expr.add (.const 0) (.mul (.const 7) (.const 1))).eval Env.zero = some 7 ∧
    (Expr.const 1).eval Env.zero ≠ some (min 1 (4 - 7)) := by
  refine ⟨rfl, rfl, by decide⟩

theorem materialized_tile_sizes_length (tileSizeVector : List Expr) (numLoops : Nat) :
    (materializeTileSizes tileSizeVector numLoops).length = numLoops := by
  unfold materializeTileSizes
  exact length_resize _ _ _

/-! ## The materialized tile sizes -/

/-- C14. For every vector the tile size function returns, shorter than, equal to
or longer than the rank `r` of the iteration domain, the materialized tile size
vector has length exactly `r`, keeps the first `min(len, r)` returned sizes in
order, and every added entry is the constant `0`. -/
theorem materialized_tile_sizes (tileSizeVector : List Expr) (numLoops : Nat) :
    (materializeTileSizes tileSizeVector numLoops).length = numLoops ∧
    (∀ i : Nat, i < min tileSizeVector.length numLoops →
      (materializeTileSizes tileSizeVector numLoops)[i]? = tileSizeVector[i]?) ∧
    (∀ i : Nat, tileSizeVector.length ≤ i → i < numLoops →
      (materializeTileSizes tileSizeVector numLoops)[i]? = some (.const 0)) := by
  unfold materializeTileSizes
  refine ⟨length_resize _ _ _, ?_, ?_⟩
  · intro i hi
    have hi1 : i < tileSizeVector.length := by omega
    have hi2 : i < numLoops := by omega
    rw [getElem?_resize _ _ _ _ hi2, List.getD_eq_getElem?_getD]
    split
    · rw [List.getElem?_append_left hi1, List.getElem?_eq_getElem hi1]; rfl
    · rw [List.getElem?_eq_getElem hi1]; rfl
  · intro i hi1 hi2
    rw [getElem?_resize _ _ _ _ hi2, List.getD_eq_getElem?_getD]
    split
    · rw [List.getElem?_append_right hi1, List.getElem?_replicate]
      rw [if_pos (by omega)]; rfl
    · rw [List.getElem?_eq_none hi1]; rfl

/-! ## Tiling with all tile sizes zero -/

theorem lookup_filter_ne (markers : List (OpId × Marker)) (op other : OpId)
    (h : other ≠ op) :
    (markers.filter fun e => e.1 ≠ op).lookup other = markers.lookup other := by
  induction markers with
  | nil => rfl
  | cons e rest ih =>
    obtain ⟨k, m⟩ := e
    by_cases hk : k = op
    · subst hk
      have hne : (other == k) = false := by simpa using h
      simpa [List.filter_cons, List.lookup_cons, hne] using ih
    · by_cases ho : other = k
      · subst ho
        simp [List.filter_cons, List.lookup_cons, hk]
      · have hne : (other == k) = false := by simpa using ho
        simpa [List.filter_cons, List.lookup_cons, hk, hne] using ih

/-- Setting the marker of an operation changes the marker of that operation
only and nothing else of the state. -/
theorem setMarker_frame (st : IRState) (op : OpId) (m : Marker) :
    (st.setMarker op m).markerOf op = some m ∧
    (∀ other : OpId, other ≠ op → (st.setMarker op m).markerOf other = st.markerOf other) ∧
    (st.setMarker op m).stores = st.stores ∧ (st.setMarker op m).erased = st.erased ∧
    (st.setMarker op m).nextId = st.nextId := by
  refine ⟨?_, ?_, rfl, rfl, rfl⟩
  · simp [IRState.setMarker, IRState.markerOf, List.lookup_cons]
  · intro other h
    have hne : (other == op) = false := by simpa using h
    simp only [IRState.setMarker, IRState.markerOf, List.lookup_cons, hne]
    exact lookup_filter_ne st.markers op other h

/-- C15. For every operation that passes the filter and the preconditions and
whose materialized tile sizes are all the constant zero, tiling succeeds,
generates no loops, reports a tiled-dimension bitset without a set bit and no
tile offsets or sizes, does not erase or replace the operation or any store, and
only updates the marker of the operation. -/
theorem all_zero_tiling_is_identity (options : LinalgTilingOptions)
    (filter : LinalgTransformationFilter) (mergeOffsetsSizesAndStrides : MergeFn)
    (op : TilingInterfaceOp) (st : IRState) (f : TilingInterfaceOp → List Expr)
    (hfilter : filter.checkAndNotify st op.op.id = true)
    (hf : options.tileSizeComputationFunction = some f)
    (hr : 1 ≤ op.getIterationDomain.length)
    (hzero : ∀ tileSize ∈ materializeTileSizes (f op) op.getIterationDomain.length,
      isZero tileSize = true) :
    ∃ (result : TilingResult) (st1 : IRState),
      returningMatchAndRewrite options filter mergeOffsetsSizesAndStrides op st =
        (.ok result, st1) ∧
      result.loops = [] ∧ result.tiledOp = none ∧
      result.tiledLoops = List.replicate op.getIterationDomain.length false ∧
      result.tileOffsets = [] ∧ result.tileSizes = [] ∧
      st1.stores = st.stores ∧ st1.erased = st.erased ∧ st1.nextId = st.nextId ∧
      st1.markerOf op.op.id = some .processed ∧
      ∀ other : OpId, other ≠ op.op.id → st1.markerOf other = st.markerOf other := by
  have hn0 : ¬ op.getIterationDomain.length = 0 := by omega
  have hmap : (materializeTileSizes (f op) op.getIterationDomain.length).map
      (fun tileSize => !isZero tileSize) =
      List.replicate op.getIterationDomain.length false := by
    rw [List.eq_replicate_iff]
    refine ⟨by simp [(materialized_tile_sizes_length (f op) _)], ?_⟩
    intro b hb
    rw [List.mem_map] at hb
    obtain ⟨t, ht, rfl⟩ := hb
    simp [hzero t ht]
  have hany : (List.replicate op.getIterationDomain.length false).any id = false := by
    simp
  obtain ⟨h1, h2, h3, h4, h5⟩ := setMarker_frame st op.op.id .processed
  refine ⟨⟨none, [], List.replicate op.getIterationDomain.length false, [], []⟩,
    st.setMarker op.op.id .processed, ?_, rfl, rfl, rfl, rfl, rfl, h3, h4, h5, h1, h2⟩
  unfold returningMatchAndRewrite
  simp only [hfilter, Bool.not_true, Bool.false_eq_true, if_false, hf, hn0, hmap, hany,
    Bool.not_false, if_true]
  rfl

/-- Witness of C15: `sampleOp` with a tile size function that returns no sizes is
left alone; only its marker becomes `processed`. -/
theorem all_zero_tiling_is_identity_witness :
    ∃ (result : TilingResult) (st1 : IRState),
      returningMatchAndRewrite ⟨some fun _ => [], [], none⟩ sampleFilter sampleMerge sampleOp
        sampleState = (.ok result, st1) ∧
      result.loops = [] ∧ result.tiledOp = none ∧
      result.tiledLoops = List.replicate sampleOp.getIterationDomain.length false ∧
      result.tileOffsets = [] ∧ result.tileSizes = [] ∧
      st1.stores = sampleState.stores ∧ st1.erased = sampleState.erased ∧
      st1.nextId = sampleState.nextId ∧
      st1.markerOf sampleOp.op.id = some .processed ∧
      ∀ other : OpId, other ≠ sampleOp.op.id →
        st1.markerOf other = sampleState.markerOf other :=
  all_zero_tiling_is_identity ⟨some fun _ => [], [], none⟩ sampleFilter sampleMerge sampleOp
    sampleState (fun _ => []) (by decide) rfl (by decide) (by decide)

/-! ## The processor information of the distributed dimensions -/

/-- C16, the code at the failing input. Both dimensions of `sampleParallelOp` are
parallel and tiled, so both are partitioned, and the strategy returns one entry
for each: entry `0`, `(dyn 0, dyn 1)`, with the method `None`, and entry `1`,
`(dyn 2, dyn 3)`, with the method `Cyclic`. Dimension `1` is the distributed one
and its own entry is entry `1`, but `generateTileLoopNest` counts only the
distributed dimensions and rewrites its lower bound and step with the `procId`
and `nprocs` of entry `0`. -/
theorem procInfo_read_at_distributed_count :
    distributeLoops (sampleOptions [] (some sampleMixedDistribution)) sampleParallelOp
      sampleParallelOp.getIterationDomain [.const 10, .const 4] 2 =
      .ok ([DistributionMethod.None, DistributionMethod.Cyclic],
        [⟨.dyn 0, .dyn 1, DistributionMethod.None⟩,
         ⟨.dyn 2, .dyn 3, DistributionMethod.Cyclic⟩]) ∧
    (tileInsideLoopNest (sampleOptions [] (some sampleMixedDistribution)) sampleParallelOp
      sampleParallelOp.getIterationDomain
      (sampleParallelOp.getIterationDomain.map fun r => ⟨r.offset, r.size, r.stride⟩)
      [.const 10, .const 4]).map (fun block => block.loops) =
      .ok [⟨.const 0, .const 100, .const 10, 0⟩,
          ⟨(getDistributeLBAndStep (.const 0) (.const 4) (.dyn 0) (.dyn 1)).1, .const 50,
            (getDistributeLBAndStep (.const 0) (.const 4) (.dyn 0) (.dyn 1)).2, 1⟩] ∧
    getDistributeLBAndStep (.const 0) (.const 4) (.dyn 0) (.dyn 1) ≠
      getDistributeLBAndStep (.const 0) (.const 4) (.dyn 2) (.dyn 3) := by
  refine ⟨rfl, rfl, by decide⟩

/-! ## The number of entries the distribution strategy returns -/

/-- The partitioned loops that are collected: as many ranges as loops, the loops
in increasing order without repetition, each with a tile size to read. -/
theorem collectPartitionedLoops_spec (tileSizeVector : List Expr)
    (iterationDomainOfr : List Range) :
    ∀ (iteratorTypes : List IteratorType) (index : Nat) (ranges : List Range)
      (ids : List Nat),
      collectPartitionedLoops tileSizeVector iterationDomainOfr iteratorTypes index =
        .ok (ranges, ids) →
      ranges.length = ids.length ∧ ids.Nodup ∧
      ∀ id ∈ ids, index ≤ id ∧ id < tileSizeVector.length := by
  intro iteratorTypes
  induction iteratorTypes with
  | nil =>
    intro index ranges ids h
    simp only [collectPartitionedLoops, Except.ok.injEq, Prod.mk.injEq] at h
    obtain ⟨rfl, rfl⟩ := h
    simp
  | cons it rest ih =>
    intro index ranges ids h
    unfold collectPartitionedLoops at h
    by_cases hp : it = IteratorType.parallel
    · simp only [hp, if_true] at h
      cases ht : tileSizeVector[index]? with
      | none => simp [ht] at h
      | some tileSize =>
        have hlt : index < tileSizeVector.length := by
          by_contra hc
          rw [List.getElem?_eq_none (by omega)] at ht
          cases ht
        cases hz : isZero tileSize with
        | true =>
          simp only [ht, hz, Bool.not_true] at h
          obtain ⟨h1, h2, h3⟩ := ih (index + 1) ranges ids h
          exact ⟨h1, h2, fun id hid => ⟨by have := (h3 id hid).1; omega, (h3 id hid).2⟩⟩
        | false =>
          simp only [ht, hz, Bool.not_false] at h
          cases hd : iterationDomainOfr[index]? with
          | none => simp [hd] at h
          | some range =>
            simp only [hd] at h
            cases hrest : collectPartitionedLoops tileSizeVector iterationDomainOfr rest
                (index + 1) with
            | error e => simp [hrest] at h
            | ok p =>
              obtain ⟨rs, is⟩ := p
              simp only [hrest, Except.ok.injEq, Prod.mk.injEq] at h
              obtain ⟨rfl, rfl⟩ := h
              obtain ⟨h1, h2, h3⟩ := ih (index + 1) rs is hrest
              refine ⟨by simp [h1], List.nodup_cons.2 ⟨?_, h2⟩, ?_⟩
              · intro hmem
                have := (h3 index hmem).1
                omega
              · intro id hid
                rcases List.mem_cons.1 hid with rfl | hid
                · exact ⟨le_refl _, hlt⟩
                · exact ⟨by have := (h3 id hid).1; omega, (h3 id hid).2⟩
    · simp only [hp, if_false] at h
      obtain ⟨h1, h2, h3⟩ := ih (index + 1) ranges ids h
      exact ⟨h1, h2, fun id hid => ⟨by have := (h3 id hid).1; omega, (h3 id hid).2⟩⟩

/-- The assignment of the distribution methods succeeds when there are enough
entries, and gives the `k`-th loop the method of entry `index + k`. -/
theorem assignDistributionMethods_spec (procInfo : List ProcInfo) :
    ∀ (ids : List Nat) (index : Nat) (methods : List DistributionMethod),
      (∀ id ∈ ids, id < methods.length) → ids.Nodup →
      index + ids.length ≤ procInfo.length →
      ∃ result, assignDistributionMethods procInfo ids index methods = .ok result ∧
        result.length = methods.length ∧
        (∀ k id : Nat, ids[k]? = some id →
          ∃ info, procInfo[index + k]? = some info ∧
            result[id]? = some info.distributionMethod) ∧
        (∀ x : Nat, x ∉ ids → result[x]? = methods[x]?) := by
  intro ids
  induction ids with
  | nil =>
    intro index methods _ _ _
    exact ⟨methods, rfl, rfl, by simp, fun _ _ => rfl⟩
  | cons id rest ih =>
    intro index methods hlt hnd hlen
    obtain ⟨hidr, hnd⟩ := List.nodup_cons.1 hnd
    have hid : id < methods.length := hlt id (List.mem_cons_self _ _)
    have hidx : index < procInfo.length := by
      simp only [List.length_cons] at hlen; omega
    obtain ⟨result, h1, h2, h3, h4⟩ := ih (index + 1)
      (methods.set id (procInfo[index]).distributionMethod)
      (fun x hx => by simpa using hlt x (List.mem_cons_of_mem _ hx)) hnd
      (by simp only [List.length_cons] at hlen; omega)
    refine ⟨result, ?_, by simpa using h2, ?_, ?_⟩
    · unfold assignDistributionMethods
      rw [List.getElem?_eq_getElem hidx]
      simp only [hid, if_true]
      exact h1
    · intro k x hk
      cases k with
      | zero =>
        simp only [List.getElem?_cons_zero, Option.some.injEq] at hk
        subst hk
        refine ⟨procInfo[index], by simp [List.getElem?_eq_getElem hidx], ?_⟩
        rw [h4 _ hidr]
        simp [List.getElem?_set_self hid]
      | succ k =>
        simp only [List.getElem?_cons_succ] at hk
        obtain ⟨info, hi1, hi2⟩ := h3 k x hk
        refine ⟨info, ?_, hi2⟩
        rw [← hi1]; congr 1; omega
    · intro x hx
      have hxv : id ≠ x := fun h => hx (h ▸ List.mem_cons_self _ _)
      rw [h4 x fun hm => hx (List.mem_cons_of_mem _ hm)]
      exact List.getElem?_set_ne hxv

/-- C17 (amended). The code has no arity check and raises no arity failure: when
the distribution strategy returns at least as many entries as the partitioned
dimensions it was asked about, the distribution step succeeds, the `k`-th
partitioned dimension takes the distribution method of entry `k`, every other
dimension stays undistributed, and the surplus entries are ignored. -/
theorem surplus_procInfo_is_ignored (options : LinalgTilingOptions)
    (op : TilingInterfaceOp) (iterationDomainOfr : List Range)
    (tileSizeVector : List Expr) (numLoops : Nat)
    (distribution : List Range → List ProcInfo) (ranges : List Range) (ids : List Nat)
    (hdist : options.distribution = some distribution)
    (hcollect : collectPartitionedLoops tileSizeVector iterationDomainOfr
      op.getLoopIteratorTypes 0 = .ok (ranges, ids))
    (htl : tileSizeVector.length = numLoops)
    (hlen : ids.length ≤ (distribution ranges).length) :
    ∃ methods,
      distributeLoops options op iterationDomainOfr tileSizeVector numLoops =
        .ok (methods, distribution ranges) ∧
      methods.length = numLoops ∧
      (∀ k id : Nat, ids[k]? = some id →
        ∃ info, (distribution ranges)[k]? = some info ∧
          methods[id]? = some info.distributionMethod) ∧
      (∀ j : Nat, j < numLoops → j ∉ ids → methods[j]? = some DistributionMethod.None) := by
  obtain ⟨-, hnd, hids⟩ := collectPartitionedLoops_spec tileSizeVector iterationDomainOfr
    op.getLoopIteratorTypes 0 ranges ids hcollect
  obtain ⟨methods, h1, h2, h3, h4⟩ := assignDistributionMethods_spec (distribution ranges)
    ids 0 (List.replicate numLoops DistributionMethod.None)
    (fun id hid => by simpa [htl] using (hids id hid).2) hnd (by simpa using hlen)
  refine ⟨methods, ?_, by simpa using h2, ?_, ?_⟩
  · unfold distributeLoops
    simp only [hdist, hcollect, h1]
  · intro k id hk
    simpa using h3 k id hk
  · intro j hj hnot
    rw [h4 j hnot, List.getElem?_replicate, if_pos hj]

/-- Witness of C17 (amended): `sampleOp` has one partitioned dimension and the
strategy returns two entries; the distribution step succeeds with the method of
the first entry for dimension `0`. -/
theorem surplus_procInfo_is_ignored_witness :
    ∃ methods,
      distributeLoops (sampleOptions [] (some sampleSurplusDistribution)) sampleOp
        sampleOp.getIterationDomain [.const 10, .const 4] 2 =
        .ok (methods, sampleSurplusDistribution [⟨.const 0, .const 100, .const 1⟩]) ∧
      methods.length = 2 ∧
      (∀ k id : Nat, [0][k]? = some id →
        ∃ info, (sampleSurplusDistribution [⟨.const 0, .const 100, .const 1⟩])[k]? =
          some info ∧ methods[id]? = some info.distributionMethod) ∧
      (∀ j : Nat, j < 2 → j ∉ [0] → methods[j]? = some DistributionMethod.None) :=
  surplus_procInfo_is_ignored (sampleOptions [] (some sampleSurplusDistribution)) sampleOp
    sampleOp.getIterationDomain [.const 10, .const 4] 2 sampleSurplusDistribution
    [⟨.const 0, .const 100, .const 1⟩] [0] rfl rfl rfl (by decide)

/-- Counterexample to C17 as stated: `sampleOp` has one partitioned dimension,
the strategy returns two entries, and tiling succeeds and produces two loops. -/
theorem surplus_procInfo_is_ignored_counterexample :
    collectPartitionedLoops [.const 10, .const 4] sampleOp.getIterationDomain
      sampleOp.getLoopIteratorTypes 0 = .ok ([⟨.const 0, .const 100, .const 1⟩], [0]) ∧
    (sampleSurplusDistribution [⟨.const 0, .const 100, .const 1⟩]).length = 2 ∧
    (returningMatchAndRewrite (sampleOptions [] (some sampleSurplusDistribution))
      sampleFilter sampleMerge sampleOp sampleState).1.map (fun result => result.loops) =
      .ok [⟨(getDistributeLBAndStep (.const 0) (.const 10) (.dyn 0) (.dyn 1)).1, .const 100,
            (getDistributeLBAndStep (.const 0) (.const 10) (.dyn 0) (.dyn 1)).2, 0⟩,
          ⟨.const 0, .const 50, .const 4, 1⟩] := by
  refine ⟨rfl, rfl, rfl⟩

/-! ## Rewriting the store of a whole result -/

/-- C18 (amended). For every untiled result value, `replaceStoreWithTiledVersion`
succeeds and changes nothing when no store writes that value, and fails,
changing nothing, when more than one store writes it. When exactly one store
writes it and the offsets, sizes and strides of the store and of the tile can be
merged, it creates exactly one store of the tiled value to the same target, with
the merged offsets, sizes and strides, and erases the original store, keeping
every other store; when they cannot be merged it fails and changes nothing. -/
theorem store_rewriting (mergeOffsetsSizesAndStrides : MergeFn)
    (untiledValue tiledValue : OpResult) (tileOffsets tileSizes : List Expr)
    (st : IRState)
    (hfresh : ∀ s ∈ st.stores, s.id < st.nextId) :
    (st.stores.filter (fun s => s.value = untiledValue) = [] →
      replaceStoreWithTiledVersion mergeOffsetsSizesAndStrides untiledValue tiledValue
        tileOffsets tileSizes st = (.ok (), st)) ∧
    (2 ≤ (st.stores.filter fun s => s.value = untiledValue).length →
      replaceStoreWithTiledVersion mergeOffsetsSizesAndStrides untiledValue tiledValue
        tileOffsets tileSizes st =
        (.error (.matchFailure "expected a single store for the op"), st)) ∧
    (∀ storeOp, st.stores.filter (fun s => s.value = untiledValue) = [storeOp] →
      (mergeOffsetsSizesAndStrides storeOp.offsets storeOp.sizes storeOp.strides
          storeOp.droppedDims tileOffsets tileSizes
          (List.replicate tileOffsets.length (.const 1)) = none →
        replaceStoreWithTiledVersion mergeOffsetsSizesAndStrides untiledValue tiledValue
          tileOffsets tileSizes st =
          (.error (.matchFailure "failed to create tiled flow.dispatch.tensor.store op"),
            st)) ∧
      (∀ combinedOffsets combinedSizes combinedStrides,
        mergeOffsetsSizesAndStrides storeOp.offsets storeOp.sizes storeOp.strides
          storeOp.droppedDims tileOffsets tileSizes
          (List.replicate tileOffsets.length (.const 1)) =
          some (combinedOffsets, combinedSizes, combinedStrides) →
        ∃ st1, replaceStoreWithTiledVersion mergeOffsetsSizesAndStrides untiledValue
            tiledValue tileOffsets tileSizes st = (.ok (), st1) ∧
          st1.stores = (st.stores.filter fun s => s.id ≠ storeOp.id) ++
            [⟨st.nextId, tiledValue, storeOp.target, storeOp.dynamicDims, combinedOffsets,
              combinedSizes, combinedStrides, storeOp.droppedDims⟩] ∧
          st1.erased = storeOp.id :: st.erased ∧ st1.markers = st.markers ∧
          storeOp ∉ st1.stores ∧
          (st1.stores.filter fun s => s.value = tiledValue ∧ st.nextId ≤ s.id).length = 1))
    := by
  refine ⟨?_, ?_, ?_⟩
  · intro h
    unfold replaceStoreWithTiledVersion
    simp only [h]
  · intro h
    unfold replaceStoreWithTiledVersion
    cases hs : st.stores.filter (fun s => s.value = untiledValue) with
    | nil => rw [hs] at h; simp at h
    | cons a rest =>
      cases rest with
      | nil => rw [hs] at h; simp at h
      | cons b rest => rfl
  · intro storeOp hs
    have hmem : storeOp ∈ st.stores := by
      have : storeOp ∈ st.stores.filter (fun s => s.value = untiledValue) := by
        rw [hs]; exact List.mem_singleton_self _
      exact List.mem_of_mem_filter this
    have hlt : storeOp.id < st.nextId := hfresh storeOp hmem
    constructor
    · intro hm
      unfold replaceStoreWithTiledVersion
      simp only [hs, hm]
    · intro combinedOffsets combinedSizes combinedStrides hm
      refine ⟨IRState.eraseOp { st with
          stores := st.stores ++ [⟨st.nextId, tiledValue, storeOp.target,
            storeOp.dynamicDims, combinedOffsets, combinedSizes, combinedStrides,
            storeOp.droppedDims⟩],
          nextId := st.nextId + 1 } storeOp.id, ?_, ?_, rfl, rfl, ?_, ?_⟩
      · unfold replaceStoreWithTiledVersion
        simp only [hs, hm]
      · simp only [IRState.eraseOp, List.filter_append, List.filter_cons, List.filter_nil]
        have : decide (st.nextId ≠ storeOp.id) = true :=
          decide_eq_true (Nat.ne_of_gt hlt)
        simp only [this, if_true]
      · simp only [IRState.eraseOp, List.mem_filter, List.mem_append]
        rintro ⟨-, h⟩
        simp at h
      · simp only [IRState.eraseOp, List.filter_append, List.filter_cons, List.filter_nil,
          List.filter_filter]
        have h1 : decide (st.nextId ≠ storeOp.id) = true :=
          decide_eq_true (Nat.ne_of_gt hlt)
        have h2 : (st.stores.filter fun s =>
            (decide (s.value = tiledValue ∧ st.nextId ≤ s.id) && decide (s.id ≠ storeOp.id)))
            = [] := by
          rw [List.filter_eq_nil_iff]
          intro s hsm
          have hlt2 : s.id < st.nextId := hfresh s hsm
          simp only [Bool.and_eq_true, decide_eq_true_eq, not_and]
          rintro ⟨-, hle⟩
          exact absurd (Nat.lt_of_lt_of_le hlt2 hle) (Nat.lt_irrefl _)
        have h3 : decide (tiledValue = tiledValue ∧ st.nextId ≤ st.nextId) = true :=
          decide_eq_true ⟨rfl, Nat.le_refl _⟩
        rw [h2]
        simp only [h1, if_true, List.nil_append]
        rw [List.filter_cons, if_pos h3]
        rfl

/-- Witness of C18 (amended): the one store of result `0` of operation `0` is
replaced by one store of the tiled value to the same target `7`. -/
theorem store_rewriting_witness :
    ∃ st1, replaceStoreWithTiledVersion sampleMerge ⟨0, 0⟩ ⟨1, 0⟩ [.iv 0, .const 0]
        [.const 10, .const 50] sampleStoreState = (.ok (), st1) ∧
      st1.stores = [⟨3, ⟨1, 0⟩, 7, [], [.iv 0, .const 0], [.const 10, .const 50],
        [.const 1, .const 1], [false, false]⟩] ∧
      st1.erased = [2] := by
  obtain ⟨st1, h1, h2, h3, -, -, -⟩ :=
    (store_rewriting sampleMerge ⟨0, 0⟩ ⟨1, 0⟩ [.iv 0, .const 0] [.const 10, .const 50]
      sampleStoreState (by decide)).2.2
      ⟨2, ⟨0, 0⟩, 7, [], [.const 0, .const 0], [.const 100, .const 50],
        [.const 1, .const 1], [false, false]⟩ rfl |>.2
      [.iv 0, .const 0] [.const 10, .const 50] [.const 1, .const 1] rfl
  exact ⟨st1, h1, h2, h3⟩

/-- Counterexample to C18 as stated: exactly one store writes the value, the
merge of the offsets, sizes and strides fails, and the store is not replaced:
the call fails and leaves the state as it was. -/
theorem store_rewriting_counterexample :
    (sampleStoreState.stores.filter fun s => s.value = ⟨0, 0⟩).length = 1 ∧
    replaceStoreWithTiledVersion sampleFailingMerge ⟨0, 0⟩ ⟨1, 0⟩ [.iv 0, .const 0]
        [.const 10, .const 50] sampleStoreState =
      (.error (.matchFailure "failed to create tiled flow.dispatch.tensor.store op"),
        sampleStoreState) := by
  refine ⟨by decide, rfl⟩

/-! ## Discovery of the fusable producers -/

theorem tilingInterfaceProducer_mem (g : OpGraph) (operand : Option OpResult)
    (producer : OpId) (h : tilingInterfaceProducer g operand = some producer) :
    producer ∈ g.map fun node => node.id := by
  unfold tilingInterfaceProducer at h
  cases operand with
  | none => simp at h
  | some result =>
    simp only at h
    cases hn : g.node result.owner with
    | none => simp [hn] at h
    | some node =>
      simp only [hn] at h
      split at h
      · injection h with h
        subst h
        unfold OpGraph.node at hn
        have h1 := List.find?_some hn
        have h2 := List.mem_of_find?_eq_some hn
        rw [List.mem_map]
        exact ⟨node, h2, by simpa using h1⟩
      · simp at h

/-- What the loop over the operands adds to the worklist and to the set: the
producers of the operands that were not in the set, each once. -/
theorem visitOperands_spec (g : OpGraph) :
    ∀ (operands : List (Option OpResult)) (worklist producers : List OpId),
      producers.Nodup →
      ∃ added, visitOperands g operands worklist producers =
          (worklist ++ added, producers ++ added) ∧
        (producers ++ added).Nodup ∧
        (∀ b ∈ added, b ∈ operands.filterMap (tilingInterfaceProducer g)) ∧
        (∀ b ∈ operands.filterMap (tilingInterfaceProducer g), b ∈ producers ++ added) := by
  intro operands
  induction operands with
  | nil =>
    intro worklist producers hnd
    exact ⟨[], by simp [visitOperands], by simpa using hnd, by simp, by simp⟩
  | cons operand rest ih =>
    intro worklist producers hnd
    unfold visitOperands
    cases ht : tilingInterfaceProducer g operand with
    | none =>
      obtain ⟨added, h1, h2, h3, h4⟩ := ih worklist producers hnd
      refine ⟨added, h1, h2, ?_, ?_⟩
      · intro b hb
        rw [List.filterMap_cons, ht]
        exact h3 b hb
      · intro b hb
        rw [List.filterMap_cons, ht] at hb
        exact h4 b hb
    | some producer =>
      by_cases hc : producers.contains producer = true
      · simp only [hc, if_true]
        obtain ⟨added, h1, h2, h3, h4⟩ := ih worklist producers hnd
        refine ⟨added, h1, h2, ?_, ?_⟩
        · intro b hb
          rw [List.filterMap_cons, ht]
          exact List.mem_cons_of_mem _ (h3 b hb)
        · intro b hb
          rw [List.filterMap_cons, ht] at hb
          rcases List.mem_cons.1 hb with rfl | hb
          · exact List.mem_append_left _ (by simpa using hc)
          · exact h4 b hb
      · simp only [hc, Bool.false_eq_true, if_false]
        have hnot : producer ∉ producers := by simpa using hc
        have hnd2 : (producers ++ [producer]).Nodup := by
          rw [List.nodup_append]
          refine ⟨hnd, List.nodup_singleton _, ?_⟩
          intro a ha hb
          rw [List.mem_singleton] at hb
          subst hb
          exact hnot ha
        obtain ⟨added, h1, h2, h3, h4⟩ := ih (worklist ++ [producer])
          (producers ++ [producer]) hnd2
        refine ⟨producer :: added, ?_, ?_, ?_, ?_⟩
        · rw [h1]; simp
        · simpa using h2
        · intro b hb
          rw [List.filterMap_cons, ht]
          rcases List.mem_cons.1 hb with rfl | hb
          · exact List.mem_cons_self _ _
          · exact List.mem_cons_of_mem _ (h3 b hb)
        · intro b hb
          rw [List.filterMap_cons, ht] at hb
          rcases List.mem_cons.1 hb with rfl | hb
          · simp
          · have := h4 b hb
            simpa using this

/-- One iteration of the worklist loop keeps the invariant and lowers the
measure `worklist.length - producers.length` by one. -/
theorem producersInvariant_step (g : OpGraph) (op currOp : OpId)
    (worklist producers : List OpId)
    (hinv : ProducersInvariant g op (currOp :: worklist) producers) :
    ProducersInvariant g op (visitOperands g (g.getOpOperands currOp) worklist producers).1
      (visitOperands g (g.getOpOperands currOp) worklist producers).2 ∧
    (visitOperands g (g.getOpOperands currOp) worklist producers).1.length +
      producers.length =
      worklist.length +
        (visitOperands g (g.getOpOperands currOp) worklist producers).2.length := by
  obtain ⟨hnd, hw, hsound, hclosed, hcand⟩ := hinv
  obtain ⟨added, heq, hnd2, hadd, hall⟩ :=
    visitOperands_spec g (g.getOpOperands currOp) worklist producers hnd
  rw [heq]
  have hcurr : currOp = op ∨ currOp ∈ producers := hw currOp (List.mem_cons_self _ _)
  have hcurrReach : ∀ b, FusableEdge g currOp b → Relation.TransGen (FusableEdge g) op b := by
    intro b hb
    rcases hcurr with rfl | hc
    · exact Relation.TransGen.single hb
    · exact Relation.TransGen.tail (hsound currOp hc) hb
  refine ⟨⟨hnd2, ?_, ?_, ?_, ?_⟩, by simp; omega⟩
  · intro x hx
    rcases List.mem_append.1 hx with hx | hx
    · rcases hw x (List.mem_cons_of_mem _ hx) with h | h
      · exact Or.inl h
      · exact Or.inr (List.mem_append_left _ h)
    · exact Or.inr (List.mem_append_right _ hx)
  · intro x hx
    rcases List.mem_append.1 hx with hx | hx
    · exact hsound x hx
    · exact hcurrReach x (hadd x hx)
  · intro a ha hna b hb
    by_cases hac : a = currOp
    · subst hac
      exact hall b hb
    · have ha2 : a = op ∨ a ∈ producers := by
        rcases ha with h | h
        · exact Or.inl h
        · rcases List.mem_append.1 h with h | h
          · exact Or.inr h
          · exact absurd (List.mem_append_right _ h) hna
      have hna2 : a ∉ currOp :: worklist := by
        intro hm
        rcases List.mem_cons.1 hm with h | h
        · exact hac h
        · exact hna (List.mem_append_left _ h)
      exact List.mem_append_left _ (hclosed a ha2 hna2 b hb)
  · intro x hx
    rcases List.mem_append.1 hx with hx | hx
    · exact hcand x hx
    · have hmem := hadd x hx
      rw [List.mem_filterMap] at hmem
      obtain ⟨operand, -, hop⟩ := hmem
      exact List.mem_dedup.2 (tilingInterfaceProducer_mem g operand x hop)

/-- With enough iterations the worklist loop ends with an empty worklist and
the invariant. -/
theorem fusableProducersLoop_invariant (g : OpGraph) (op : OpId) :
    ∀ (fuel : Nat) (worklist producers : List OpId),
      ProducersInvariant g op worklist producers →
      worklist.length + (g.map fun node => node.id).dedup.length ≤ fuel + producers.length →
      ProducersInvariant g op [] (fusableProducersLoop g fuel worklist producers) := by
  intro fuel
  induction fuel with
  | zero =>
    intro worklist producers hinv hle
    have hlen : producers.length ≤ (g.map fun node => node.id).dedup.length :=
      (List.subperm_of_subset hinv.1 hinv.2.2.2.2).length_le
    have hw : worklist = [] := by
      cases worklist with
      | nil => rfl
      | cons a l => simp only [List.length_cons] at hle; omega
    subst hw
    simpa [fusableProducersLoop] using hinv
  | succ fuel ih =>
    intro worklist producers hinv hle
    cases worklist with
    | nil => simpa [fusableProducersLoop] using hinv
    | cons currOp worklist =>
      obtain ⟨hinv2, hmeasure⟩ := producersInvariant_step g op currOp worklist producers hinv
      unfold fusableProducersLoop
      apply ih _ _ hinv2
      simp only [List.length_cons] at hle
      omega

/-- The producers the worklist loop collects: each once, and exactly the
operations reachable from the consumer along fusable edges. -/
theorem fusableProducersLoop_spec (g : OpGraph) (op : OpId) :
    (fusableProducersLoop g (g.length + 1) [op] []).Nodup ∧
    ∀ x, x ∈ fusableProducersLoop g (g.length + 1) [op] [] ↔
      Relation.TransGen (FusableEdge g) op x := by
  have hinit : ProducersInvariant g op [op] [] := by
    refine ⟨List.nodup_nil, ?_, ?_, ?_, ?_⟩
    · intro x hx
      exact Or.inl (List.mem_singleton.1 hx)
    · intro x hx; simp at hx
    · intro a ha hna b _
      rcases ha with h | h
      · subst h; simp at hna
      · simp at h
    · intro x hx; simp at hx
  have hlen : (g.map fun node => node.id).dedup.length ≤ g.length := by
    have := (List.dedup_sublist (g.map fun node => node.id)).length_le
    simpa using this
  obtain ⟨hnd, -, hsound, hclosed, -⟩ :=
    fusableProducersLoop_invariant g op (g.length + 1) [op] [] hinit
      (by simp only [List.length_singleton, List.length_nil]; omega)
  refine ⟨hnd, fun x => ⟨hsound x, ?_⟩⟩
  intro hreach
  induction hreach with
  | single hb => exact hclosed op (Or.inl rfl) (by simp) _ hb
  | tail _ hb ih => exact hclosed _ (Or.inr ih) (by simp) _ hb

/-- C19. For every consumer in an acyclic operand graph, `getAllFusableProducers`
returns a list without duplicates whose elements are exactly the tileable
operations reachable from the consumer by a non-empty chain of operand-defining
edges in which every operation after the consumer is tileable; the consumer is
not in the list, and the list is in topological order. The topological sort is
a library function: it is assumed to return a permutation of the producers in
topological order. -/
theorem fusable_producer_discovery (g : OpGraph)
    (computeTopologicalSorting : List OpId → List OpId) (op : OpId)
    (hperm : (computeTopologicalSorting (fusableProducersLoop g (g.length + 1) [op] [])).Perm
      (fusableProducersLoop g (g.length + 1) [op] []))
    (htopo : TopologicallySorted g
      (computeTopologicalSorting (fusableProducersLoop g (g.length + 1) [op] [])))
    (hacyclic : ∀ a, ¬ Relation.TransGen (FusableEdge g) a a) :
    (getAllFusableProducers g computeTopologicalSorting op).Nodup ∧
    (∀ x, x ∈ getAllFusableProducers g computeTopologicalSorting op ↔
      Relation.TransGen (FusableEdge g) op x) ∧
    op ∉ getAllFusableProducers g computeTopologicalSorting op ∧
    TopologicallySorted g (getAllFusableProducers g computeTopologicalSorting op) := by
  obtain ⟨hnd, hmem⟩ := fusableProducersLoop_spec g op
  have hiff : ∀ x, x ∈ getAllFusableProducers g computeTopologicalSorting op ↔
      Relation.TransGen (FusableEdge g) op x := by
    intro x
    unfold getAllFusableProducers
    rw [hperm.mem_iff]
    exact hmem x
  refine ⟨?_, hiff, ?_, htopo⟩
  · unfold getAllFusableProducers
    exact hperm.nodup_iff.2 hnd
  · intro h
    exact hacyclic op ((hiff op).1 h)

/-- Every fusable edge of `sampleChain` goes to a smaller identifier. -/
theorem sampleChain_edge_lt (user producer : OpId)
    (h : FusableEdge sampleChain user producer) : producer < user := by
  unfold FusableEdge OpGraph.getOpOperands OpGraph.node sampleChain at h
  simp only [List.find?_cons, List.find?_nil] at h
  by_cases h1 : user = 1
  · subst h1
    simp [tilingInterfaceProducer] at h
  · by_cases h2 : user = 2
    · subst h2
      simp [tilingInterfaceProducer, OpGraph.node] at h
      subst h
      decide
    · by_cases h4 : user = 4
      · subst h4
        simp [tilingInterfaceProducer] at h
      · by_cases h3 : user = 3
        · subst h3
          simp [tilingInterfaceProducer, OpGraph.node] at h
          rcases h with rfl | rfl <;> decide
        · have e1 : ((1 : OpId) == user) = false := by simpa using fun h => h1 h.symm
          have e2 : ((2 : OpId) == user) = false := by simpa using fun h => h2 h.symm
          have e3 : ((3 : OpId) == user) = false := by simpa using fun h => h3 h.symm
          have e4 : ((4 : OpId) == user) = false := by simpa using fun h => h4 h.symm
          simp [e1, e2, e3, e4] at h

theorem sampleChain_reach_lt (user producer : OpId)
    (h : Relation.TransGen (FusableEdge sampleChain) user producer) : producer < user := by
  induction h with
  | single hb => exact sampleChain_edge_lt _ _ hb
  | tail _ hb ih => exact Nat.lt_trans (sampleChain_edge_lt _ _ hb) ih

theorem sampleChain_sorted :
    TopologicallySorted sampleChain
      (sampleSort (fusableProducersLoop sampleChain (sampleChain.length + 1) [3] [])) := by
  have hlist : sampleSort (fusableProducersLoop sampleChain (sampleChain.length + 1) [3] []) =
      [1, 2] := by decide
  rw [hlist]
  intro i j user producer hi hj hedge
  have hlt := sampleChain_edge_lt user producer hedge
  match i, j with
  | 0, 0 =>
    simp at hi hj
    subst hi; subst hj
    simp at hlt
  | 0, 1 =>
    simp at hi hj
    subst hi; subst hj
    simp at hlt
  | 0, j + 2 => simp at hj
  | 1, 0 => exact Nat.zero_lt_one
  | 1, 1 =>
    simp at hi hj
    subst hi; subst hj
    simp at hlt
  | 1, j + 2 => simp at hj
  | i + 2, _ => simp at hi

/-- Witness of C19: from the consumer `3` of `sampleChain` the producers found
are `1` and `2`, in this order; the operation `4`, which is not tileable, and
the consumer are not among them. -/
theorem fusable_producer_discovery_witness :
    getAllFusableProducers sampleChain sampleSort 3 = [1, 2] ∧
    (getAllFusableProducers sampleChain sampleSort 3).Nodup ∧
    (∀ x, x ∈ getAllFusableProducers sampleChain sampleSort 3 ↔
      Relation.TransGen (FusableEdge sampleChain) 3 x) ∧
    3 ∉ getAllFusableProducers sampleChain sampleSort 3 ∧
    TopologicallySorted sampleChain (getAllFusableProducers sampleChain sampleSort 3) :=
  ⟨by decide,
   fusable_producer_discovery sampleChain sampleSort 3 (List.perm_insertionSort _ _)
     sampleChain_sorted fun a h => Nat.lt_irrefl _ (sampleChain_reach_lt a a h)⟩

/-! ## The order of the fused operations -/

/-- The loop of tile and fuse appends, in the order of the producers, the tiled
producer of every producer for which a slice was found. -/
theorem fuseProducers_steps (env : FusionEnv) (tilingResult : TilingResult) :
    ∀ (producers : List OpId) (fused : List Operation) (st : FusionState)
      (out : List Operation) (st1 : FusionState),
      fuseProducers env tilingResult producers fused st = (.ok out, st1) →
      ∃ steps, FusionSteps env tilingResult producers fused st steps ∧
        out = fused ++ steps.map (fun step => step.2) ∧
        (steps.map fun step => step.1).Sublist producers := by
  intro producers
  induction producers with
  | nil =>
    intro fused st out st1 h
    simp only [fuseProducers, Prod.mk.injEq, Except.ok.injEq] at h
    obtain ⟨rfl, -⟩ := h
    exact ⟨[], FusionSteps.done fused st, by simp, by simp⟩
  | cons producer rest ih =>
    intro fused st out st1 h
    unfold fuseProducers at h
    cases hc : env.castTilingInterface producer with
    | none => simp [hc] at h
    | some fusableProducer =>
      simp only [hc] at h
      cases hs : getAllFusableProducerUses st.graph producer
          (fused.map fun tiledOp => tiledOp.id) with
      | nil =>
        simp only [hs] at h
        obtain ⟨steps, h1, h2, h3⟩ := ih fused st out st1 h
        exact ⟨steps, FusionSteps.skip producer rest fused st steps hs h1, h2,
          List.Sublist.cons _ h3⟩
      | cons sliceOp sliceOps =>
        simp only [hs] at h
        cases hf : fuseProducer env tilingResult fusableProducer (sliceOp :: sliceOps) sliceOp
            st with
        | mk r st2 =>
          cases r with
          | error e => simp [hf] at h
          | ok tiledProducer =>
            simp only [hf] at h
            obtain ⟨steps, h1, h2, h3⟩ := ih (fused ++ [tiledProducer]) st2 out st1 h
            refine ⟨(producer, tiledProducer) :: steps,
              FusionSteps.fuse producer fusableProducer rest fused st st2 sliceOp sliceOps
                tiledProducer steps hc hs hf h1, ?_, ?_⟩
            · rw [h2]; simp
            · simpa using List.Sublist.cons₂ producer h3

/-- In a sublist of the reverse of a topologically sorted list a user comes
before its producer. -/
theorem user_before_producer (g : OpGraph) (sorted : List OpId)
    (steps : List (OpId × Operation))
    (hsub : (steps.map fun step => step.1).Sublist sorted.reverse)
    (htopo : TopologicallySorted g sorted) (i j : Nat) (user producer : OpId)
    (tiledUser tiledProducer : Operation) (hi : steps[i]? = some (user, tiledUser))
    (hj : steps[j]? = some (producer, tiledProducer)) (hedge : FusableEdge g user producer) :
    i < j := by
  obtain ⟨f, hf⟩ := List.sublist_iff_exists_orderEmbedding_get?_eq.1 hsub
  have hpos : ∀ (k : Nat) (x : OpId) (t : Operation), steps[k]? = some (x, t) →
      f k < sorted.length ∧ sorted[sorted.length - 1 - f k]? = some x := by
    intro k x t hk
    have h1 : (steps.map fun step => step.1)[k]? = some x := by
      rw [List.getElem?_map, hk]; rfl
    have h2 := hf k
    rw [List.get?_eq_getElem?, List.get?_eq_getElem?, h1] at h2
    have hlt : f k < sorted.reverse.length := by
      by_contra hc
      rw [List.getElem?_eq_none (by omega)] at h2
      cases h2
    rw [List.length_reverse] at hlt
    rw [List.getElem?_reverse hlt] at h2
    exact ⟨hlt, h2.symm⟩
  obtain ⟨hfi, hui⟩ := hpos i user tiledUser hi
  obtain ⟨hfj, hpj⟩ := hpos j producer tiledProducer hj
  have := htopo _ _ user producer hui hpj hedge
  have hlt : f i < f j := by omega
  exact f.lt_iff_lt.1 hlt

/-- C20. When the consumer is tiled, the list of fused operations tile and fuse
returns starts with the tiled consumer and is followed by the tiled producers in
exactly the order they were fused: going through the discovered producers in
the reverse of their topological order, one tiled producer for each producer for
which a slice was found. A fused operation is fused before the fused producers
of its operands: in a chain `A -> B -> C` fused into `C`, `B` comes before `A`. -/
theorem fusion_order (pattern : TileAndFuseDispatchUsingSCFForOp) (env : FusionEnv)
    (op : TilingInterfaceOp) (st st1 : FusionState) (result : TileAndFuseResult)
    (h : pattern.returningMatchAndRewrite env op st = (.ok result, st1))
    (hne : result.tiledAndFusedOps ≠ [])
    (htopo : TopologicallySorted st.graph
      (getAllFusableProducers st.graph env.computeTopologicalSorting op.op.id)) :
    ∃ (tilingResult : TilingResult) (ir1 : IRState) (tiledConsumer : Operation)
      (steps : List (OpId × Operation)),
      returningMatchAndRewrite pattern.options pattern.filter
        env.mergeOffsetsSizesAndStrides op st.ir = (.ok tilingResult, ir1) ∧
      tilingResult.tiledOp = some tiledConsumer ∧
      FusionSteps env tilingResult
        (getAllFusableProducers st.graph env.computeTopologicalSorting op.op.id).reverse
        [tiledConsumer] { st with ir := ir1 } steps ∧
      result.tiledAndFusedOps = tiledConsumer :: steps.map (fun step => step.2) ∧
      (steps.map fun step => step.1).Sublist
        (getAllFusableProducers st.graph env.computeTopologicalSorting op.op.id).reverse ∧
      ∀ (i j : Nat) (user producer : OpId) (tiledUser tiledProducer : Operation),
        steps[i]? = some (user, tiledUser) → steps[j]? = some (producer, tiledProducer) →
        FusableEdge st.graph user producer → i < j := by
  unfold TileAndFuseDispatchUsingSCFForOp.returningMatchAndRewrite at h
  cases ht : returningMatchAndRewrite pattern.options pattern.filter
      env.mergeOffsetsSizesAndStrides op st.ir with
  | mk r ir1 =>
    cases r with
    | error e => simp [ht] at h
    | ok tilingResult =>
      simp only [ht] at h
      by_cases hany : tilingResult.tiledLoops.any id = true
      · simp only [hany, Bool.not_true, Bool.false_eq_true, if_false] at h
        cases hop : tilingResult.tiledOp with
        | none => simp [hop] at h
        | some tiledConsumer =>
          simp only [hop] at h
          cases hfuse : fuseProducers env tilingResult
              (getAllFusableProducers st.graph env.computeTopologicalSorting op.op.id).reverse
              [tiledConsumer] { st with ir := ir1 } with
          | mk r2 st2 =>
            cases r2 with
            | error e => simp [hfuse] at h
            | ok out =>
              simp only [hfuse, Prod.mk.injEq, Except.ok.injEq] at h
              obtain ⟨hres, -⟩ := h
              obtain ⟨steps, h1, h2, h3⟩ := fuseProducers_steps env tilingResult _ _ _ _ _
                hfuse
              refine ⟨tilingResult, ir1, tiledConsumer, steps, rfl, hop, h1, ?_, h3, ?_⟩
              · rw [← hres, h2]; rfl
              · intro i j user producer tiledUser tiledProducer hi hj hedge
                exact user_before_producer st.graph _ steps h3 htopo i j user producer
                  tiledUser tiledProducer hi hj hedge
      · simp only [hany, Bool.not_false, if_true, Prod.mk.injEq, Except.ok.injEq] at h
        obtain ⟨hres, -⟩ := h
        rw [← hres] at hne
        exact absurd rfl hne

theorem topologicallySorted_of_check (g : OpGraph) (ops : List OpId)
    (h : isTopologicallySorted g ops = true) : TopologicallySorted g ops := by
  intro i j user producer hi hj hedge
  have hil : i < ops.length := by
    by_contra hc
    rw [List.getElem?_eq_none (by omega)] at hi
    cases hi
  have hjl : j < ops.length := by
    by_contra hc
    rw [List.getElem?_eq_none (by omega)] at hj
    cases hj
  unfold isTopologicallySorted at h
  rw [List.all_eq_true] at h
  have h1 := h i (List.mem_range.2 hil)
  rw [List.all_eq_true] at h1
  have h2 := h1 j (List.mem_range.2 hjl)
  simp only [hi, hj, Bool.or_eq_true, Bool.not_eq_true', decide_eq_true_eq] at h2
  rcases h2 with h2 | h2
  · unfold FusableEdge at hedge
    have : ((g.getOpOperands user).filterMap (tilingInterfaceProducer g)).contains producer =
        true := by simpa using hedge
    rw [this] at h2
    cases h2
  · exact h2

/-- Witness of C20: for the chain `1 -> 2 -> 3` fused into `3`, the fused
operations are the tiled consumer `13`, then the tiled `12` of the producer `2`,
then the tiled `11` of the producer `1`. -/
theorem fusion_order_witness :
    (TileAndFuseDispatchUsingSCFForOp.returningMatchAndRewrite
      ⟨sampleOptions [] none, sampleFilter⟩ sampleFusionEnv (sampleTileable 3 13)
      sampleFusionState).1.map (fun result => result.tiledAndFusedOps) =
      .ok [⟨13, 1⟩, ⟨12, 1⟩, ⟨11, 1⟩] ∧
    ∃ (tilingResult : TilingResult) (steps : List (OpId × Operation)),
      tilingResult.tiledOp = some ⟨13, 1⟩ ∧
      ([⟨13, 1⟩, ⟨12, 1⟩, ⟨11, 1⟩] : List Operation) =
        ⟨13, 1⟩ :: steps.map (fun step => step.2) ∧
      (steps.map fun step => step.1).Sublist [2, 1] := by
  refine ⟨rfl, ?_⟩
  obtain ⟨tilingResult, ir1, tiledConsumer, steps, -, h2, -, h4, h5, -⟩ :=
    fusion_order ⟨sampleOptions [] none, sampleFilter⟩ sampleFusionEnv (sampleTileable 3 13)
      sampleFusionState _ _ rfl (by decide)
      (topologicallySorted_of_check _ _ (by decide))
  have h4' : ([⟨13, 1⟩, ⟨12, 1⟩, ⟨11, 1⟩] : List Operation) =
      tiledConsumer :: steps.map (fun step => step.2) := h4
  have hc : tiledConsumer = ⟨13, 1⟩ := by
    injection h4' with hh _
    exact hh.symm
  subst hc
  exact ⟨tilingResult, steps, h2, h4', h5⟩


/-! ## The tile offsets and sizes of a tiling result -/

/-- The loop of `generateTileLoopNest` returns one offset and one size for each
loop range. -/
theorem generateTileLoopNestFrom_lengths (tileSizeVals : List Expr)
    (distributionMethod : List DistributionMethod) (procInfo : List ProcInfo) :
    ∀ (loopRanges : List RangeVal) (index procDim numLoops : Nat) (nest : LoopNest),
      generateTileLoopNestFrom tileSizeVals distributionMethod procInfo loopRanges index
        procDim numLoops = .ok nest →
      nest.offsets.length = loopRanges.length ∧ nest.sizes.length = loopRanges.length := by
  intro loopRanges
  induction loopRanges with
  | nil =>
    intro index procDim numLoops nest h
    simp only [generateTileLoopNestFrom, Except.ok.injEq] at h
    subst h
    exact ⟨rfl, rfl⟩
  | cons r rest ih =>
    intro index procDim numLoops nest h
    unfold generateTileLoopNestFrom at h
    cases hd : tileDimension r tileSizeVals distributionMethod procInfo index procDim
        numLoops with
    | error e => simp [hd] at h
    | ok t =>
      simp only [hd] at h
      cases hrest : generateTileLoopNestFrom tileSizeVals distributionMethod procInfo rest
          (index + 1) t.procDim (numLoops + t.loop.toList.length) with
      | error e => simp [hrest] at h
      | ok nest1 =>
        simp only [hrest, Except.ok.injEq] at h
        subst h
        obtain ⟨h1, h2⟩ := ih _ _ _ _ hrest
        exact ⟨by simp [h1], by simp [h2]⟩

/-- `generateTileLoopNest` returns one offset and one size for each loop range. -/
theorem generateTileLoopNest_lengths (loopRanges : List RangeVal) (tileSizeVals : List Expr)
    (distributionMethod : List DistributionMethod) (procInfo : List ProcInfo)
    (nest : LoopNest)
    (h : generateTileLoopNest loopRanges tileSizeVals distributionMethod procInfo = .ok nest) :
    nest.offsets.length = loopRanges.length ∧ nest.sizes.length = loopRanges.length := by
  unfold generateTileLoopNest at h
  split at h
  · simp at h
  · split at h
    · simp at h
    · split at h
      · simp at h
      · exact generateTileLoopNestFrom_lengths tileSizeVals distributionMethod procInfo
          loopRanges 0 0 0 nest h

/-- The block of the pattern that generates the loop nest returns one offset and
one size for each dimension of the iteration domain. -/
theorem tileInsideLoopNest_lengths (options : LinalgTilingOptions) (op : TilingInterfaceOp)
    (iterationDomainOfr : List Range) (iterationDomain : List RangeVal)
    (tileSizeVector : List Expr) (block : TiledBlock) (hr : 1 ≤ iterationDomain.length)
    (h : tileInsideLoopNest options op iterationDomainOfr iterationDomain tileSizeVector =
      .ok block) :
    block.offsets.length = iterationDomain.length ∧
    block.sizes.length = iterationDomain.length := by
  by_cases hv : options.interchangeVector = []
  · unfold tileInsideLoopNest at h
    have hf : filledInterchangeVector options iterationDomain.length = [] := by
      simp [filledInterchangeVector, hv]
    simp only [hf, List.isEmpty_nil, Bool.not_true, Bool.false_eq_true, if_false,
      pure_bind] at h
    rw [except_bind_eq_ok] at h
    obtain ⟨⟨methods, procInfo⟩, -, h⟩ := h
    rw [except_bind_eq_ok] at h
    obtain ⟨nest, hnest, h⟩ := h
    obtain ⟨h1, h2⟩ := generateTileLoopNest_lengths _ _ _ _ nest hnest
    cases hlast : (op.getTiledImplementation nest.offsets nest.sizes).getLast? with
    | none =>
      simp only [hlast] at h
      cases h
    | some tiledOp =>
      simp only [hlast] at h
      cases h
      exact ⟨h1, h2⟩
  · obtain ⟨domP, tilesP, methods, procInfo, nest, inv, -, hdom, -, -, hnest, -, hoff, hsz,
      -⟩ := tileInsideLoopNest_ok_interchange options op iterationDomainOfr iterationDomain
        tileSizeVector block hv hr h
    obtain ⟨h1, h2⟩ := generateTileLoopNest_lengths _ _ _ _ nest hnest
    have hdl := length_applyPermutationToVector _ _ _ hdom
    rw [length_fillInterchangeVector] at hdl
    have ho := length_applyPermutationToVector _ _ _ hoff
    have hs := length_applyPermutationToVector _ _ _ hsz
    have hinv : inv.length = nest.offsets.length := by
      unfold applyPermutationToVector at hoff
      by_contra hc
      rw [if_pos hc] at hoff
      cases hoff
    omega

/-- A tiling result with a tiled dimension has a tile offset and a tile size for
every dimension of the consumer. -/
theorem tilingResult_lengths (options : LinalgTilingOptions)
    (filter : LinalgTransformationFilter) (mergeOffsetsSizesAndStrides : MergeFn)
    (op : TilingInterfaceOp) (st st1 : IRState) (tilingResult : TilingResult)
    (h : returningMatchAndRewrite options filter mergeOffsetsSizesAndStrides op st =
      (.ok tilingResult, st1))
    (hany : tilingResult.tiledLoops.any id = true) :
    tilingResult.tiledLoops.length = op.getIterationDomain.length ∧
    tilingResult.tileOffsets.length = op.getIterationDomain.length ∧
    tilingResult.tileSizes.length = op.getIterationDomain.length := by
  unfold returningMatchAndRewrite at h
  split at h
  · simp at h
  · cases hf : options.tileSizeComputationFunction with
    | none => simp [hf] at h
    | some f =>
      simp only [hf] at h
      split at h
      · simp at h
      · rename_i hn0
        split at h
        · simp only [Prod.mk.injEq, Except.ok.injEq] at h
          obtain ⟨h, -⟩ := h
          subst h
          simp_all
        · cases hb : tileInsideLoopNest options op op.getIterationDomain
              (op.getIterationDomain.map fun r => ⟨r.offset, r.size, r.stride⟩)
              (materializeTileSizes (f op) op.getIterationDomain.length) with
          | error e => simp [hb] at h
          | ok block =>
            obtain ⟨hl1, hl2⟩ := tileInsideLoopNest_lengths options op _ _ _ block
              (by simp; omega) hb
            simp only [List.length_map] at hl1 hl2
            have hres : tilingResult = ⟨some block.tiledOp, block.loops,
                (materializeTileSizes (f op) op.getIterationDomain.length).map
                  (fun tileSize => !isZero tileSize), block.offsets, block.sizes⟩ := by
              simp only [hb] at h
              split at h
              · simp only [Prod.mk.injEq, Except.ok.injEq] at h
                exact h.1.symm
              · split at h
                · simp at h
                · simp only [Prod.mk.injEq, Except.ok.injEq] at h
                  exact h.1.symm
            subst hres
            exact ⟨by simp [materialized_tile_sizes_length], hl1, hl2⟩

/-! ## The tile of a fused producer -/

/-- What the loop that computes the tile of a producer returns, for the
dimensions from `index` on. -/
theorem producerTile_spec (tilingResult : TilingResult) (domain : List Range) :
    ∀ (index : Nat) (offsets sizes : List Expr),
      producerTile tilingResult domain index = .ok (offsets, sizes) →
      offsets.length = domain.length ∧ sizes.length = domain.length ∧
      ∀ (j : Nat) (range : Range), domain[j]? = some range →
        (tilingResult.tiledLoops[index + j]? = some true →
          ∃ offset size, tilingResult.tileOffsets[index + j]? = some offset ∧
            tilingResult.tileSizes[index + j]? = some size ∧
            offsets[j]? = some offset ∧ sizes[j]? = some size) ∧
        (tilingResult.tiledLoops[index + j]? ≠ some true →
          offsets[j]? = some range.offset ∧ sizes[j]? = some range.size) := by
  induction domain with
  | nil =>
    intro index offsets sizes h
    simp only [producerTile] at h
    injection h with h
    injection h with h1 h2
    subst h1 h2
    exact ⟨rfl, rfl, fun j range hj => by simp at hj⟩
  | cons r rest ih =>
    intro index offsets sizes h
    simp only [producerTile] at h
    by_cases hc : index < tilingResult.tiledLoops.length ∧
        tilingResult.tiledLoops[index]? = some true
    · rw [if_pos hc] at h
      cases ho : tilingResult.tileOffsets[index]? with
      | none => simp [ho] at h
      | some offset =>
        cases hs : tilingResult.tileSizes[index]? with
        | none => simp [ho, hs] at h
        | some size =>
          simp only [ho, hs] at h
          cases hrest : producerTile tilingResult rest (index + 1) with
          | error e => simp [hrest] at h
          | ok p =>
            obtain ⟨os, ss⟩ := p
            simp only [hrest] at h
            injection h with h
            injection h with h1 h2
            subst h1 h2
            obtain ⟨hl1, hl2, hall⟩ := ih (index + 1) os ss hrest
            refine ⟨by simp [hl1], by simp [hl2], ?_⟩
            intro j range hj
            cases j with
            | zero =>
              simp only [List.getElem?_cons_zero, Option.some.injEq] at hj
              subst hj
              refine ⟨fun _ => ⟨offset, size, ho, hs, by simp, by simp⟩,
                fun hne => absurd hc.2 hne⟩
            | succ j =>
              simp only [List.getElem?_cons_succ] at hj
              have := hall j range hj
              rw [show index + 1 + j = index + (j + 1) by omega] at this
              simpa using this
    · rw [if_neg hc] at h
      cases hrest : producerTile tilingResult rest (index + 1) with
      | error e => simp [hrest] at h
      | ok p =>
        obtain ⟨os, ss⟩ := p
        simp only [hrest] at h
        injection h with h
        injection h with h1 h2
        subst h1 h2
        obtain ⟨hl1, hl2, hall⟩ := ih (index + 1) os ss hrest
        refine ⟨by simp [hl1], by simp [hl2], ?_⟩
        intro j range hj
        cases j with
        | zero =>
          simp only [List.getElem?_cons_zero, Option.some.injEq] at hj
          subst hj
          refine ⟨fun ht => ?_, fun _ => ⟨by simp, by simp⟩⟩
          exfalso
          apply hc
          have ht2 : tilingResult.tiledLoops[index]? = some true := by simpa using ht
          refine ⟨?_, ht2⟩
          by_contra hge
          rw [List.getElem?_eq_none (by omega)] at ht2
          cases ht2
        | succ j =>
          simp only [List.getElem?_cons_succ] at hj
          have := hall j range hj
          rw [show index + 1 + j = index + (j + 1) by omega] at this
          simpa using this

/-- The loop that computes the tile of a producer returns a result when the
tiling result has an offset and a size for every dimension of the consumer. -/
theorem producerTile_ok (tilingResult : TilingResult)
    (hoffsets : tilingResult.tiledLoops.length ≤ tilingResult.tileOffsets.length)
    (hsizes : tilingResult.tiledLoops.length ≤ tilingResult.tileSizes.length)
    (domain : List Range) :
    ∀ index : Nat, ∃ r, producerTile tilingResult domain index = .ok r := by
  induction domain with
  | nil => intro index; exact ⟨_, rfl⟩
  | cons r rest ih =>
    intro index
    obtain ⟨p, hp⟩ := ih (index + 1)
    obtain ⟨os, ss⟩ := p
    simp only [producerTile, hp]
    by_cases hc : index < tilingResult.tiledLoops.length ∧
        tilingResult.tiledLoops[index]? = some true
    · rw [if_pos hc]
      have h1 : index < tilingResult.tileOffsets.length := by omega
      have h2 : index < tilingResult.tileSizes.length := by omega
      rw [List.getElem?_eq_getElem h1, List.getElem?_eq_getElem h2]
      exact ⟨_, rfl⟩
    · rw [if_neg hc]
      exact ⟨_, rfl⟩

/-- C21. For every producer fused into a consumer whose tiling succeeded with a
tiled dimension, the loop that computes the tile of the producer returns one
offset and one size per dimension of the iteration domain of the producer: for
a dimension index `i` tiled in the consumer they are the tile offset and size
`i` of the consumer, and otherwise, also when `i` is beyond the rank of the
consumer, the offset and size of the range `i` of the producer. -/
theorem producer_tile (options : LinalgTilingOptions) (filter : LinalgTransformationFilter)
    (mergeOffsetsSizesAndStrides : MergeFn) (consumer fusableProducer : TilingInterfaceOp)
    (st st1 : IRState) (tilingResult : TilingResult)
    (htile : returningMatchAndRewrite options filter mergeOffsetsSizesAndStrides consumer
      st = (.ok tilingResult, st1))
    (hany : tilingResult.tiledLoops.any id = true) :
    ∃ offsets sizes : List Expr,
      producerTile tilingResult fusableProducer.getIterationDomain 0 =
        .ok (offsets, sizes) ∧
      offsets.length = fusableProducer.getIterationDomain.length ∧
      sizes.length = fusableProducer.getIterationDomain.length ∧
      ∀ (i : Nat) (range : Range), fusableProducer.getIterationDomain[i]? = some range →
        (tilingResult.tiledLoops[i]? = some true →
          ∃ offset size, tilingResult.tileOffsets[i]? = some offset ∧
            tilingResult.tileSizes[i]? = some size ∧
            offsets[i]? = some offset ∧ sizes[i]? = some size) ∧
        (tilingResult.tiledLoops[i]? ≠ some true →
          offsets[i]? = some range.offset ∧ sizes[i]? = some range.size) := by
  obtain ⟨hl0, hl1, hl2⟩ := tilingResult_lengths options filter mergeOffsetsSizesAndStrides
    consumer st st1 tilingResult htile hany
  obtain ⟨⟨offsets, sizes⟩, hr⟩ := producerTile_ok tilingResult (by omega) (by omega)
    fusableProducer.getIterationDomain 0
  obtain ⟨h1, h2, hall⟩ :=
    producerTile_spec tilingResult fusableProducer.getIterationDomain 0 offsets sizes hr
  refine ⟨offsets, sizes, hr, h1, h2, ?_⟩
  intro i range hi
  have := hall i range hi
  simpa using this

/-- Witness of C21: the consumer `3` has two dimensions, of which tiling by `10`
tiles the first, with the offset `iv 0`; a producer with three dimensions gets
that offset and the size of that tile for its first dimension and its own ranges
for the second and for the third, which is beyond the rank of the consumer. -/
theorem producer_tile_witness :
    ∃ offsets sizes : List Expr,
      producerTile
        ⟨some ⟨13, 1⟩, [⟨.const 0, .const 100, .const 10, 0⟩], [true, false],
          [.iv 0, .const 0], [createBoundedTileSize (.iv 0) (.const 10) (.const 100),
            .const 50]⟩
        [⟨.const 0, .const 100, .const 1⟩, ⟨.const 0, .const 50, .const 1⟩,
          ⟨.const 2, .const 30, .const 1⟩] 0 = .ok (offsets, sizes) ∧
      offsets = [.iv 0, .const 0, .const 2] ∧
      sizes = [createBoundedTileSize (.iv 0) (.const 10) (.const 100), .const 50,
        .const 30] := by
  obtain ⟨offsets, sizes, hr, -, -, -⟩ :=
    producer_tile ⟨some fun _ => [.const 10], [], none⟩ sampleFilter sampleMerge
      (sampleTileable 3 13)
      ⟨⟨2, 1⟩, [⟨.const 0, .const 100, .const 1⟩, ⟨.const 0, .const 50, .const 1⟩,
        ⟨.const 2, .const 30, .const 1⟩], [.parallel, .reduction, .parallel],
        fun _ _ => [⟨12, 1⟩], fun _ offsets sizes => some (offsets, sizes)⟩
      sampleFusionState.ir
      (returningMatchAndRewrite ⟨some fun _ => [.const 10], [], none⟩ sampleFilter
        sampleMerge (sampleTileable 3 13) sampleFusionState.ir).2
      ⟨some ⟨13, 1⟩, [⟨.const 0, .const 100, .const 10, 0⟩], [true, false],
        [.iv 0, .const 0], [createBoundedTileSize (.iv 0) (.const 10) (.const 100),
          .const 50]⟩ rfl rfl
  refine ⟨offsets, sizes, hr, ?_⟩
  have hv : producerTile
      ⟨some ⟨13, 1⟩, [⟨.const 0, .const 100, .const 10, 0⟩], [true, false],
        [.iv 0, .const 0], [createBoundedTileSize (.iv 0) (.const 10) (.const 100),
          .const 50]⟩
      [⟨.const 0, .const 100, .const 1⟩, ⟨.const 0, .const 50, .const 1⟩,
        ⟨.const 2, .const 30, .const 1⟩] 0 =
      .ok ([.iv 0, .const 0, .const 2],
        [createBoundedTileSize (.iv 0) (.const 10) (.const 100), .const 50, .const 30]) :=
    rfl
  rw [hv] at hr
  injection hr with hr
  injection hr with h1 h2
  exact ⟨h1.symm, h2.symm⟩

/-! ## Tile and fuse: nothing tiled, and the arity guard -/

/-- C22. When tiling the consumer succeeds and reports a tiled-dimension bitset
without a set bit, tile and fuse succeeds with a result that has no loops and no
fused operation. No producer is visited: the state is the one tiling left, the
operand graph is unchanged, and the outcome is the same whatever the sort, the
cast to `TilingInterface` and the fusion along a slice would do. -/
theorem nothing_tiled_nothing_fused (pattern : TileAndFuseDispatchUsingSCFForOp)
    (env : FusionEnv) (op : TilingInterfaceOp) (st : FusionState)
    (tilingResult : TilingResult) (ir1 : IRState)
    (htile : returningMatchAndRewrite pattern.options pattern.filter
      env.mergeOffsetsSizesAndStrides op st.ir = (.ok tilingResult, ir1))
    (hany : tilingResult.tiledLoops.any id = false) :
    pattern.returningMatchAndRewrite env op st =
      (.ok ⟨[], []⟩, { ir := ir1, graph := st.graph }) ∧
    ∀ (sort : List OpId → List OpId) (cast : OpId → Option TilingInterfaceOp)
      (fuse : OpId → OpResult → Option OpResult),
      pattern.returningMatchAndRewrite
        ⟨env.mergeOffsetsSizesAndStrides, sort, cast, fuse⟩ op st =
        (.ok ⟨[], []⟩, { ir := ir1, graph := st.graph }) := by
  constructor
  · unfold TileAndFuseDispatchUsingSCFForOp.returningMatchAndRewrite
    simp only [htile, hany, Bool.not_false, if_true]
  · intro sort cast fuse
    unfold TileAndFuseDispatchUsingSCFForOp.returningMatchAndRewrite
    simp only [htile, hany, Bool.not_false, if_true]

/-- Witness of C22: with a tile size function that returns no sizes, tile and
fuse of the consumer `3` of `sampleFusionGraph` returns no loops and no fused
operation and only marks the consumer as processed. -/
theorem nothing_tiled_nothing_fused_witness :
    TileAndFuseDispatchUsingSCFForOp.returningMatchAndRewrite
      ⟨⟨some fun _ => [], [], none⟩, sampleFilter⟩ sampleFusionEnv (sampleTileable 3 13)
      sampleFusionState =
      (.ok ⟨[], []⟩,
        { ir := sampleFusionState.ir.setMarker 3 .processed, graph := sampleFusionGraph }) :=
  (nothing_tiled_nothing_fused ⟨⟨some fun _ => [], [], none⟩, sampleFilter⟩ sampleFusionEnv
    (sampleTileable 3 13) sampleFusionState ⟨none, [], [false, false], [], []⟩
    (sampleFusionState.ir.setMarker 3 .processed) rfl rfl).1

/-- The loop of tile and fuse over a list of producers that starts with
producers that are fused or skipped continues with the rest from the state and
the fused operations reached. -/
theorem fuseProducers_append (env : FusionEnv) (tilingResult : TilingResult)
    (rest : List OpId) :
    ∀ (pre : List OpId) (fused : List Operation) (st : FusionState)
      (fused1 : List Operation) (st1 : FusionState),
      fuseProducers env tilingResult pre fused st = (.ok fused1, st1) →
      fuseProducers env tilingResult (pre ++ rest) fused st =
        fuseProducers env tilingResult rest fused1 st1 := by
  intro pre
  induction pre with
  | nil =>
    intro fused st fused1 st1 h
    simp only [fuseProducers, Prod.mk.injEq, Except.ok.injEq] at h
    obtain ⟨h1, h2⟩ := h
    subst h1 h2
    rfl
  | cons producer pre ih =>
    intro fused st fused1 st1 h
    simp only [List.cons_append]
    unfold fuseProducers at h
    conv_lhs => unfold fuseProducers
    cases hc : env.castTilingInterface producer with
    | none => simp [hc] at h
    | some fusableProducer =>
      simp only [hc] at h ⊢
      cases hs : getAllFusableProducerUses st.graph producer
          (fused.map fun tiledOp => tiledOp.id) with
      | nil =>
        simp only [hs] at h ⊢
        exact ih fused st fused1 st1 h
      | cons sliceOp sliceOps =>
        simp only [hs] at h ⊢
        cases hf : fuseProducer env tilingResult fusableProducer (sliceOp :: sliceOps) sliceOp
            st with
        | mk r st2 =>
          cases r with
          | error e => simp [hf] at h
          | ok tiledProducer =>
            simp only [hf] at h ⊢
            exact ih _ st2 fused1 st1 h

/-- The body of the loop of tile and fuse fails, and leaves the state as it
found it, when the tiled producer has another number of results than the
producer. -/
theorem fuseProducer_arity (env : FusionEnv) (tilingResult : TilingResult)
    (fusableProducer : TilingInterfaceOp) (sliceOps : List OpId) (sliceOp : OpId)
    (st : FusionState) (source tiledProducerVal : OpResult) (node : OpNode)
    (hsrc : ((st.graph.node sliceOp).bind fun n => n.operands.head?) = some (some source))
    (hval : env.replaceExtractSliceWithTiledProducer sliceOp source = some tiledProducerVal)
    (hnode : st.graph.node tiledProducerVal.owner = some node)
    (hkind : node.kind = OpKind.tilingInterface)
    (harity : node.numResults ≠ fusableProducer.op.numResults) :
    fuseProducer env tilingResult fusableProducer sliceOps sliceOp st =
      (.error (.matchFailure
        "fused operation expected to produce an op with same number of results"), st) := by
  unfold fuseProducer
  simp only [hsrc, hval, hnode, Option.filter, hkind, decide_True, if_true, ne_eq, harity,
    not_false_eq_true]

/-- C23. For every producer the loop of tile and fuse reaches, after the
producers before it have been fused or skipped, for which a slice is found and
fusion along the slice yields a tileable operation whose number of results
differs from that of the producer, tile and fuse fails with the message of the
arity check. The state at the failure is the state in which the step of this
producer began: no store has been rewritten, no slice has been replaced or
erased in it, and no list of fused operations is returned. -/
theorem arity_guard (pattern : TileAndFuseDispatchUsingSCFForOp) (env : FusionEnv)
    (op : TilingInterfaceOp) (st : FusionState) (tilingResult : TilingResult)
    (ir1 : IRState) (tiledOp : Operation) (pre rest : List OpId) (producer : OpId)
    (fused1 : List Operation) (st1 : FusionState) (fusableProducer : TilingInterfaceOp)
    (sliceOp : OpId) (sliceOps : List OpId) (source tiledProducerVal : OpResult)
    (node : OpNode)
    (htile : returningMatchAndRewrite pattern.options pattern.filter
      env.mergeOffsetsSizesAndStrides op st.ir = (.ok tilingResult, ir1))
    (hany : tilingResult.tiledLoops.any id = true)
    (htiled : tilingResult.tiledOp = some tiledOp)
    (hproducers : (getAllFusableProducers st.graph env.computeTopologicalSorting
      op.op.id).reverse = pre ++ producer :: rest)
    (hpre : fuseProducers env tilingResult pre [tiledOp] { st with ir := ir1 } =
      (.ok fused1, st1))
    (hcast : env.castTilingInterface producer = some fusableProducer)
    (huses : getAllFusableProducerUses st1.graph producer
      (fused1.map fun fusedOp => fusedOp.id) = sliceOp :: sliceOps)
    (hsrc : ((st1.graph.node sliceOp).bind fun n => n.operands.head?) = some (some source))
    (hval : env.replaceExtractSliceWithTiledProducer sliceOp source = some tiledProducerVal)
    (hnode : st1.graph.node tiledProducerVal.owner = some node)
    (hkind : node.kind = OpKind.tilingInterface)
    (harity : node.numResults ≠ fusableProducer.op.numResults) :
    pattern.returningMatchAndRewrite env op st =
      (.error (.matchFailure
        "fused operation expected to produce an op with same number of results"), st1) ∧
    fuseProducer env tilingResult fusableProducer (sliceOp :: sliceOps) sliceOp st1 =
      (.error (.matchFailure
        "fused operation expected to produce an op with same number of results"), st1) := by
  have hstep := fuseProducer_arity env tilingResult fusableProducer (sliceOp :: sliceOps)
    sliceOp st1 source tiledProducerVal node hsrc hval hnode hkind harity
  refine ⟨?_, hstep⟩
  unfold TileAndFuseDispatchUsingSCFForOp.returningMatchAndRewrite
  simp only [htile, hany, Bool.not_true, Bool.false_eq_true, if_false, htiled, hproducers]
  rw [fuseProducers_append env tilingResult (producer :: rest) pre [tiledOp] _ fused1 st1
    hpre]
  unfold fuseProducers
  simp only [hcast, huses, hstep]

/-- Witness of C23: in `sampleArityGraph` the tiled producer `12` of the producer
`2` has two results and `2` has one; tile and fuse of the consumer `3` fails, and
the store `30` of the result of `2` is still the only store. -/
theorem arity_guard_witness :
    (TileAndFuseDispatchUsingSCFForOp.returningMatchAndRewrite
      ⟨sampleOptions [] none, sampleFilter⟩ sampleFusionEnv (sampleTileable 3 13)
      sampleArityState).1 =
      .error (.matchFailure
        "fused operation expected to produce an op with same number of results") ∧
    (TileAndFuseDispatchUsingSCFForOp.returningMatchAndRewrite
      ⟨sampleOptions [] none, sampleFilter⟩ sampleFusionEnv (sampleTileable 3 13)
      sampleArityState).2.ir.stores = sampleArityState.ir.stores ∧
    (TileAndFuseDispatchUsingSCFForOp.returningMatchAndRewrite
      ⟨sampleOptions [] none, sampleFilter⟩ sampleFusionEnv (sampleTileable 3 13)
      sampleArityState).2.graph = sampleArityGraph := by
  have h := (arity_guard ⟨sampleOptions [] none, sampleFilter⟩ sampleFusionEnv
    (sampleTileable 3 13) sampleArityState
    ⟨some ⟨13, 1⟩, [⟨.const 0, .const 100, .const 10, 0⟩, ⟨.const 0, .const 50, .const 4, 1⟩],
      [true, true], [.iv 0, .iv 1],
      [createBoundedTileSize (.iv 0) (.const 10) (.const 100),
        createBoundedTileSize (.iv 1) (.const 4) (.const 50)]⟩
    (returningMatchAndRewrite (sampleOptions [] none) sampleFilter sampleMerge
      (sampleTileable 3 13) sampleArityState.ir).2
    ⟨13, 1⟩ [] [1] 2 [⟨13, 1⟩]
    ⟨(returningMatchAndRewrite (sampleOptions [] none) sampleFilter sampleMerge
      (sampleTileable 3 13) sampleArityState.ir).2, sampleArityGraph⟩
    (sampleTileable 2 12) 22 [] ⟨2, 0⟩ ⟨12, 0⟩ ⟨12, .tilingInterface, [some ⟨21, 0⟩], 2⟩
    rfl rfl rfl (by decide) rfl rfl (by decide) rfl rfl rfl rfl (by decide)).1
  rw [h]
  exact ⟨rfl, rfl, rfl⟩


/-! ## The configuration of tile and distribute -/

/-- The workgroup count the pattern built from the empty configuration gives:
`1` for each of the `kNumMaxParallelDims` axes. -/
theorem workgroupCount_of_empty_config (kDynamic : Int) (kNumMaxParallelDims : Nat)
    (workloadValues : List Expr) :
    emptyTileAndDistributeConfig.workgroupCountPattern.matchAndRewrite kDynamic
      kNumMaxParallelDims workloadValues =
      .ok (List.replicate kNumMaxParallelDims (.const 1)) := by
  simp [LowerDispatchWorkgroupCountForDagRootOp.matchAndRewrite,
    TileAndDistributeConfig.workgroupCountPattern, emptyTileAndDistributeConfig,
    interchangeNumTiles, pruneNumTiles, resize]

/-- C24 (amended). When no root operation is found among the compute operations,
obtaining the tile and distribute configuration succeeds: it reports no root
operation and leaves the tile sizes, the static loop ranges, the interchange and
the partitionable loops as they were passed in. `runOnOperation` passes them in
empty, and the workgroup count lowered from the empty configuration is `1` on
every axis. A failure is reported only for a root operation that was found. -/
theorem missing_root_is_not_an_error
    (getLoweringConfigCarryingOp : List ComputeOp → Option ComputeOp)
    (kNumMaxParallelDims : Nat) (kDynamic : Int) (computeOps : List ComputeOp)
    (config : TileAndDistributeConfig)
    (hroot : getLoweringConfigCarryingOp computeOps = none) :
    getTileAndDistributeConfig getLoweringConfigCarryingOp kNumMaxParallelDims kDynamic
      computeOps config = .ok { config with dispatchRootOp := none } ∧
    getTileAndDistributeConfig getLoweringConfigCarryingOp kNumMaxParallelDims kDynamic
      computeOps emptyTileAndDistributeConfig = .ok emptyTileAndDistributeConfig ∧
    (∀ workloadValues : List Expr,
      emptyTileAndDistributeConfig.workgroupCountPattern.matchAndRewrite kDynamic
        kNumMaxParallelDims workloadValues =
        .ok (List.replicate kNumMaxParallelDims (.const 1))) ∧
    ∀ message : String,
      getTileAndDistributeConfig getLoweringConfigCarryingOp kNumMaxParallelDims kDynamic
        computeOps config ≠ .error message := by
  have h : getTileAndDistributeConfig getLoweringConfigCarryingOp kNumMaxParallelDims
      kDynamic computeOps config = .ok { config with dispatchRootOp := none } := by
    unfold getTileAndDistributeConfig
    simp only [hroot]
  refine ⟨h, ?_, workgroupCount_of_empty_config kDynamic kNumMaxParallelDims, ?_⟩
  · unfold getTileAndDistributeConfig
    simp only [hroot]
    rfl
  · intro message hm
    rw [h] at hm
    cases hm

/-- Witness of C24 (amended): for a dispatch whose only compute operation
carries no lowering configuration, the configuration is obtained and is empty. -/
theorem missing_root_is_not_an_error_witness :
    sampleGetLoweringConfigCarryingOp [sampleComputeOp] = none ∧
    getTileAndDistributeConfig sampleGetLoweringConfigCarryingOp 3 (-1) [sampleComputeOp]
      emptyTileAndDistributeConfig = .ok emptyTileAndDistributeConfig :=
  ⟨rfl, (missing_root_is_not_an_error sampleGetLoweringConfigCarryingOp 3 (-1)
    [sampleComputeOp] emptyTileAndDistributeConfig rfl).2.1⟩

/-- Counterexample to C24 as stated: for a dispatch whose only compute operation
carries no lowering configuration, no root operation is found, and obtaining the
configuration does not fail: it succeeds with the empty configuration. -/
theorem missing_root_is_not_an_error_counterexample :
    sampleGetLoweringConfigCarryingOp [sampleComputeOp] = none ∧
    getTileAndDistributeConfig sampleGetLoweringConfigCarryingOp 3 (-1) [sampleComputeOp]
      emptyTileAndDistributeConfig = .ok ⟨none, [], [], [], []⟩ ∧
    ∀ message : String,
      getTileAndDistributeConfig sampleGetLoweringConfigCarryingOp 3 (-1) [sampleComputeOp]
        emptyTileAndDistributeConfig ≠ .error message :=
  ⟨rfl, rfl, fun _ h => by cases h⟩


/-! ## The unit tile size -/

/-- The values the induction variable of a generated loop takes are below the
value of its upper bound. -/
theorem ForOp.inductionValues_lt (loop : ForOp) (env : Env) (ub : Int) (ivs : List Int)
    (hub : loop.ub.eval env = some ub) (hivs : loop.inductionValues env = some ivs)
    (iv : Int) (hmem : iv ∈ ivs) : iv < ub := by
  unfold ForOp.inductionValues at hivs
  rw [hub] at hivs
  cases hlb : loop.lb.eval env with
  | none => simp [hlb] at hivs
  | some lb =>
    cases hst : loop.step.eval env with
    | none => simp [hlb, hst] at hivs
    | some step =>
      simp only [hlb, hst, Option.bind_eq_bind, Option.some_bind, Option.pure_def,
        Option.some.injEq] at hivs
      subst hivs
      exact ((mem_inductionValues _ _ _ _).1 hmem).2.choose_spec.2

/-- C25. When the tile size is the constant `1`, the bounded tile size is the
constant `1`, with no minimum computed; for a dimension whose loop is generated
the size recorded is that constant, every induction value `iv` the loop visits
is below the upper bound `ub`, and the constant equals `min(1, ub - iv)`. -/
theorem unit_tile_shortcut (loopRanges : List RangeVal) (tileSizeVals : List Expr)
    (distributionMethod : List DistributionMethod) (procInfo : List ProcInfo)
    (nest : LoopNest)
    (h : generateTileLoopNest loopRanges tileSizeVals distributionMethod procInfo = .ok nest)
    (i : Nat) (loopRange : RangeVal) (tileSize : Expr) (method : DistributionMethod)
    (hr : loopRanges[i]? = some loopRange) (ht : tileSizeVals[i]? = some tileSize)
    (hone : isConstantIntValue tileSize 1 = true) (hm : distributionMethod[i]? = some method)
    (hne : method ≠ DistributionMethod.CyclicNumProcsEqNumIters) :
    (∀ iv size : Expr, createBoundedTileSize iv tileSize size = .const 1) ∧
    ∃ loop ∈ nest.loops, nest.offsets[i]? = some loop.getInductionVar ∧
      loop.ub = loopRange.size ∧ nest.sizes[i]? = some (.const 1) ∧
      ∀ (env : Env) (ub : Int) (ivs : List Int), loop.ub.eval env = some ub →
        loop.inductionValues env = some ivs → ∀ iv ∈ ivs,
          iv < ub ∧ (nest.sizes[i]?).bind (Expr.eval env) = some (min 1 (ub - iv)) := by
  have hconst : ∀ iv size : Expr, createBoundedTileSize iv tileSize size = .const 1 := by
    intro iv size
    unfold createBoundedTileSize
    rw [if_pos hone]
  have hz : isZero tileSize = false := by
    cases tileSize <;> simp [isConstantIntValue] at hone
    subst hone
    rfl
  refine ⟨hconst, ?_⟩
  obtain ⟨pd, nl, d, hd, hoff, hsize, hloop⟩ :=
    generateTileLoopNest_get loopRanges tileSizeVals distributionMethod procInfo nest h i
      loopRange hr
  obtain ⟨loop, hl, hdo, hub, -, hds⟩ :=
    tileDimension_loop loopRange tileSizeVals distributionMethod procInfo i pd nl d tileSize
      method hd ht hz hm hne
  have hs1 : nest.sizes[i]? = some (.const 1) := by rw [hsize, hds, hconst]
  refine ⟨loop, hloop loop hl, by rw [hoff, hdo], hub, hs1, ?_⟩
  intro env ub ivs hubv hivs iv hmem
  have hlt := ForOp.inductionValues_lt loop env ub ivs hubv hivs iv hmem
  refine ⟨hlt, ?_⟩
  rw [hs1]
  simp only [Option.some_bind, Expr.eval]
  congr 1
  omega

/-- Witness of C25: for the range `(0, 3, 1)` tiled by the constant `1`, the size
recorded is the constant `1`, and at the last induction value `2` it equals
`min(1, 3 - 2)`. -/
theorem unit_tile_shortcut_witness :
    generateTileLoopNest [⟨.const 0, .const 3, .const 1⟩] [.const 1]
      [DistributionMethod.None] [] =
      .ok ⟨[⟨.const 0, .const 3, .const 1, 0⟩], [.iv 0], [.const 1]⟩ ∧
    (2 : Int) < 3 ∧
    ((⟨[⟨.const 0, .const 3, .const 1, 0⟩], [.iv 0], [.const 1]⟩ : LoopNest).sizes[0]?).bind
      (Expr.eval Env.zero) = some (min 1 (3 - 2)) := by
  obtain ⟨loop, hmem, -, -, -, hall⟩ :=
    (unit_tile_shortcut [⟨.const 0, .const 3, .const 1⟩] [.const 1]
      [DistributionMethod.None] []
      ⟨[⟨.const 0, .const 3, .const 1, 0⟩], [.iv 0], [.const 1]⟩ rfl 0
      ⟨.const 0, .const 3, .const 1⟩ (.const 1) DistributionMethod.None rfl rfl rfl rfl
      (by decide)).2
  rw [List.mem_singleton] at hmem
  subst hmem
  exact ⟨rfl, hall Env.zero 3 [0, 1, 2] rfl (by decide) 2 (by decide)⟩


/-! ## Padding to the next multiple of the tile shape -/

/-- A value in the range of `int64_t` is not changed by the wrap-around. -/
theorem wrapInt64_of_range (x : Int) (h0 : -2 ^ 63 ≤ x) (h1 : x < 2 ^ 63) :
    wrapInt64 x = x := by
  unfold wrapInt64
  have h63 : (2 : Int) ^ 63 = 9223372036854775808 := by norm_num
  have h64 : (2 : Int) ^ 64 = 18446744073709551616 := by norm_num
  rw [h63] at h0 h1
  rw [h63, h64]
  rw [Int.emod_eq_of_lt (by omega) (by omega)]
  omega

/-- The remainder by a positive divisor is defined. -/
theorem remInt64_pos (a b : Int) (hb : 1 ≤ b) : remInt64 a b = .ok (Int.tmod a b) := by
  unfold remInt64
  rw [if_neg]
  rintro (h | ⟨-, h⟩) <;> omega

/-- The padding of a static dimension `a >= 0` for a tile dimension `b >= 1`,
when `a + (b - 1)` does not overflow. -/
theorem distanceToNextMultipleOf_spec (a b : Int) (ha : 0 ≤ a) (hb : 1 ≤ b)
    (hfit : a + (b - 1) < 2 ^ 63) :
    ∃ p : Int, distanceToNextMultipleOf a b = .ok p ∧
      p = (b - 1) - (a + (b - 1)) % b ∧ 0 ≤ p ∧ p < b ∧ b ∣ a + p ∧
      (∀ m : Int, a ≤ m → b ∣ m → a + p ≤ m) ∧ (p = 0 ↔ b ∣ a) ∧
      wrapInt64 (a + p) = a + p := by
  have h63 : (0 : Int) < 2 ^ 63 := by norm_num
  have hb0 : b ≠ 0 := by omega
  have hr0 : 0 ≤ (a + (b - 1)) % b := Int.emod_nonneg _ hb0
  have hrb : (a + (b - 1)) % b < b := Int.emod_lt_of_pos _ (by omega)
  have hqr := Int.ediv_add_emod (a + (b - 1)) b
  have hw1 : wrapInt64 (b - 1) = b - 1 := wrapInt64_of_range _ (by omega) (by omega)
  have hw2 : wrapInt64 (a + (b - 1)) = a + (b - 1) :=
    wrapInt64_of_range _ (by omega) (by omega)
  have hw3 : wrapInt64 ((b - 1) - (a + (b - 1)) % b) = (b - 1) - (a + (b - 1)) % b :=
    wrapInt64_of_range _ (by omega) (by omega)
  have hp : distanceToNextMultipleOf a b = .ok ((b - 1) - (a + (b - 1)) % b) := by
    unfold distanceToNextMultipleOf
    simp only [hw1, hw2, remInt64_pos _ b hb]
    rw [Int.tmod_eq_emod (by omega) (by omega), hw3]
  have hsum : a + ((b - 1) - (a + (b - 1)) % b) = b * ((a + (b - 1)) / b) := by omega
  have hmin : ∀ m : Int, a ≤ m → b ∣ m → a + ((b - 1) - (a + (b - 1)) % b) ≤ m := by
    intro m hm hdvd
    obtain ⟨k, rfl⟩ := hdvd
    rw [hsum]
    by_contra hlt
    have hk : k + 1 ≤ (a + (b - 1)) / b := by
      by_contra hk
      have : (a + (b - 1)) / b ≤ k := by omega
      exact hlt (mul_le_mul_of_nonneg_left this (by omega))
    have h1 : b * (k + 1) ≤ b * ((a + (b - 1)) / b) :=
      mul_le_mul_of_nonneg_left hk (by omega)
    have h2 : b * (k + 1) = b * k + b := by ring
    omega
  refine ⟨_, hp, rfl, by omega, by omega, ⟨_, hsum⟩, hmin, ?_,
    wrapInt64_of_range _ (by omega) (by omega)⟩
  constructor
  · intro h0
    have := hsum
    rw [h0, add_zero] at this
    exact ⟨_, this⟩
  · intro hdvd
    have h1 := hmin a le_rfl hdvd
    omega

/-- The body of the loop of `pad` returns a result when the tile dimension is
positive. -/
theorem padDimension_ok (kDynamic inputDim tileDim : Int) (i : Nat) (ht : 1 ≤ tileDim) :
    ∃ r, padDimension kDynamic inputDim tileDim i = .ok r := by
  unfold padDimension distanceToNextMultipleOf
  by_cases hd : inputDim = kDynamic
  · rw [if_pos hd]; exact ⟨_, rfl⟩
  · rw [if_neg hd]
    simp only [remInt64_pos _ tileDim ht]
    exact ⟨_, rfl⟩

/-- What the loop of `pad` records for a static dimension. -/
theorem padFrom_get (kDynamic : Int) (tileShape : List Int) :
    ∀ (inputShape : List Int) (i : Nat) (r : PadOp),
      padFrom kDynamic tileShape inputShape i = .ok r →
      ∀ (j : Nat) (a : Int), inputShape[j]? = some a → a ≠ kDynamic →
        ∃ b p, tileShape[i + j]? = some b ∧ distanceToNextMultipleOf a b = .ok p ∧
          r.highPadding[j]? = some (.static p) ∧ r.lowPadding[j]? = some 0 ∧
          r.resultTypeShape[j]? = some (wrapInt64 (a + p)) := by
  intro inputShape
  induction inputShape with
  | nil => intro i r _ j a hj; simp at hj
  | cons d rest ih =>
    intro i r h j a hj hdyn
    simp only [padFrom] at h
    cases ht : tileShape[i]? with
    | none => simp [ht] at h
    | some tileDim =>
      simp only [ht] at h
      cases hcur : padDimension kDynamic d tileDim i with
      | error e => simp [hcur] at h
      | ok current =>
        simp only [hcur] at h
        cases hrest : padFrom kDynamic tileShape rest (i + 1) with
        | error e => simp [hrest] at h
        | ok r1 =>
          simp only [hrest] at h
          injection h with h
          subst h
          cases j with
          | zero =>
            simp only [List.getElem?_cons_zero, Option.some.injEq] at hj
            subst hj
            unfold padDimension at hcur
            rw [if_neg hdyn] at hcur
            cases hp : distanceToNextMultipleOf d tileDim with
            | error e => simp [hp] at hcur
            | ok p =>
              simp only [hp] at hcur
              injection hcur with hcur
              subst hcur
              exact ⟨tileDim, p, by simpa using ht, hp, by simp, by simp, by simp⟩
          | succ j =>
            simp only [List.getElem?_cons_succ] at hj
            obtain ⟨b, p, h1, h2, h3, h4, h5⟩ := ih (i + 1) r1 hrest j a hj hdyn
            refine ⟨b, p, by rw [← h1]; congr 1; omega, h2, ?_⟩
            simpa using ⟨h3, h4, h5⟩

/-- The loop of `pad` returns a result when there is a positive tile dimension
for every dimension of the input. -/
theorem padFrom_ok (kDynamic : Int) (tileShape : List Int)
    (htiles : ∀ tile ∈ tileShape, 1 ≤ tile) :
    ∀ (inputShape : List Int) (i : Nat), i + inputShape.length ≤ tileShape.length →
      ∃ r, padFrom kDynamic tileShape inputShape i = .ok r := by
  intro inputShape
  induction inputShape with
  | nil => intro i _; exact ⟨_, rfl⟩
  | cons d rest ih =>
    intro i hlen
    simp only [List.length_cons] at hlen
    obtain ⟨r1, hr1⟩ := ih (i + 1) (by omega)
    have hi : i < tileShape.length := by omega
    obtain ⟨cur, hcur⟩ := padDimension_ok kDynamic d tileShape[i] i
      (htiles _ (List.getElem_mem _))
    simp only [padFrom, List.getElem?_eq_getElem hi, hcur, hr1]
    exact ⟨_, rfl⟩

/-- The loop of `needsPadding` returns a result when there is a positive tile
dimension for every dimension of the input; when it finds nothing to pad, every
dimension is a multiple of its tile dimension. -/
theorem needsPaddingFrom_spec (kDynamic : Int) (tileShape : List Int)
    (htiles : ∀ tile ∈ tileShape, 1 ≤ tile) :
    ∀ (inputShape : List Int) (i : Nat), i + inputShape.length ≤ tileShape.length →
      ∃ c, needsPaddingFrom kDynamic tileShape inputShape i = .ok c ∧
        (c = false → ∀ (j : Nat) (a b : Int), inputShape[j]? = some a →
          tileShape[i + j]? = some b → Int.tmod a b = 0) := by
  intro inputShape
  induction inputShape with
  | nil =>
    intro i _
    exact ⟨false, rfl, fun _ j a b hj => by simp at hj⟩
  | cons d rest ih =>
    intro i hlen
    simp only [List.length_cons] at hlen
    obtain ⟨c1, hc1, hall⟩ := ih (i + 1) (by omega)
    have hi : i < tileShape.length := by omega
    have ht1 : 1 ≤ tileShape[i] := htiles _ (List.getElem_mem _)
    unfold needsPaddingFrom
    by_cases hd : d = kDynamic
    · rw [if_pos hd]
      exact ⟨true, rfl, fun h => by cases h⟩
    · rw [if_neg hd]
      simp only [List.getElem?_eq_getElem hi, remInt64_pos d _ ht1]
      by_cases hr : Int.tmod d tileShape[i] ≠ 0
      · rw [if_pos hr]
        exact ⟨true, rfl, fun h => by cases h⟩
      · rw [if_neg hr]
        refine ⟨c1, hc1, ?_⟩
        intro hc j a b hj hb
        cases j with
        | zero =>
          simp only [List.getElem?_cons_zero, Option.some.injEq] at hj
          subst hj
          rw [Nat.add_zero, List.getElem?_eq_getElem hi] at hb
          injection hb with hb
          subst hb
          simpa using hr
        | succ j =>
          simp only [List.getElem?_cons_succ] at hj
          exact hall hc j a b hj (by rw [← hb]; congr 1; omega)

/-- C26 (amended). For every static dimension `a >= 0` of the input and tile
dimension `b >= 1` for which `a + (b - 1)` does not overflow, that is
`a + (b - 1) < 2^63`, all tile dimensions being at least `1`, the padding `pad`
computes for the dimension is `p = (b - 1) - ((a + b - 1) mod b)`, with
`0 <= p < b`, `a + p` a multiple of `b` and the smallest one that is at least
`a`, and `p = 0` exactly when `b` divides `a`. When `pad` creates a `tensor.pad`,
its high padding of the dimension is `p`, its low padding `0` and the dimension
of its result type `a + p`; when it returns the input as it is, `p = 0`. -/
theorem pad_reaches_next_multiple (kDynamic : Int) (inputShape tileShape : List Int)
    (i : Nat) (a b : Int) (hlen : inputShape.length = tileShape.length)
    (hi : inputShape[i]? = some a) (hti : tileShape[i]? = some b) (hstatic : a ≠ kDynamic)
    (ha : 0 ≤ a) (htiles : ∀ tile ∈ tileShape, 1 ≤ tile) (hfit : a + (b - 1) < 2 ^ 63) :
    ∃ p : Int, distanceToNextMultipleOf a b = .ok p ∧
      p = (b - 1) - (a + (b - 1)) % b ∧ 0 ≤ p ∧ p < b ∧ b ∣ a + p ∧
      (∀ m : Int, a ≤ m → b ∣ m → a + p ≤ m) ∧ (p = 0 ↔ b ∣ a) ∧
      ∃ r, pad kDynamic inputShape tileShape = .ok r ∧
        (∀ padOp, r = some padOp →
          padOp.highPadding[i]? = some (.static p) ∧ padOp.lowPadding[i]? = some 0 ∧
          padOp.resultTypeShape[i]? = some (a + p)) ∧
        (r = none → p = 0) := by
  have hb : 1 ≤ b := htiles b (List.getElem?_mem hti)
  obtain ⟨p, hp, h1, h2, h3, h4, h5, h6, hw⟩ := distanceToNextMultipleOf_spec a b ha hb hfit
  refine ⟨p, hp, h1, h2, h3, h4, h5, h6, ?_⟩
  obtain ⟨c, hc, hfalse⟩ := needsPaddingFrom_spec kDynamic tileShape htiles inputShape 0
    (by omega)
  have hn : needsPadding kDynamic inputShape tileShape = .ok c := by
    unfold needsPadding
    rw [if_neg (by simpa using hlen)]
    exact hc
  cases c with
  | false =>
    refine ⟨none, by simp [pad, hn], ?_, fun _ => ?_⟩
    · intro padOp hpo
      cases hpo
    have hmod := hfalse rfl i a b hi (by simpa using hti)
    rw [Int.tmod_eq_emod ha (by omega)] at hmod
    exact h6.2 (Int.dvd_of_emod_eq_zero hmod)
  | true =>
    obtain ⟨r, hr⟩ := padFrom_ok kDynamic tileShape htiles inputShape 0 (by omega)
    refine ⟨some r, by simp [pad, hn, hr], ?_, ?_⟩
    swap
    · intro hnone
      cases hnone
    intro padOp hpo
    injection hpo with hpo
    subst hpo
    obtain ⟨b', p', hb', hp', hhigh, hlow, hshape⟩ :=
      padFrom_get kDynamic tileShape inputShape 0 r hr i a hi hstatic
    rw [Nat.zero_add, hti] at hb'
    injection hb' with hb'
    subst hb'
    rw [hp] at hp'
    injection hp' with hp'
    subst hp'
    rw [hw] at hshape
    exact ⟨hhigh, hlow, hshape⟩

/-- Witness of C26 (amended): an input of shape `10 x 16` padded for the tile
shape `8 x 4` gets the high padding `6` and `0` and the result shape `16 x 16`. -/
theorem pad_reaches_next_multiple_witness :
    pad (-9223372036854775808) [10, 16] [8, 4] =
      .ok (some ⟨[16, 16], [0, 0], [.static 6, .static 0]⟩) ∧
    ∃ p : Int, distanceToNextMultipleOf 10 8 = .ok p ∧ p = (8 - 1) - (10 + (8 - 1)) % 8 ∧
      0 ≤ p ∧ p < 8 ∧ (8 : Int) ∣ 10 + p := by
  obtain ⟨p, h1, h2, h3, h4, h5, -⟩ :=
    pad_reaches_next_multiple (-9223372036854775808) [10, 16] [8, 4] 0 10 8 rfl rfl rfl
      (by decide) (by decide) (by decide) (by decide)
  exact ⟨rfl, p, h1, h2, h3, h4, h5⟩

/-- Counterexample to C26 as stated: for the static dimension `a = 2^63 - 1` and
the tile dimension `b = 3` the sum `a + (b - 1)` wraps around to `-2^63 + 1`,
whose remainder by `3` is `-1`: the padding `pad` computes is `3`, which is not
below `b`, and the dimension of the result type wraps around to `-2^63 + 2`,
which is negative and not a multiple of `3` that is at least `a`. -/
theorem pad_reaches_next_multiple_counterexample :
    distanceToNextMultipleOf 9223372036854775807 3 = .ok 3 ∧ ¬ ((3 : Int) < 3) ∧
    pad (-9223372036854775808) [9223372036854775807] [3] =
      .ok (some ⟨[-9223372036854775806], [0], [.static 3]⟩) ∧
    ¬ ((9223372036854775807 : Int) ≤ -9223372036854775806) := by
  refine ⟨rfl, by decide, rfl, by decide⟩

/-- A zero tile dimension: for the shape `10 x 16` and the tile shape `8 x 0`,
`needsPadding` returns at the first dimension, and the loop of `pad` comes upon
the remainder by zero at the second. -/
theorem pad_zero_tile_dimension :
    needsPadding (-9223372036854775808) [10, 16] [8, 0] = .ok true ∧
    pad (-9223372036854775808) [10, 16] [8, 0] = .error .undefinedRemainder :=
  ⟨rfl, rfl⟩

/-! ## The tiles of a range -/

/-- Ceiling division by a positive integer, by rounding up the dividend. -/
theorem ceil_div_eq (a t : Int) (ht : 0 < t) : ⌈(a : ℚ) / (t : ℚ)⌉ = (a + t - 1) / t := by
  have h1 : t * ((a + t - 1) / t) ≤ a + t - 1 := Int.mul_ediv_self_le (by omega)
  have h2 : a + t - 1 < t * ((a + t - 1) / t) + t := Int.lt_mul_ediv_self_add ht
  have htq : (0 : ℚ) < (t : ℚ) := by exact_mod_cast ht
  rw [Int.ceil_eq_iff]
  constructor
  · rw [lt_div_iff₀ htq]
    have : ((a + t - 1) / t - 1) * t < a := by nlinarith
    exact_mod_cast this
  · rw [div_le_iff₀ htq]
    have : a ≤ ((a + t - 1) / t) * t := by nlinarith
    exact_mod_cast this

/-- The number of iterations of a loop from `lb` to `ub >= lb` by `t >= 1`. -/
theorem length_inductionValues (lb ub t : Int) (hle : lb ≤ ub) (ht : 0 < t) :
    ((inductionValues lb ub t).length : Int) = ⌈((ub - lb : Int) : ℚ) / (t : ℚ)⌉ := by
  rw [ceil_div_eq (ub - lb) t ht]
  unfold inductionValues tripCount
  rw [if_pos ht, List.length_map, List.length_range]
  exact Int.toNat_of_nonneg (Int.ediv_nonneg (by omega) (by omega))

/-- The tiles `[iv, iv + min(t, ub - iv))` of the induction values of a loop
from `lb` to `ub` by `t >= 1` cover `[lb, ub)` and nothing else. -/
theorem tiles_cover (lb ub t : Int) (ht : 0 < t) (x : Int) :
    (∃ iv ∈ inductionValues lb ub t, iv ≤ x ∧ x < iv + min t (ub - iv)) ↔
      lb ≤ x ∧ x < ub := by
  constructor
  · rintro ⟨iv, hmem, h1, h2⟩
    obtain ⟨-, k, hk, -⟩ := (mem_inductionValues lb ub t iv).1 hmem
    have hk0 : (0 : Int) ≤ (k : Int) * t := by positivity
    have := min_le_right t (ub - iv)
    constructor <;> omega
  · rintro ⟨h1, h2⟩
    have hq0 : 0 ≤ (x - lb) / t := Int.ediv_nonneg (by omega) (by omega)
    have h3 : t * ((x - lb) / t) ≤ x - lb := Int.mul_ediv_self_le (by omega)
    have h4 : x - lb < t * ((x - lb) / t) + t := Int.lt_mul_ediv_self_add ht
    refine ⟨lb + (((x - lb) / t).toNat : Int) * t, ?_, ?_, ?_⟩
    · rw [mem_inductionValues]
      refine ⟨ht, _, rfl, ?_⟩
      rw [Int.toNat_of_nonneg hq0]
      nlinarith
    · rw [Int.toNat_of_nonneg hq0]
      nlinarith
    · rw [Int.toNat_of_nonneg hq0]
      have hm : x - (lb + (x - lb) / t * t) < min t (ub - (lb + (x - lb) / t * t)) :=
        lt_min (by nlinarith) (by nlinarith)
      linarith

/-- The tiles of two different induction values of a loop with step `t >= 1`
have no point in common. -/
theorem tiles_disjoint (lb ub t : Int) (ht : 0 < t) :
    (inductionValues lb ub t).Pairwise fun iv iv' =>
      ∀ x : Int, ¬ ((iv ≤ x ∧ x < iv + min t (ub - iv)) ∧
        (iv' ≤ x ∧ x < iv' + min t (ub - iv'))) := by
  unfold inductionValues
  rw [List.pairwise_map]
  refine List.Pairwise.imp ?_ (List.pairwise_lt_range _)
  intro k k' hlt x hx
  obtain ⟨⟨-, h2⟩, ⟨h3, -⟩⟩ := hx
  have h5 := min_le_left t (ub - (lb + (k : Int) * t))
  have h6 : ((k : Int) + 1) * t ≤ (k' : Int) * t :=
    mul_le_mul_of_nonneg_right (by exact_mod_cast hlt) (by omega)
  have h7 : ((k : Int) + 1) * t = (k : Int) * t + t := by ring
  omega

/-- The induction values of a loop from `lb` to `ub` by `t` are shared out among
`n` processors: each is an induction value of the loop from `lb + p * t` by
`t * n` of exactly one `p` in `[0, n)`, and these loops visit nothing else. -/
theorem distributed_inductionValues (lb ub t n : Int) (ht : 0 < t) (hn : 0 < n) (iv : Int) :
    iv ∈ inductionValues lb ub t ↔
      ∃! p : Int, (0 ≤ p ∧ p < n) ∧ iv ∈ inductionValues (lb + p * t) ub (t * n) := by
  have htn : 0 < t * n := mul_pos ht hn
  constructor
  · intro hmem
    obtain ⟨-, k, hk, hlt⟩ := (mem_inductionValues lb ub t iv).1 hmem
    have hr0 : 0 ≤ (k : Int) % n := Int.emod_nonneg _ (by omega)
    have hrn : (k : Int) % n < n := Int.emod_lt_of_pos _ hn
    have hq0 : 0 ≤ (k : Int) / n := Int.ediv_nonneg (by omega) (by omega)
    have hqr := Int.ediv_add_emod (k : Int) n
    refine ⟨(k : Int) % n, ⟨⟨hr0, hrn⟩, ?_⟩, ?_⟩
    · rw [mem_inductionValues]
      refine ⟨htn, ((k : Int) / n).toNat, ?_, hlt⟩
      rw [Int.toNat_of_nonneg hq0, hk]
      have : (k : Int) * t = (n * ((k : Int) / n) + (k : Int) % n) * t := by rw [hqr]
      rw [this]
      ring
    · rintro p ⟨⟨hp0, hpn⟩, hp⟩
      obtain ⟨-, k', hk', -⟩ := (mem_inductionValues _ ub (t * n) iv).1 hp
      have heq : (k : Int) * t = (p + (k' : Int) * n) * t := by
        have : lb + (k : Int) * t = lb + p * t + (k' : Int) * (t * n) := by rw [← hk, ← hk']
        linarith [this, show (p + (k' : Int) * n) * t = p * t + (k' : Int) * (t * n) by ring]
      have hk2 : (k : Int) = p + (k' : Int) * n := Int.eq_of_mul_eq_mul_right (by omega) heq
      rw [hk2, Int.add_mul_emod_self, Int.emod_eq_of_lt hp0 hpn]
  · rintro ⟨p, ⟨⟨hp0, hpn⟩, hp⟩, -⟩
    obtain ⟨-, k', hk', hlt⟩ := (mem_inductionValues _ ub (t * n) iv).1 hp
    rw [mem_inductionValues]
    refine ⟨ht, (p + (k' : Int) * n).toNat, ?_, hlt⟩
    have hnn : 0 ≤ p + (k' : Int) * n := by positivity
    rw [Int.toNat_of_nonneg hnn, hk']
    ring


/-- C27. For every tiled dimension that is not distributed, with the lower
bound `lb`, the upper bound `ub >= lb` (the size of the range) and the tile size
`t >= 1`, the generated loop visits the induction values `lb, lb + t, ...` below
`ub`, at each of which the offset recorded is `iv` and the size `min(t, ub - iv)`.
The number of these tiles is `ceil((ub - lb) / t)`, the tiles cover exactly
`[lb, ub)`, and two different tiles have no point in common. -/
theorem tiles_partition_range (loopRanges : List RangeVal) (tileSizeVals : List Expr)
    (distributionMethod : List DistributionMethod) (procInfo : List ProcInfo)
    (nest : LoopNest)
    (h : generateTileLoopNest loopRanges tileSizeVals distributionMethod procInfo = .ok nest)
    (i : Nat) (loopRange : RangeVal) (tileSize : Expr)
    (hr : loopRanges[i]? = some loopRange) (ht : tileSizeVals[i]? = some tileSize)
    (hz : isZero tileSize = false)
    (hm : distributionMethod[i]? = some DistributionMethod.None) :
    ∃ loop ∈ nest.loops, nest.offsets[i]? = some loop.getInductionVar ∧
      ∀ (env : Env) (lb ub t : Int), loopRange.offset.eval env = some lb →
        loopRange.size.eval env = some ub → tileSize.eval env = some t → lb ≤ ub → 1 ≤ t →
        loop.inductionValues env = some (inductionValues lb ub t) ∧
        (∀ env' : Env, loopRange.size.eval env' = some ub → tileSize.eval env' = some t →
          env'.iv loop.inductionVar ∈ inductionValues lb ub t →
          (nest.offsets[i]?).bind (Expr.eval env') = some (env'.iv loop.inductionVar) ∧
          (nest.sizes[i]?).bind (Expr.eval env') =
            some (min t (ub - env'.iv loop.inductionVar))) ∧
        ((inductionValues lb ub t).length : Int) = ⌈((ub - lb : Int) : ℚ) / (t : ℚ)⌉ ∧
        (∀ x : Int, (∃ iv ∈ inductionValues lb ub t, iv ≤ x ∧ x < iv + min t (ub - iv)) ↔
          lb ≤ x ∧ x < ub) ∧
        (inductionValues lb ub t).Pairwise fun iv iv' =>
          ∀ x : Int, ¬ ((iv ≤ x ∧ x < iv + min t (ub - iv)) ∧
            (iv' ≤ x ∧ x < iv' + min t (ub - iv'))) := by
  have hne : DistributionMethod.None ≠ DistributionMethod.CyclicNumProcsEqNumIters := by
    decide
  obtain ⟨pd, nl, d, hd, hoff, hsize, hloop⟩ :=
    generateTileLoopNest_get loopRanges tileSizeVals distributionMethod procInfo nest h i
      loopRange hr
  obtain ⟨loop, hl, hdo, hub, -, hds⟩ :=
    tileDimension_loop loopRange tileSizeVals distributionMethod procInfo i pd nl d tileSize
      DistributionMethod.None hd ht hz hm hne
  obtain ⟨loop2, hl2, hnone, -⟩ :=
    tileDimension_loop_bounds loopRange tileSizeVals distributionMethod procInfo i pd nl d
      tileSize DistributionMethod.None hd ht hz hm hne
  rw [hl] at hl2
  injection hl2 with hl2
  subst hl2
  obtain ⟨hlb, hstep, -⟩ := hnone rfl
  refine ⟨loop, hloop loop hl, by rw [hoff, hdo], ?_⟩
  intro env lb ub t hlbv hubv htv hle ht1
  have ht0 : 0 < t := by omega
  refine ⟨?_, ?_, length_inductionValues lb ub t hle ht0, tiles_cover lb ub t ht0,
    tiles_disjoint lb ub t ht0⟩
  · unfold ForOp.inductionValues
    rw [hlb, hub, hstep, hlbv, hubv, htv]
    rfl
  · intro env' hubv' htv' hmem
    have hlt : env'.iv loop.inductionVar < ub :=
      ((mem_inductionValues _ _ _ _).1 hmem).2.choose_spec.2
    rw [hoff, hsize, hdo, hds]
    simp only [Option.some_bind]
    exact ⟨rfl, createBoundedTileSize_eval _ _ _ env' _ t ub rfl htv' hubv' hlt⟩

/-- Witness of C27: the range `(0, 10, 1)` tiled by `4` gives the three tiles
`[0, 4)`, `[4, 8)` and `[8, 10)`: their number is `ceil(10 / 4)`. -/
theorem tiles_partition_range_witness :
    inductionValues 0 10 4 = [0, 4, 8] ∧
    ((inductionValues 0 10 4).length : Int) = ⌈((10 - 0 : Int) : ℚ) / ((4 : Int) : ℚ)⌉ ∧
    (∀ x : Int, (∃ iv ∈ inductionValues 0 10 4, iv ≤ x ∧ x < iv + min 4 (10 - iv)) ↔
      0 ≤ x ∧ x < 10) := by
  obtain ⟨loop, hmem, -, hall⟩ :=
    tiles_partition_range [⟨.const 0, .const 10, .const 1⟩] [.const 4]
      [DistributionMethod.None] []
      ⟨[⟨.const 0, .const 10, .const 4, 0⟩], [.iv 0],
        [createBoundedTileSize (.iv 0) (.const 4) (.const 10)]⟩ rfl 0
      ⟨.const 0, .const 10, .const 1⟩ (.const 4) rfl rfl rfl rfl
  obtain ⟨-, -, h3, h4, -⟩ := hall Env.zero 0 10 4 rfl rfl rfl (by decide) (by decide)
  exact ⟨by decide, h3, h4⟩

/-- C28. For every distributed dimension for which a loop is generated, with the
lower bound `lb`, the upper bound `ub`, the tile size `t >= 1` and `nprocs >= 1`
processors, the loop of the processor `procId` visits the induction values from
`lb + procId * t` by `t * nprocs` below `ub`; every induction value of the loop
that is not distributed (from `lb` by `t` below `ub`) is visited by exactly one
`procId` in `[0, nprocs)`, and the distributed loops visit nothing else. -/
theorem distribution_covers_every_tile (loopRange : RangeVal) (tileSizeVals : List Expr)
    (distributionMethod : List DistributionMethod) (procInfo : List ProcInfo)
    (index procDim numLoops : Nat) (d : DimTile) (tileSize : Expr)
    (method : DistributionMethod) (info : ProcInfo) (envOf : Int → Env) (lb ub t n : Int)
    (hd : tileDimension loopRange tileSizeVals distributionMethod procInfo index procDim
      numLoops = .ok d)
    (ht : tileSizeVals[index]? = some tileSize) (hz : isZero tileSize = false)
    (hm : distributionMethod[index]? = some method)
    (hdist : method ≠ DistributionMethod.None)
    (hne : method ≠ DistributionMethod.CyclicNumProcsEqNumIters)
    (hinfo : procInfo[procDim]? = some info)
    (hlb : ∀ p : Int, 0 ≤ p → p < n → loopRange.offset.eval (envOf p) = some lb)
    (hub : ∀ p : Int, 0 ≤ p → p < n → loopRange.size.eval (envOf p) = some ub)
    (htv : ∀ p : Int, 0 ≤ p → p < n → tileSize.eval (envOf p) = some t)
    (hnv : ∀ p : Int, 0 ≤ p → p < n → info.nprocs.eval (envOf p) = some n)
    (hpv : ∀ p : Int, 0 ≤ p → p < n → info.procId.eval (envOf p) = some p)
    (ht1 : 1 ≤ t) (hn1 : 1 ≤ n) :
    ∃ loop : ForOp, d.loop = some loop ∧
      (∀ p : Int, 0 ≤ p → p < n →
        loop.inductionValues (envOf p) = some (inductionValues (lb + p * t) ub (t * n))) ∧
      ∀ iv : Int, iv ∈ inductionValues lb ub t ↔
        ∃! p : Int, (0 ≤ p ∧ p < n) ∧
          ∃ ivs, loop.inductionValues (envOf p) = some ivs ∧ iv ∈ ivs := by
  obtain ⟨loop, hl, -, hub2, -, -⟩ :=
    tileDimension_loop loopRange tileSizeVals distributionMethod procInfo index procDim
      numLoops d tileSize method hd ht hz hm hne
  obtain ⟨loop2, hl2, -, hbounds⟩ :=
    tileDimension_loop_bounds loopRange tileSizeVals distributionMethod procInfo index
      procDim numLoops d tileSize method hd ht hz hm hne
  rw [hl] at hl2
  injection hl2 with hl2
  subst hl2
  obtain ⟨info2, hinfo2, -, hlb2, hstep2⟩ := hbounds hdist
  rw [hinfo] at hinfo2
  injection hinfo2 with hinfo2
  subst hinfo2
  have hvals : ∀ p : Int, 0 ≤ p → p < n →
      loop.inductionValues (envOf p) = some (inductionValues (lb + p * t) ub (t * n)) := by
    intro p hp0 hpn
    obtain ⟨h1, h2⟩ := getDistributeLBAndStep_eval_aux loopRange.offset tileSize
      info.procId info.nprocs (envOf p) lb t p n (hlb p hp0 hpn) (htv p hp0 hpn)
      (hpv p hp0 hpn) (hnv p hp0 hpn)
    unfold ForOp.inductionValues
    rw [hlb2, hub2, hstep2, h1, h2, hub p hp0 hpn]
    rfl
  refine ⟨loop, hl, hvals, ?_⟩
  intro iv
  rw [distributed_inductionValues lb ub t n (by omega) (by omega) iv]
  constructor
  · rintro ⟨p, ⟨⟨hp0, hpn⟩, hp⟩, huniq⟩
    refine ⟨p, ⟨⟨hp0, hpn⟩, _, hvals p hp0 hpn, hp⟩, ?_⟩
    rintro q ⟨⟨hq0, hqn⟩, ivs, hivs, hq⟩
    rw [hvals q hq0 hqn] at hivs
    injection hivs with hivs
    subst hivs
    exact huniq q ⟨⟨hq0, hqn⟩, hq⟩
  · rintro ⟨p, ⟨⟨hp0, hpn⟩, ivs, hivs, hp⟩, huniq⟩
    rw [hvals p hp0 hpn] at hivs
    injection hivs with hivs
    subst hivs
    refine ⟨p, ⟨⟨hp0, hpn⟩, hp⟩, ?_⟩
    rintro q ⟨⟨hq0, hqn⟩, hq⟩
    exact huniq q ⟨⟨hq0, hqn⟩, _, hvals q hq0 hqn, hq⟩

/-- Witness of C28: the range `(0, 10, 1)` tiled by `4` and distributed
cyclically over `2` processors; the induction value `8` of the loop that is not
distributed is visited by exactly one processor. -/
theorem distribution_covers_every_tile_witness :
    (8 : Int) ∈ inductionValues 0 10 4 ∧
    ∃! p : Int, (0 ≤ p ∧ p < 2) ∧
      ∃ ivs, (⟨(getDistributeLBAndStep (.const 0) (.const 4) (.dyn 0) (.const 2)).1, .const 10,
        (getDistributeLBAndStep (.const 0) (.const 4) (.dyn 0) (.const 2)).2, 0⟩ :
          ForOp).inductionValues ⟨fun _ => p, fun _ => 0⟩ = some ivs ∧ (8 : Int) ∈ ivs := by
  obtain ⟨loop, hl, -, hall⟩ :=
    distribution_covers_every_tile ⟨.const 0, .const 10, .const 1⟩ [.const 4]
      [DistributionMethod.Cyclic] [⟨.dyn 0, .const 2, DistributionMethod.Cyclic⟩] 0 0 0
      ⟨.iv 0, createBoundedTileSize (.iv 0) (.const 4) (.const 10),
        some ⟨(getDistributeLBAndStep (.const 0) (.const 4) (.dyn 0) (.const 2)).1, .const 10,
          (getDistributeLBAndStep (.const 0) (.const 4) (.dyn 0) (.const 2)).2, 0⟩, 1⟩
      (.const 4) DistributionMethod.Cyclic ⟨.dyn 0, .const 2, DistributionMethod.Cyclic⟩
      (fun p => ⟨fun _ => p, fun _ => 0⟩) 0 10 4 2 rfl rfl rfl rfl (by decide) (by decide)
      rfl (fun _ _ _ => rfl) (fun _ _ _ => rfl) (fun _ _ _ => rfl) (fun _ _ _ => rfl)
      (fun _ _ _ => rfl) (by decide) (by decide)
  injection hl with hl
  subst hl
  exact ⟨by decide, (hall 8).1 (by decide)⟩

/-- C29. For a dimension with the constant tile size `t >= 1` and the method
`CyclicNumProcsEqNumIters`, whose range starts at `0` and has as its size the
workload `w` of the axis, and whose number of processors is the workgroup count
of the axis: that count evaluates to `n = ceil(w / t)`, no loop is generated,
and for every `procId` in `[0, n)` the tile has the offset `procId * t` and the
size `min(t, w - procId * t)`, which is at least `1`; these tiles cover exactly
`[0, w)` and two different tiles have no point in common. -/
theorem grid_size_matches (loopRange : RangeVal) (tileSizeVals : List Expr)
    (distributionMethod : List DistributionMethod) (procInfo : List ProcInfo)
    (index procDim numLoops : Nat) (d : DimTile) (info : ProcInfo) (t w kDynamic : Int)
    (workloadValue : Expr) (staticLoopRange : Int) (envOf : Int → Env)
    (hd : tileDimension loopRange tileSizeVals distributionMethod procInfo index procDim
      numLoops = .ok d)
    (ht : tileSizeVals[index]? = some (.const t))
    (hm : distributionMethod[index]? = some DistributionMethod.CyclicNumProcsEqNumIters)
    (hinfo : procInfo[procDim]? = some info)
    (ht1 : 1 ≤ t)
    (hlb : ∀ p : Int, loopRange.offset.eval (envOf p) = some 0)
    (hub : ∀ p : Int, loopRange.size.eval (envOf p) = some w)
    (hwl : ∀ p : Int,
      (if staticLoopRange = kDynamic then workloadValue
        else Expr.const staticLoopRange).eval (envOf p) = some w)
    (hnv : ∀ p : Int, info.nprocs.eval (envOf p) =
      (numTilesOfAxis kDynamic workloadValue staticLoopRange (.const t)).eval (envOf p))
    (hpv : ∀ p : Int, info.procId.eval (envOf p) = some p) :
    ∃ n : Int, n = ⌈(w : ℚ) / (t : ℚ)⌉ ∧
      (∀ p : Int, info.nprocs.eval (envOf p) = some n) ∧
      d.loop = none ∧
      (∀ p : Int, 0 ≤ p → p < n →
        d.offset.eval (envOf p) = some (p * t) ∧
        d.size.eval (envOf p) = some (min t (w - p * t)) ∧ 1 ≤ min t (w - p * t)) ∧
      (∀ x : Int, (∃ p : Int, (0 ≤ p ∧ p < n) ∧ p * t ≤ x ∧ x < p * t + min t (w - p * t)) ↔
        0 ≤ x ∧ x < w) ∧
      ∀ p q : Int, 0 ≤ p → p < q → q < n → ∀ x : Int,
        ¬ ((p * t ≤ x ∧ x < p * t + min t (w - p * t)) ∧
          (q * t ≤ x ∧ x < q * t + min t (w - q * t))) := by
  have ht0 : 0 < t := by omega
  have hz : isZero (Expr.const t) = false := by
    simp [isZero, isConstantIntValue]; omega
  have hn : ∀ p : Int,
      (numTilesOfAxis kDynamic workloadValue staticLoopRange (.const t)).eval (envOf p) =
        some ⌈(w : ℚ) / (t : ℚ)⌉ :=
    fun p => numTilesOfAxis_pos kDynamic workloadValue staticLoopRange (envOf p) w t ht0
      (hwl p)
  obtain ⟨info2, hinfo2, hdeq⟩ := tileDimension_eqNumIters loopRange tileSizeVals
    distributionMethod procInfo index procDim numLoops d (.const t) hd ht hz hm
  rw [hinfo] at hinfo2
  injection hinfo2 with hinfo2
  subst hinfo2
  have hceil := ceil_div_eq w t ht0
  have h1 : t * ((w + t - 1) / t) ≤ w + t - 1 := Int.mul_ediv_self_le (by omega)
  have h2 : w + t - 1 < t * ((w + t - 1) / t) + t := Int.lt_mul_ediv_self_add ht0
  have hlt : ∀ p : Int, p < (w + t - 1) / t → p * t < w := by
    intro p hp
    have : (p + 1) * t ≤ ((w + t - 1) / t) * t :=
      mul_le_mul_of_nonneg_right (by omega) (by omega)
    nlinarith
  refine ⟨⌈(w : ℚ) / (t : ℚ)⌉, rfl, fun p => by rw [hnv p, hn p], by rw [hdeq], ?_, ?_, ?_⟩
  · intro p hp0 hpn
    rw [hceil] at hpn
    have hpw := hlt p hpn
    have hlbv := (getDistributeLBAndStep_eval_aux loopRange.offset (.const t) info.procId
      info.nprocs (envOf p) 0 t p ⌈(w : ℚ) / (t : ℚ)⌉ (hlb p) rfl (hpv p)
      (by rw [hnv p, hn p])).1
    rw [Int.zero_add] at hlbv
    rw [hdeq]
    refine ⟨hlbv, ?_, le_min ht1 (by omega)⟩
    exact createBoundedTileSize_eval_of _ _ _ (envOf p) _ t w hlbv rfl (hub p)
      (fun _ => hpw)
  · intro x
    rw [hceil]
    constructor
    · rintro ⟨p, ⟨hp0, -⟩, h3, h4⟩
      have h5 := min_le_right t (w - p * t)
      have h6 : 0 ≤ p * t := mul_nonneg hp0 (by omega)
      constructor <;> omega
    · rintro ⟨hx0, hxw⟩
      have hq0 : 0 ≤ x / t := Int.ediv_nonneg hx0 (by omega)
      have h3 : t * (x / t) ≤ x := Int.mul_ediv_self_le (by omega)
      have h4 : x < t * (x / t) + t := Int.lt_mul_ediv_self_add ht0
      refine ⟨x / t, ⟨hq0, ?_⟩, by nlinarith, ?_⟩
      · have : x / t + 1 ≤ (w + t - 1) / t := by
          rw [Int.le_ediv_iff_mul_le ht0]
          nlinarith
        omega
      · have hm : x - x / t * t < min t (w - x / t * t) :=
          lt_min (by nlinarith) (by nlinarith)
        linarith
  · rintro p q hp0 hpq hqn x ⟨⟨-, h3⟩, ⟨h4, -⟩⟩
    have h5 := min_le_left t (w - p * t)
    have h6 : (p + 1) * t ≤ q * t := mul_le_mul_of_nonneg_right (by omega) (by omega)
    have h7 : (p + 1) * t = p * t + t := by ring
    omega

/-- Witness of C29: the workload `10` with the tile size `4` gives `3`
workgroups; the worker `2` gets the offset `8` and the size `2`. -/
theorem grid_size_matches_witness :
    ∃ n : Int, n = ⌈((10 : Int) : ℚ) / ((4 : Int) : ℚ)⌉ ∧
      (numTilesOfAxis (-1) (.dyn 1) (-1) (.const 4)).eval ⟨fun k => if k = 0 then 2 else 10,
        fun _ => 0⟩ = some n ∧
      (0 ≤ (2 : Int) → 2 < n →
        (getDistributeLBAndStep (.const 0) (.const 4) (.dyn 0)
          (numTilesOfAxis (-1) (.dyn 1) (-1) (.const 4))).1.eval
            ⟨fun k => if k = 0 then 2 else 10, fun _ => 0⟩ = some (2 * 4)) := by
  obtain ⟨n, hn, hnv, -, hall, -, -⟩ :=
    grid_size_matches ⟨.const 0, .dyn 1, .const 1⟩ [.const 4]
      [DistributionMethod.CyclicNumProcsEqNumIters]
      [⟨.dyn 0, numTilesOfAxis (-1) (.dyn 1) (-1) (.const 4),
        DistributionMethod.CyclicNumProcsEqNumIters⟩] 0 0 0
      ⟨(getDistributeLBAndStep (.const 0) (.const 4) (.dyn 0)
          (numTilesOfAxis (-1) (.dyn 1) (-1) (.const 4))).1,
        createBoundedTileSize
          (getDistributeLBAndStep (.const 0) (.const 4) (.dyn 0)
            (numTilesOfAxis (-1) (.dyn 1) (-1) (.const 4))).1 (.const 4) (.dyn 1), none, 1⟩
      ⟨.dyn 0, numTilesOfAxis (-1) (.dyn 1) (-1) (.const 4),
        DistributionMethod.CyclicNumProcsEqNumIters⟩ 4 10 (-1) (.dyn 1) (-1)
      (fun p => ⟨fun k => if k = 0 then p else 10, fun _ => 0⟩) rfl rfl rfl rfl (by decide)
      (fun _ => rfl) (fun _ => rfl) (fun _ => by simp [Expr.eval]) (fun _ => rfl)
      (fun _ => rfl)
  exact ⟨n, hn, hnv 2, fun h0 h2 => (hall 2 h0 h2).1⟩


/-! ## The slices of a producer -/

/-- An operation other than the replaced one is still in the graph after
`replaceOp`. -/
theorem node_replaceOp_isSome (g : OpGraph) (op other : OpId) (value : OpResult)
    (hne : other ≠ op) (h : (g.node other).isSome = true) :
    ((g.replaceOp op value).node other).isSome = true := by
  unfold OpGraph.node at h ⊢
  rw [List.find?_isSome] at h ⊢
  obtain ⟨node, hmem, hid⟩ := h
  have hid2 : node.id = other := by simpa using hid
  unfold OpGraph.replaceOp
  refine ⟨_, List.mem_map.2 ⟨node, List.mem_filter.2 ⟨hmem, ?_⟩, rfl⟩, ?_⟩
  · rw [hid2]
    exact decide_eq_true hne
  · simpa using hid2

/-- A slice `getAllFusableProducerUses` returns is an operation of the graph. -/
theorem sliceOfProducer_node (g : OpGraph) (untiledOp : OpId) (operand : Option OpResult)
    (sliceOp : OpId) (h : sliceOfProducer g untiledOp operand = some sliceOp) :
    (g.node sliceOp).isSome = true := by
  unfold sliceOfProducer at h
  cases operand with
  | none => simp at h
  | some result =>
    simp only at h
    cases hn : g.node result.owner with
    | none => simp [hn] at h
    | some node =>
      simp only [hn] at h
      by_cases hk : node.kind = OpKind.extractSlice
      · rw [if_pos hk] at h
        cases hh : node.operands.head? with
        | none => simp [hh] at h
        | some o =>
          cases o with
          | none => simp [hh] at h
          | some source =>
            simp only [hh] at h
            by_cases hs : source.owner = untiledOp
            · rw [if_pos hs] at h
              injection h with h
              rw [← h, hn]
              rfl
            · rw [if_neg hs] at h
              cases h
      · rw [if_neg hk] at h
        cases h

/-- The loop that replaces the slices does not come upon an erased slice when
the slices are operations of the graph and no slice is listed twice. -/
theorem replaceSlices_not_erased (tiledProducer : Operation) :
    ∀ (sliceOps : List OpId) (st : FusionState), sliceOps.Nodup →
      (∀ sliceOp ∈ sliceOps, (st.graph.node sliceOp).isSome = true) →
      (replaceSlices tiledProducer sliceOps st).1 ≠
        .error (.assertion "use of an erased slice") := by
  intro sliceOps
  induction sliceOps with
  | nil =>
    intro st _ _ h
    simp [replaceSlices] at h
  | cons sliceOp rest ih =>
    intro st hnd hall
    rw [List.nodup_cons] at hnd
    obtain ⟨hnot, hnd⟩ := hnd
    have hs := hall sliceOp (List.mem_cons_self _ _)
    unfold replaceSlices
    cases hn : st.graph.node sliceOp with
    | none => rw [hn] at hs; cases hs
    | some node =>
      simp only
      cases hh : node.operands.head? with
      | none =>
        simp only
        intro h
        injection h with h
        injection h with h
        exact absurd h (by decide)
      | some o =>
        cases o with
        | none =>
          simp only
          intro h
          injection h with h
          injection h with h
          exact absurd h (by decide)
        | some source =>
          simp only
          by_cases hr : tiledProducer.numResults ≤ source.resultNumber
          · rw [if_pos hr]
            intro h
            injection h with h
            cases h
          · rw [if_neg hr]
            apply ih _ hnd
            intro other hmem
            have hne : other ≠ sliceOp := fun heq => hnot (heq ▸ hmem)
            exact node_replaceOp_isSome st.graph sliceOp other _ hne
              (hall other (List.mem_cons_of_mem _ hmem))

/-- The slices `getAllFusableProducerUses` returns are the slices of the
producer behind the operands of the tiled operations, in another order. -/
theorem getAllFusableProducerUses_perm (g : OpGraph) (untiledOp : OpId)
    (tiledOps : List OpId) :
    (getAllFusableProducerUses g untiledOp tiledOps).Perm
      ((tiledOps.flatMap g.getOpOperands).filterMap (sliceOfProducer g untiledOp)) := by
  unfold getAllFusableProducerUses
  rw [List.filterMap_flatMap]
  refine ((List.reverse_perm tiledOps).flatMap_right _).trans ?_
  apply List.Perm.flatMap_left
  intro tiledOp _
  exact (List.reverse_perm _).filterMap _

/-- For every producer and every list of fused operations, the list
`getAllFusableProducerUses` returns holds one entry for every operand of the
fused operations that is defined by a slice of the producer. It contains no
slice twice exactly when no slice is behind two of these operands; in that case
the loop that replaces each collected slice by the result of the tiled producer
never comes upon a slice that is already erased. -/
theorem getAllFusableProducerUses_nodup_iff (g : OpGraph) (untiledOp : OpId) (tiledOps : List OpId) :
    (getAllFusableProducerUses g untiledOp tiledOps).Perm
      ((tiledOps.flatMap g.getOpOperands).filterMap (sliceOfProducer g untiledOp)) ∧
    ((getAllFusableProducerUses g untiledOp tiledOps).Nodup ↔
      ((tiledOps.flatMap g.getOpOperands).filterMap (sliceOfProducer g untiledOp)).Nodup) ∧
    ∀ (tiledProducer : Operation) (ir : IRState),
      (getAllFusableProducerUses g untiledOp tiledOps).Nodup →
      (replaceSlices tiledProducer (getAllFusableProducerUses g untiledOp tiledOps)
        ⟨ir, g⟩).1 ≠ .error (.assertion "use of an erased slice") := by
  have hperm := getAllFusableProducerUses_perm g untiledOp tiledOps
  refine ⟨hperm, hperm.nodup_iff, ?_⟩
  intro tiledProducer ir hnd
  apply replaceSlices_not_erased tiledProducer _ _ hnd
  intro sliceOp hmem
  have hmem2 := hperm.subset hmem
  rw [List.mem_filterMap] at hmem2
  obtain ⟨operand, -, hop⟩ := hmem2
  exact sliceOfProducer_node g untiledOp operand sliceOp hop

/-- C30, the code at the failing input. The tiled consumer `13` of
`sampleSharedSliceGraph` reads the slice `22` of the producer `2` for both of
its operands. `getAllFusableProducerUses` pushes the slice once for each
operand: the list is `[22, 22]` and holds the slice twice. The loop that
replaces the collected slices erases `22` in its first iteration and comes upon
the erased slice in its second. The sibling `getAllFusableProducers` collects
into a set: for the consumer `3`, which uses the producer `2` for both operands,
it returns `2` once. -/
theorem shared_slice_is_replaced_twice :
    getAllFusableProducerUses sampleSharedSliceGraph 2 [13] = [22, 22] ∧
    ¬ (getAllFusableProducerUses sampleSharedSliceGraph 2 [13]).Nodup ∧
    (replaceSlices ⟨12, 1⟩ (getAllFusableProducerUses sampleSharedSliceGraph 2 [13])
      ⟨⟨[], [], [], 100⟩, sampleSharedSliceGraph⟩).1 =
      .error (.assertion "use of an erased slice") ∧
    (replaceSlices ⟨12, 1⟩ [22] ⟨⟨[], [], [], 100⟩, sampleSharedSliceGraph⟩).2.ir.erased =
      [22] ∧
    getAllFusableProducers sampleSharedSliceGraph sampleSort 3 = [2] := by
  refine ⟨rfl, by decide, rfl, rfl, by decide⟩

end Iree
